import Mathlib

/-!
# Event stream: identity, envelope, store, writer and reader

A shallow embedding of the Go packages `domain`, `storage` and `service` of the
stream simulator, with the parts of the Go standard library they call
(`crypto/md5`, `encoding/binary`, `encoding/json`, `time`, `math/rand`) modelled as
executable functions.

Conventions.
* A Go `string` or `[]byte` is a list of bytes, `Bytes`; every element is below 256.
* Go maps are association lists with pairwise distinct keys; `GoMap.set` keeps keys distinct.
* A function that can fail returns an `Outcome`: a value, a returned `error`, or a panic; a
  library function that cannot panic returns an `Except`.
* Random draws and the current time are explicit arguments. The database answers every
  statement; a failure of the connection is not part of the model, except for the query of
  `GetEvent`, whose failure is an explicit argument.
* The database is the engine of the tests of the repository, SQLite with the driver
  `go-sqlite3`.
* A JSON text is kept as its syntax tree, a `Doc`: the encoder builds the tree and `Doc.render`
  gives its bytes; the decoder reads the tree. The values of the extra fields are scalars.
-/

namespace Stream

/-- Byte strings: the contents of a Go `string` or `[]byte`. -/
abbrev Bytes := List Nat

/-- The bytes of an ASCII literal. -/
def ascii (s : String) : Bytes := s.toList.map Char.toNat

/-- Result of a Go call: a value, a returned error, or a run-time panic. -/
inductive Outcome (α : Type) where
  | ok (a : α)
  | error (msg : String)
  | panic (msg : String)
deriving DecidableEq, Repr

deriving instance DecidableEq for Except

/-! ## crypto/md5 -/

namespace MD5

/-- The modulus `2^32` of the 32-bit words. -/
def mask32 : Nat := 4294967296

/-- Rotation of a 32-bit word to the left (`bits.RotateLeft32`). -/
def rotl32 (x s : Nat) : Nat :=
  ((x <<< s) % mask32) ||| (x >>> (32 - s))

/-- Complement of a 32-bit word. -/
def not32 (x : Nat) : Nat := 4294967295 - x

/-- The four round functions of MD5, selected by the round number. -/
def roundF (r b c d : Nat) : Nat :=
  match r with
  | 0 => (((c ^^^ d) &&& b) ^^^ d)
  | 1 => (((b ^^^ c) &&& d) ^^^ c)
  | 2 => (b ^^^ c ^^^ d)
  | _ => (c ^^^ (b ||| not32 d))

/-- The additive constants of the 64 steps. -/
def sineTable : List Nat :=
  [3614090360, 3905402710, 606105819, 3250441966, 4118548399, 1200080426, 2821735955, 4249261313,
   1770035416, 2336552879, 4294925233, 2304563134, 1804603682, 4254626195, 2792965006, 1236535329,
   4129170786, 3225465664, 643717713, 3921069994, 3593408605, 38016083, 3634488961, 3889429448,
   568446438, 3275163606, 4107603335, 1163531501, 2850285829, 4243563512, 1735328473, 2368359562,
   4294588738, 2272392833, 1839030562, 4259657740, 2763975236, 1272893353, 4139469664, 3200236656,
   681279174, 3936430074, 3572445317, 76029189, 3654602809, 3873151461, 530742520, 3299628645,
   4096336452, 1126891415, 2878612391, 4237533241, 1700485571, 2399980690, 4293915773, 2240044497,
   1873313359, 4264355552, 2734768916, 1309151649, 4149444226, 3174756917, 718787259, 3951481745]

/-- The rotation amounts of the 64 steps. -/
def shiftTable : List Nat :=
  [7, 12, 17, 22, 7, 12, 17, 22, 7, 12, 17, 22, 7, 12, 17, 22,
   5, 9, 14, 20, 5, 9, 14, 20, 5, 9, 14, 20, 5, 9, 14, 20,
   4, 11, 16, 23, 4, 11, 16, 23, 4, 11, 16, 23, 4, 11, 16, 23,
   6, 10, 15, 21, 6, 10, 15, 21, 6, 10, 15, 21, 6, 10, 15, 21]

/-- Index of the message word used by step `i`. -/
def wordIndex (i : Nat) : Nat :=
  match i / 16 with
  | 0 => i
  | 1 => (5 * i + 1) % 16
  | 2 => (3 * i + 5) % 16
  | _ => (7 * i) % 16

/-- The chaining value `s[0..3]` of the digest. -/
structure State where
  a : Nat
  b : Nat
  c : Nat
  d : Nat
deriving DecidableEq, Repr

/-- The initial chaining value. -/
def init : State := ⟨0x67452301, 0xefcdab89, 0x98badcfe, 0x10325476⟩

/-- Little-endian 32-bit words of a block. -/
def words : Bytes → List Nat
  | b0 :: b1 :: b2 :: b3 :: rest => (b0 + 256 * b1 + 65536 * b2 + 16777216 * b3) :: words rest
  | _ => []

/-- Step `i` of the 64 steps on the message words `x`. -/
def step (x : List Nat) (st : State) (i : Nat) : State :=
  let f := (roundF (i / 16) st.b st.c st.d + st.a + x.getD (wordIndex i) 0 + sineTable.getD i 0) % mask32
  ⟨st.d, (st.b + rotl32 f (shiftTable.getD i 0)) % mask32, st.b, st.c⟩

/-- The compression of one 64-byte block (`blockGeneric`). -/
def block (st : State) (p : Bytes) : State :=
  let x := words p
  let r := (List.range 64).foldl (step x) st
  ⟨(st.a + r.a) % mask32, (st.b + r.b) % mask32, (st.c + r.c) % mask32, (st.d + r.d) % mask32⟩

/-- The streaming digest: chaining value, buffered bytes, total length. -/
structure Digest where
  s : State
  x : Bytes
  len : Nat

/-- Digest in its initial state (`md5.New`). -/
def new : Digest := ⟨init, [], 0⟩

/-- One byte fed to the digest; a full buffer of 64 bytes is compressed. -/
def writeByte (d : Digest) (b : Nat) : Digest :=
  let x := d.x ++ [b]
  if x.length = 64 then ⟨block d.s x, [], d.len + 1⟩ else ⟨d.s, x, d.len + 1⟩

/-- Feeding bytes to the digest (`Write`). -/
def write (d : Digest) (p : Bytes) : Digest := p.foldl writeByte d

/-- The four little-endian bytes of a 32-bit word. -/
def le32 (w : Nat) : Bytes := [w % 256, w / 256 % 256, w / 65536 % 256, w / 16777216 % 256]

/-- The eight little-endian bytes of a 64-bit word. -/
def le64 (w : Nat) : Bytes := le32 (w % mask32) ++ le32 (w / mask32 % mask32)

/-- Padding and final chaining value as 16 bytes (`Sum(nil)`). -/
def sum (d : Digest) : Bytes :=
  let padLen := if d.len % 64 < 56 then 56 - d.len % 64 else 120 - d.len % 64
  let pad := 128 :: List.replicate (padLen - 1) 0
  let d1 := write (write d pad) (le64 ((d.len * 8) % 18446744073709551616))
  le32 d1.s.a ++ le32 d1.s.b ++ le32 d1.s.c ++ le32 d1.s.d

end MD5

/-- One lowercase hexadecimal digit, as a byte. -/
def hexDigit (n : Nat) : Nat := if n < 10 then 48 + n else 87 + n

/-- Lowercase hexadecimal text of a byte string (`fmt.Sprintf("%x", b)`). -/
def hex (bs : Bytes) : Bytes := bs.flatMap fun b => [hexDigit (b / 16), hexDigit (b % 16)]

/-! ## Decimal digits -/

/-- Decimal digits of `n` put before `acc`; `fuel` bounds the number of digits. -/
def natDigitsAux : Nat → Nat → Bytes → Bytes
  | 0, _, acc => acc
  | fuel + 1, n, acc =>
    if n < 10 then (48 + n) :: acc else natDigitsAux fuel (n / 10) ((48 + n % 10) :: acc)

/-- Decimal digits of a natural number. -/
def natDigits (n : Nat) : Bytes := natDigitsAux (n + 1) n []

/-! ## time -/

/-- A `time.Time`: the instant as Unix seconds plus nanoseconds, and the zone offset of its
location in seconds east of UTC. -/
structure Time where
  sec : Int
  nsec : Nat
  loc : Int
deriving DecidableEq, Repr

/-- Two's-complement wrap of an integer to `int64`. -/
def wrapInt64 (x : Int) : Int := (x + 9223372036854775808) % 18446744073709551616 - 9223372036854775808

/-- Seconds since the Unix epoch, an `int64` (`t.Unix()`). -/
def Time.Unix (t : Time) : Int := wrapInt64 t.sec

/-- The same instant in the UTC location (`t.UTC()`). -/
def Time.UTC (t : Time) : Time := { t with loc := 0 }

/-- Nanoseconds since the epoch, the quantity instants are ordered by. -/
def Time.nanos (t : Time) : Int := t.sec * 1000000000 + t.nsec

/-- Sum of a time and a duration in nanoseconds (`t.Add(d)`). -/
def Time.Add (t : Time) (d : Int) : Time :=
  let dsec := Int.tdiv d 1000000000
  let nsec : Int := (t.nsec : Int) + Int.tmod d 1000000000
  if 1000000000 ≤ nsec then { t with sec := t.sec + (dsec + 1), nsec := (nsec - 1000000000).toNat }
  else if nsec < 0 then { t with sec := t.sec + (dsec - 1), nsec := (nsec + 1000000000).toNat }
  else { t with sec := t.sec + dsec, nsec := nsec.toNat }

/-- The duration `time.Second`, in nanoseconds. -/
def Second : Int := 1000000000

/-- Product of two durations, an `int64`. -/
def Duration.mul (a b : Int) : Int := wrapInt64 (a * b)

/-- Civil date of a day number counted from 1970-01-01, proleptic Gregorian calendar. -/
def civilFromDays (z : Int) : Int × Int × Int :=
  let z := z + 719468
  let era := z / 146097
  let doe := z % 146097
  let yoe := (doe - doe / 1460 + doe / 36524 - doe / 146096) / 365
  let doy := doe - (365 * yoe + yoe / 4 - yoe / 100)
  let mp := (5 * doy + 2) / 153
  let d := doy - (153 * mp + 2) / 5 + 1
  let m := if mp < 10 then mp + 3 else mp - 9
  let y := yoe + era * 400
  (if m ≤ 2 then y + 1 else y, m, d)

/-- Day number counted from 1970-01-01 of a civil date. -/
def daysFromCivil (y m d : Int) : Int :=
  let y := if m ≤ 2 then y - 1 else y
  let era := y / 400
  let yoe := y % 400
  let doy := (153 * (if 2 < m then m - 3 else m + 9) + 2) / 5 + d - 1
  let doe := yoe * 365 + yoe / 4 - yoe / 100 + doy
  era * 146097 + doe - 719468

/-- Leap year of the Gregorian calendar. -/
def isLeap (y : Int) : Bool := y % 4 = 0 ∧ (y % 100 ≠ 0 ∨ y % 400 = 0)

/-- Number of days of a month. -/
def daysIn (y m : Int) : Int :=
  if m = 2 then (if isLeap y then 29 else 28)
  else if m = 4 ∨ m = 6 ∨ m = 9 ∨ m = 11 then 30 else 31

/-- Two decimal digits. -/
def pad2 (n : Nat) : Bytes := [48 + n / 10 % 10, 48 + n % 10]

/-- Four decimal digits. -/
def pad4 (n : Nat) : Bytes := [48 + n / 1000 % 10, 48 + n / 100 % 10, 48 + n / 10 % 10, 48 + n % 10]

/-- Nine decimal digits. -/
def pad9 (n : Nat) : Bytes :=
  [48 + n / 100000000 % 10, 48 + n / 10000000 % 10, 48 + n / 1000000 % 10, 48 + n / 100000 % 10,
   48 + n / 10000 % 10, 48 + n / 1000 % 10, 48 + n / 100 % 10, 48 + n / 10 % 10, 48 + n % 10]

/-- Removal of the zero digits at the end. -/
def trimZeros (ds : Bytes) : Bytes := (ds.reverse.dropWhile (· = 48)).reverse

/-- Fractional second, empty for a whole second (layout `.999999999`). -/
def formatNano (nsec : Nat) : Bytes := if nsec = 0 then [] else 46 :: trimZeros (pad9 nsec)

/-- The function `appendInt` of package `time`: the decimal digits of `x`, filled with zeros
to the width, after a minus sign when `x` is negative. -/
def appendInt (x : Int) (width : Nat) : Bytes :=
  let ds := natDigits x.natAbs
  (if x < 0 then [45] else []) ++ (List.replicate (width - ds.length) 48 ++ ds)

/-- Zone as `±hh:mm` (layout `-07:00`). -/
def formatOffset (offset : Int) : Bytes :=
  let zone := Int.tdiv offset 60
  let a := zone.natAbs
  (if zone < 0 then 45 else 43) :: (appendInt (a / 60 : Nat) 2 ++ 58 :: appendInt (a % 60 : Nat) 2)

/-- Zone as `Z` or `±hh:mm` (layout `Z07:00`). -/
def formatZone (offset : Int) : Bytes := if offset = 0 then [90] else formatOffset offset

/-- Date as `yyyy-mm-dd`. -/
def formatDate (y m d : Nat) : Bytes := pad4 y ++ 45 :: (pad2 m ++ 45 :: pad2 d)

/-- Clock as `hh:mm:ss`, from the second of the day. -/
def formatClock (sod : Nat) : Bytes :=
  pad2 (sod / 3600) ++ 58 :: (pad2 (sod / 60 % 60) ++ 58 :: pad2 (sod % 60))

/-- Civil date of a time in its own location. -/
def Time.civil (t : Time) : Int × Int × Int := civilFromDays ((t.sec + t.loc) / 86400)

/-- Second of the day of a time in its own location. -/
def Time.secondOfDay (t : Time) : Nat := ((t.sec + t.loc) % 86400).toNat

/-- Text of a time in the layout `RFC3339Nano`, as `Time.MarshalJSON` writes it; an error
when the year is outside `[0, 9999]`. -/
def Time.format (t : Time) : Except String Bytes :=
  if t.civil.1 < 0 ∨ 10000 ≤ t.civil.1 then .error "Time.MarshalJSON: year outside of range [0,9999]"
  else .ok (formatDate t.civil.1.toNat t.civil.2.1.toNat t.civil.2.2.toNat ++ 84 ::
    (formatClock t.secondOfDay ++ (formatNano t.nsec ++ formatZone t.loc)))

/-- Value of a decimal digit. -/
def digit? (c : Nat) : Option Nat := if 48 ≤ c ∧ c ≤ 57 then some (c - 48) else none

/-- Reads exactly two digits. -/
def take2 : Bytes → Option (Nat × Bytes)
  | a :: b :: rest => do
    let x ← digit? a
    let y ← digit? b
    pure (10 * x + y, rest)
  | _ => none

/-- Reads exactly four digits. -/
def take4 : Bytes → Option (Nat × Bytes)
  | a :: b :: c :: d :: rest => do
    let x ← digit? a
    let y ← digit? b
    let z ← digit? c
    let w ← digit? d
    pure (1000 * x + 100 * y + 10 * z + w, rest)
  | _ => none

/-- Reads one or two digits (`getnum` with `fixed` false). -/
def take12 : Bytes → Option (Nat × Bytes)
  | [] => none
  | a :: rest =>
    match digit? a with
    | none => none
    | some x =>
      match rest with
      | [] => some (x, rest)
      | b :: rest1 =>
        match digit? b with
        | some y => some (10 * x + y, rest1)
        | none => some (x, rest)

/-- Reads one given byte. -/
def expect (c : Nat) : Bytes → Option Bytes
  | a :: rest => if a = c then some rest else none
  | [] => none

/-- Reads the digits of a fractional second: `scale` is the weight of the next digit. -/
def takeFrac (scale : Nat) : Bytes → Nat × Bytes
  | [] => (0, [])
  | c :: rest =>
    match digit? c with
    | some v => let (n, r) := takeFrac (scale / 10) rest; (v * scale + n, r)
    | none => (0, c :: rest)

/-- Reads an optional fractional second, in nanoseconds: a period or a comma, then digits, of
which those after the ninth are dropped. -/
def takeNano : Bytes → Option (Nat × Bytes)
  | c0 :: c :: rest =>
    if (c0 = 46 ∨ c0 = 44) ∧ (digit? c).isSome then some (takeFrac 100000000 (c :: rest))
    else some (0, c0 :: c :: rest)
  | s => some (0, s)

/-- Reads the zone `±hh:mm` (layout `-07:00`), in seconds east of UTC; an hour above 24 or a
minute above 60 is out of range. -/
def takeOffset : Bytes → Option (Int × Bytes)
  | [] => none
  | c :: rest =>
    if c = 43 ∨ c = 45 then
      (take2 rest).bind fun p1 => (expect 58 p1.2).bind fun r1 =>
      (take2 r1).bind fun p2 =>
        if 24 < p1.1 ∨ 60 < p2.1 then none
        else some ((if c = 45 then -1 else 1) * ((p1.1 * 60 + p2.1) * 60 : Int), p2.2)
    else none

/-- Reads the zone `Z` or `±hh:mm` (layout `Z07:00`), in seconds east of UTC. -/
def takeZone : Bytes → Option (Int × Bytes)
  | 90 :: rest => some (0, rest)
  | s => takeOffset s

/-- Reads the date `yyyy-mm-dd`. -/
def takeDate (s : Bytes) : Option ((Nat × Nat × Nat) × Bytes) :=
  (take4 s).bind fun p1 => (expect 45 p1.2).bind fun r1 =>
  (take2 r1).bind fun p2 => (expect 45 p2.2).bind fun r2 =>
  (take2 r2).bind fun p3 => some ((p1.1, p2.1, p3.1), p3.2)

/-- Reads the clock `hh:mm:ss`; the hour may have one digit. -/
def takeClock (s : Bytes) : Option ((Nat × Nat × Nat) × Bytes) :=
  (take12 s).bind fun p1 => (expect 58 p1.2).bind fun r1 =>
  (take2 r1).bind fun p2 => (expect 58 p2.2).bind fun r2 =>
  (take2 r2).bind fun p3 => some ((p1.1, p2.1, p3.1), p3.2)

/-- Check of the fields read, and the instant they denote. -/
def assemble (date clock : Nat × Nat × Nat) (ns : Nat) (off : Int) : Option Time :=
  let y : Int := date.1
  let m : Int := date.2.1
  let d : Int := date.2.2
  if m < 1 ∨ 12 < m ∨ d < 1 ∨ daysIn y m < d ∨ 24 ≤ clock.1 ∨ 60 ≤ clock.2.1 ∨ 60 ≤ clock.2.2 then none
  else some { sec := daysFromCivil y m d * 86400 + clock.1 * 3600 + clock.2.1 * 60 + clock.2.2 - off,
              nsec := ns, loc := off }

/-- Reading of a time in the layout `RFC3339` (`time.Parse(time.RFC3339, s)`). -/
def Time.parse (s : Bytes) : Option Time :=
  (takeDate s).bind fun p1 => (expect 84 p1.2).bind fun r1 =>
  (takeClock r1).bind fun p2 => (takeNano p2.2).bind fun p3 =>
  (takeZone p3.2).bind fun p4 =>
  if p4.2 ≠ [] then none else assemble p1.1 p2.1 p3.1 p4.1

/-- Text of a time in the layout `2006-01-02 15:04:05.999999999-07:00` (`t.Format`); the year
has more than four characters when it is negative or above 9999. -/
def Time.timestamp (t : Time) : Bytes :=
  appendInt t.civil.1 4 ++ 45 :: (pad2 t.civil.2.1.toNat ++ 45 :: (pad2 t.civil.2.2.toNat ++ 32 ::
    (formatClock t.secondOfDay ++ (formatNano t.nsec ++ formatOffset t.loc))))

/-- Reading of a time in the layout `2006-01-02 15:04:05.999999999-07:00`
(`time.ParseInLocation`). -/
def parseTimestamp (s : Bytes) : Option Time :=
  (takeDate s).bind fun p1 => (expect 32 p1.2).bind fun r1 =>
  (takeClock r1).bind fun p2 => (takeNano p2.2).bind fun p3 =>
  (takeOffset p3.2).bind fun p4 =>
  if p4.2 ≠ [] then none else assemble p1.1 p2.1 p3.1 p4.1

/-- The zero `time.Time`, 0001-01-01 00:00:00 UTC. -/
def zeroTime : Time := ⟨-62135596800, 0, 0⟩

/-! ## Go maps -/

/-- A Go `map[string]T` as an association list; its keys are pairwise distinct. -/
abbrev GoMap (α : Type) := List (Bytes × α)

namespace GoMap

/-- Lookup `m[k]`. -/
def get {α : Type} : GoMap α → Bytes → Option α
  | [], _ => none
  | (k1, v) :: m, k => if k1 = k then some v else get m k

/-- Assignment `m[k] = v`. -/
def set {α : Type} : GoMap α → Bytes → α → GoMap α
  | [], k, v => [(k, v)]
  | (k1, v1) :: m, k, v => if k1 = k then (k, v) :: m else (k1, v1) :: set m k v

/-- Removal `delete(m, k)`. -/
def delete {α : Type} (m : GoMap α) (k : Bytes) : GoMap α := m.filter fun kv => kv.1 ≠ k

/-- Keys of the map. -/
def keys {α : Type} (m : GoMap α) : List Bytes := m.map Prod.fst

/-- Assignment of every entry of `src` into `m`, in iteration order. -/
def setAll {α : Type} (m : GoMap α) (src : GoMap α) : GoMap α :=
  src.foldl (fun acc kv => set acc kv.1 kv.2) m

end GoMap

/-! ## encoding/json -/

/-- A dynamic Go value held in an `interface{}`: the scalars that occur as extra fields, and
`time.Time`. `int n` is a Go `int`; `float x` is a `float64` whose value is the integer `x`, as
the decoder stores it for an integer literal. -/
inductive Value where
  | null
  | bool (b : Bool)
  | int (n : Int)
  | float (x : Int)
  | str (s : Bytes)
  | time (t : Time)
deriving DecidableEq, Repr

/-- A scalar of a JSON text. Number literals are integers. -/
inductive Json where
  | null
  | bool (b : Bool)
  | num (n : Int)
  | str (s : Bytes)
deriving DecidableEq, Repr

/-- A JSON text, by its syntax tree: a scalar or a flat object (members in textual order). -/
inductive Doc where
  | val (j : Json)
  | obj (fields : List (Bytes × Json))
deriving DecidableEq, Repr

/-- The contents of a `[]byte` handed to the JSON decoder: not a JSON text at all (as the nil
slice), or the text of a document. -/
inductive Text where
  | invalid
  | doc (d : Doc)
deriving DecidableEq, Repr

/-- Decimal text of an integer (`strconv.AppendInt`). -/
def renderInt (n : Int) : Bytes := if n < 0 then 45 :: natDigits n.natAbs else natDigits n.toNat

/-- Continuation byte of UTF-8. -/
def isCont (b : Nat) : Bool := 128 ≤ b ∧ b ≤ 191

/-- First rune of a byte string and its width (`utf8.DecodeRuneInString`); `none` is the
`RuneError` of an invalid encoding, of width 1. -/
def decodeRune : Bytes → Option Nat × Nat
  | [] => (none, 0)
  | b0 :: rest =>
    if b0 < 128 then (some b0, 1)
    else if 194 ≤ b0 ∧ b0 ≤ 223 then
      match rest with
      | b1 :: _ => if isCont b1 then (some ((b0 - 192) * 64 + (b1 - 128)), 2) else (none, 1)
      | _ => (none, 1)
    else if 224 ≤ b0 ∧ b0 ≤ 239 then
      match rest with
      | b1 :: b2 :: _ =>
        if (if b0 = 224 then 160 else 128) ≤ b1 ∧ b1 ≤ (if b0 = 237 then 159 else 191) ∧ isCont b2
        then (some ((b0 - 224) * 4096 + (b1 - 128) * 64 + (b2 - 128)), 3) else (none, 1)
      | _ => (none, 1)
    else if 240 ≤ b0 ∧ b0 ≤ 244 then
      match rest with
      | b1 :: b2 :: b3 :: _ =>
        if (if b0 = 240 then 144 else 128) ≤ b1 ∧ b1 ≤ (if b0 = 244 then 143 else 191)
            ∧ isCont b2 ∧ isCont b3
        then (some ((b0 - 240) * 262144 + (b1 - 128) * 4096 + (b2 - 128) * 64 + (b3 - 128)), 4)
        else (none, 1)
      | _ => (none, 1)
    else (none, 1)

/-- The runes of a string; `fuel` bounds their number. -/
def runesAux : Nat → Bytes → List (Option Nat)
  | 0, _ => []
  | _ + 1, [] => []
  | fuel + 1, b :: rest =>
    (decodeRune (b :: rest)).1 :: runesAux fuel ((b :: rest).drop (decodeRune (b :: rest)).2)

/-- The runes of a Go string, read from left to right. -/
def runes (s : Bytes) : List (Option Nat) := runesAux s.length s

/-- UTF-8 encoding of a rune. -/
def encodeRune (c : Nat) : Bytes :=
  if c < 128 then [c]
  else if c < 2048 then [192 + c / 64 % 32, 128 + c % 64]
  else if c < 65536 then [224 + c / 4096 % 16, 128 + c / 64 % 64, 128 + c % 64]
  else [240 + c / 262144 % 8, 128 + c / 4096 % 64, 128 + c / 64 % 64, 128 + c % 64]

/-- The string with every invalid byte replaced by U+FFFD, which is what a string becomes
when written to JSON and read back. -/
def toValidUTF8 (s : Bytes) : Bytes :=
  (runes s).flatMap fun r => match r with
    | some c => encodeRune c
    | none => [239, 191, 189]

/-- What the encoder writes for one rune of a string (HTML escaping on). -/
def escapeRune (r : Option Nat) : Bytes :=
  match r with
  | none => [92, 117, 102, 102, 102, 100]
  | some c =>
    if c < 128 then
      if c = 34 ∨ c = 92 then [92, c]
      else if c = 10 then [92, 110]
      else if c = 13 then [92, 114]
      else if c = 9 then [92, 116]
      else if c < 32 ∨ c = 60 ∨ c = 62 ∨ c = 38 then [92, 117, 48, 48, hexDigit (c / 16), hexDigit (c % 16)]
      else [c]
    else if c = 8232 ∨ c = 8233 then [92, 117, 50, 48, 50, hexDigit (c % 16)]
    else encodeRune c

/-- A string literal of a JSON text. -/
def quote (s : Bytes) : Bytes := 34 :: ((runes s).flatMap escapeRune ++ [34])

/-- The bytes of a scalar. -/
def Json.render : Json → Bytes
  | .null => [110, 117, 108, 108]
  | .bool true => [116, 114, 117, 101]
  | .bool false => [102, 97, 108, 115, 101]
  | .num n => renderInt n
  | .str s => quote s

/-- The bytes of one member `"key":value`. -/
def renderMember (f : Bytes × Json) : Bytes := quote f.1 ++ 58 :: f.2.render

/-- The members of an object, separated by commas. -/
def renderMembers : List (Bytes × Json) → Bytes
  | [] => []
  | [f] => renderMember f
  | f :: g :: fs => renderMember f ++ 44 :: renderMembers (g :: fs)

/-- The bytes of a JSON text, in the compact form the encoder writes. -/
def Doc.render : Doc → Bytes
  | .val j => j.render
  | .obj fs => 123 :: (renderMembers fs ++ [125])

/-- Encoding of a time: the string of its RFC 3339 text (`Time.MarshalJSON`). -/
def marshalTime (t : Time) : Except String Json := t.format.map Json.str

/-- Encoding of one value (`json.Marshal` on an `interface{}`). A `float64` of integer value is
written by its digits, as Go writes it below `10^21`. -/
def marshalValue : Value → Except String Json
  | .null => .ok .null
  | .bool b => .ok (.bool b)
  | .int n => .ok (.num n)
  | .float x => .ok (.num x)
  | .str s => .ok (.str s)
  | .time t => marshalTime t

/-- Encoding of the entries of a map, in the order given; the first failure is returned. -/
def marshalFields : GoMap Value → Except String (List (Bytes × Json))
  | [] => .ok []
  | (k, v) :: m =>
    match marshalValue v with
    | .error msg => .error msg
    | .ok j =>
      match marshalFields m with
      | .error msg => .error msg
      | .ok fs => .ok ((k, j) :: fs)

/-- The entries of a map ordered by key, the order in which the encoder writes them. -/
def sortByKey {α : Type} (m : GoMap α) : GoMap α := m.insertionSort fun a b => a.1 ≤ b.1

/-- Encoding of a map (`json.Marshal` on a `map[string]interface{}`): `null` for the nil map,
else an object with its keys sorted. -/
def jsonMarshal (m : Option (GoMap Value)) : Except String Doc :=
  match m with
  | none => .ok (.val .null)
  | some m =>
    match marshalFields (sortByKey m) with
    | .error msg => .error msg
    | .ok fs => .ok (.obj fs)

/-- Number of binary digits of `n`; `fuel` bounds it. -/
def bitLengthAux : Nat → Nat → Nat
  | 0, _ => 0
  | fuel + 1, n => if n = 0 then 0 else bitLengthAux fuel (n / 2) + 1

/-- Number of binary digits. -/
def bitLength (n : Nat) : Nat := bitLengthAux n n

/-- The `float64` nearest to an integer, ties to even: the value the decoder stores for an
integer literal. -/
def roundFloat64 (n : Int) : Int :=
  let a := n.natAbs
  let k := bitLength a - 53
  let q := a / 2 ^ k
  let r := a % 2 ^ k
  let q1 := if 2 ^ k < 2 * r ∨ (2 * r = 2 ^ k ∧ q % 2 = 1) then q + 1 else q
  if n < 0 then -((q1 * 2 ^ k : Nat) : Int) else ((q1 * 2 ^ k : Nat) : Int)

/-- Decoding of one scalar into an `interface{}`. -/
def unmarshalValue : Json → Value
  | .null => .null
  | .bool b => .bool b
  | .num n => .float (roundFloat64 n)
  | .str s => .str (toValidUTF8 s)

/-- The value read back from the JSON written for a value; none when the value cannot be
written. -/
def decodeEncoded (v : Value) : Option Value :=
  match marshalValue v with
  | .ok j => some (unmarshalValue j)
  | .error _ => none

/-- Decoding into a `map[string]interface{}` (`json.Unmarshal(data, &m)`): `null` sets the map to
nil, an object stores its members into the map, anything else is an error. -/
def jsonUnmarshal (data : Text) (m : Option (GoMap Value)) : Except String (Option (GoMap Value)) :=
  match data with
  | .invalid => .error "invalid character looking for beginning of value"
  | .doc (.val .null) => .ok none
  | .doc (.val _) => .error "json: cannot unmarshal value into Go value of type map[string]interface {}"
  | .doc (.obj fs) =>
    .ok (some (fs.foldl (fun acc f => GoMap.set acc (toValidUTF8 f.1) (unmarshalValue f.2)) (m.getD [])))

/-! ## package domain -/

/-- The type `ExtraFields`, a `map[string]interface{}`; `none` is the nil map. -/
abbrev ExtraFields := Option (GoMap Value)

/-- The entries a `range` over the map visits; none for the nil map. -/
def entries {α : Type} (m : Option (GoMap α)) : GoMap α := m.getD []

/-- The struct `Event`. -/
structure Event where
  ID : Bytes
  Typ : Bytes
  Time : Time
  ExtraFields : ExtraFields
deriving DecidableEq, Repr

/-- The bytes `fields` of `fields, _ := json.Marshal(extraFields)`: the error is dropped and the
slice is then nil. -/
def fieldsBytes (extraFields : ExtraFields) : Bytes :=
  match jsonMarshal extraFields with
  | .ok d => d.render
  | .error _ => []

/-- The eight bytes `binary.Write(h, binary.LittleEndian, x)` writes for an `int64`. -/
def littleEndianInt64 (x : Int) : Bytes := MD5.le64 (x % 18446744073709551616).toNat

/-- The function `NewEvent`: the ID is the hexadecimal MD5 of the type, the Unix seconds and the
JSON of the extra fields, written to the digest in this order. -/
def NewEvent (typ : Bytes) (t : Time) (extraFields : ExtraFields) : Event :=
  let h := MD5.new
  let h := MD5.write h typ
  let h := MD5.write h (littleEndianInt64 t.Unix)
  let fields := fieldsBytes extraFields
  let h := MD5.write h fields
  let md5sum := hex (MD5.sum h)
  { ID := md5sum, Typ := typ, Time := t, ExtraFields := extraFields }

/-- The method `ExtraFields.Value`: the JSON encoding. -/
def ExtraFields.Value (e : ExtraFields) : Except String Doc := jsonMarshal e

/-- The method `ExtraFields.Scan` on a database value; `none` is a value that is not a
`[]byte`, as SQL NULL. -/
def ExtraFields.Scan (value : Option Text) : Except String ExtraFields :=
  match value with
  | none => .error "type assertion to []byte failed"
  | some b =>
    match jsonUnmarshal b (some []) with
    | .error msg => .error msg
    | .ok x => .ok x

/-- The type assertion `v.(string)` on the result of a map lookup; it panics on a missing key
and on a value that is not a string. -/
def assertString (v : Option Value) : Outcome Bytes :=
  match v with
  | some (.str s) => .ok s
  | some .null => .panic "interface conversion: interface {} is nil, not string"
  | some _ => .panic "interface conversion: interface {} is not string"
  | none => .panic "interface conversion: interface {} is nil, not string"

/-- The method `Event.UnmarshalJSON`; every field of the receiver is overwritten on success. -/
def Event.UnmarshalJSON (data : Text) : Outcome Event :=
  match jsonUnmarshal data (some []) with
  | .error msg => .error msg
  | .ok input =>
    match assertString (GoMap.get (entries input) (ascii "time")) with
    | .error msg => .error msg
    | .panic msg => .panic msg
    | .ok ts =>
      match Time.parse ts with
      | none => .error "parsing time: cannot parse"
      | some t =>
        match assertString (GoMap.get (entries input) (ascii "type")) with
        | .error msg => .error msg
        | .panic msg => .panic msg
        | .ok typ =>
          match assertString (GoMap.get (entries input) (ascii "id")) with
          | .error msg => .error msg
          | .panic msg => .panic msg
          | .ok id =>
            .ok { Time := t, Typ := typ, ID := id,
                  ExtraFields := input.map fun m =>
                    GoMap.delete (GoMap.delete (GoMap.delete m (ascii "time")) (ascii "type")) (ascii "id") }

/-- The map `input` of `Event.MarshalJSON` when it is handed to the encoder: the envelope keys
are stored first, then every extra field is stored under its own key. -/
def marshalInput (e : Event) : GoMap Value :=
  let input : GoMap Value := []
  let input := GoMap.set input (ascii "time") (.time e.Time)
  let input := GoMap.set input (ascii "id") (.str e.ID)
  let input := GoMap.set input (ascii "type") (.str e.Typ)
  GoMap.setAll input (entries e.ExtraFields)

/-- The method `Event.MarshalJSON`. -/
def Event.MarshalJSON (e : Event) : Except String Doc := jsonMarshal (some (marshalInput e))

/-- A string that is valid UTF-8: writing it to JSON and reading it back leaves it unchanged. -/
def validUTF8 (s : Bytes) : Prop := toValidUTF8 s = s

instance (s : Bytes) : Decidable (validUTF8 s) := by unfold validUTF8; infer_instance

/-- A time that has an RFC 3339 text which denotes it to the second: the year is in `[0, 9999]`, the
nanoseconds are below one second and the zone offset is a number of whole minutes within a day. -/
def Time.wireSafe (t : Time) : Prop :=
  0 ≤ t.civil.1 ∧ t.civil.1 < 10000 ∧ t.nsec < 1000000000
    ∧ t.loc % 60 = 0 ∧ -86400 < t.loc ∧ t.loc < 86400

instance (t : Time) : Decidable t.wireSafe := by unfold Time.wireSafe; infer_instance

/-- The bytes `NewEvent` writes to the digest: the type, the Unix second as eight little-endian
bytes, and the JSON of the extra fields. -/
def idInput (typ : Bytes) (t : Time) (extraFields : ExtraFields) : Bytes :=
  typ ++ (littleEndianInt64 t.Unix ++ fieldsBytes extraFields)

/-- The MD5 digest of a byte string (`md5.Sum`). -/
def md5 (p : Bytes) : Bytes := MD5.sum (MD5.write MD5.new p)

/-! ## The lexical structure of JSON text -/

/-- Position of a scan of JSON text: outside a string, inside a string, or after a backslash
inside a string. -/
inductive Lex where
  | out
  | str
  | esc
deriving DecidableEq, Repr

/-- One byte of the scan; the number counts the `{` met outside strings. There is no step for a
backslash outside a string. -/
def lexStep : Lex × Nat → Nat → Option (Lex × Nat)
  | (.out, n), b =>
    if b = 92 then none
    else if b = 34 then some (.str, n)
    else if b = 123 then some (.out, n + 1)
    else some (.out, n)
  | (.str, n), b =>
    if b = 92 then some (.esc, n)
    else if b = 34 then some (.out, n)
    else some (.str, n)
  | (.esc, n), _ => some (.str, n)

/-- The scan of a byte string. -/
def lexRun : Lex × Nat → Bytes → Option (Lex × Nat)
  | s, [] => some s
  | s, b :: bs => (lexStep s b).bind fun s1 => lexRun s1 bs

/-- Number of `{` a document has outside its strings. -/
def Doc.braces : Doc → Nat
  | .val _ => 0
  | .obj _ => 1

/-- The documents `json.Marshal` writes for a map: `null` and objects. -/
def Doc.ofMap (d : Doc) : Prop := d = .val .null ∨ ∃ fs, d = .obj fs

/-! ## package storage -/

/-- Modelled from the spec: the table `events(id PRIMARY KEY, type, time, extra_fields)`, whose
definition is in the migrations, not in the sources. A row holds the four columns, the last as
the stored blob (`none` is NULL). -/
structure Row where
  id : Bytes
  typ : Bytes
  time : Time
  extra_fields : Option Text
deriving DecidableEq, Repr

/-- The contents of the table `events`. -/
abbrev Store := List Row

/-- Modelled from the spec: the uniqueness constraint of the primary key `id`. -/
def Store.pk (s : Store) : Prop := (s.map Row.id).Nodup

instance (s : Store) : Decidable s.pk := by unfold Store.pk; infer_instance

/-- The statement `INSERT INTO events ... ON CONFLICT (id) DO NOTHING`. -/
def execInsert (s : Store) (r : Row) : Except String Store :=
  if s.any (fun x => x.id = r.id) then .ok s else .ok (s ++ [r])

/-- The values `$1 .. $4` of the insert statement. The extra fields are
`eventFields, _ := event.ExtraFields.Value()`: when the encoding fails the slice is nil, which is
stored as NULL. -/
def rowOf (event : Event) : Row :=
  let eventFields : Option Text :=
    match event.ExtraFields.Value with
    | .ok d => some (.doc d)
    | .error _ => none
  { id := event.ID, typ := event.Typ, time := event.Time, extra_fields := eventFields }

/-- The method `EventStore.InsertEvent`. -/
def InsertEvent (s : Store) (event : Event) : Outcome Store :=
  match execInsert s (rowOf event) with
  | .error msg => .error ("error create event: " ++ msg)
  | .ok s1 => .ok s1

/-! ### The engine of the tests: SQLite with the driver `go-sqlite3`

The driver binds a `time.Time` as its text in the layout `2006-01-02 15:04:05.999999999-07:00`,
the engine keeps and compares such texts byte by byte, and the driver reads the text of a column
of type timestamp back into a `time.Time`. A row holds the time that was bound; the text of
its column is `Time.timestamp` of it. -/

/-- Order of two texts under the collation `BINARY`: byte by byte, a proper prefix first. -/
def textLe : Bytes → Bytes → Bool
  | [], _ => true
  | _ :: _, [] => false
  | a :: x, b :: y => decide (a < b) || (decide (a = b) && textLe x y)

/-- The text `a` comes strictly before the text `b`, whatever follows the two. -/
def precedes (a b : Bytes) : Prop :=
  ∀ u v, textLe (a ++ u) (b ++ v) = true ∧ textLe (b ++ v) (a ++ u) = false

/-- The `time.Time` the driver returns for the text of a column of type timestamp: the text
read in the layout it was written in, and the zero time when it does not fit. The other
layouts the driver tries have a `T` after the date or no zone, and fit no text that
`Time.timestamp` writes. -/
def scanTime (text : Bytes) : Time := (parseTimestamp text).getD zeroTime

/-- The rows selected by `WHERE type = $1 AND time BETWEEN $2 and $3`. -/
def selectWindow (s : Store) (eventType : Bytes) (start stop : Time) : List Row :=
  s.filter fun r => r.typ = eventType ∧ textLe start.timestamp r.time.timestamp
    ∧ textLe r.time.timestamp stop.timestamp

/-- The row `ORDER BY RANDOM() LIMIT 1` leaves, for the draw `rnd`. -/
def pickRandom (rows : List Row) (rnd : Nat) : Option Row := rows.get? (rnd % rows.length)

/-- The scan of a row into an `Event` (`row.StructScan(&e)`); `database/sql` names the column
whose scan fails, the fourth of the table. -/
def structScan (r : Row) : Except String Event :=
  match ExtraFields.Scan r.extra_fields with
  | .error msg => .error ("sql: Scan error on column index 3, name \"extra_fields\": " ++ msg)
  | .ok x => .ok { ID := r.id, Typ := r.typ, Time := scanTime r.time.timestamp, ExtraFields := x }

/-- The method `EventStore.GetEvent`; `queryErr` is `row.Err()`, the failure of the query the
driver reports, if any; `.ok none` is the result `(nil, nil)`, returned when the scan meets
`sql.ErrNoRows`. -/
def GetEvent (s : Store) (queryErr : Option String) (rnd : Nat) (eventType : Bytes)
    (start stop : Time) : Outcome (Option Event) :=
  match queryErr with
  | some msg => .error ("error getting event: " ++ msg)
  | none =>
    match pickRandom (selectWindow s eventType start stop) rnd with
    | none => .ok none
    | some row =>
      match structScan row with
      | .error msg => .error ("error scanning event: " ++ msg)
      | .ok e => .ok (some e)

/-- A time the engine orders as an instant among the times of the zone `z`: its zone offset is
`z`, its nanoseconds are below one second and its year has four digits. -/
def Time.inZone (t : Time) (z : Int) : Prop :=
  t.loc = z ∧ t.nsec < 1000000000 ∧ 0 ≤ t.civil.1 ∧ t.civil.1 ≤ 9999

instance (t : Time) (z : Int) : Decidable (t.inZone z) := by unfold Time.inZone; infer_instance

/-- The store after `n` successive calls of `InsertEvent` with the same event. -/
def insertMany : Nat → Event → Store → Outcome Store
  | 0, _, s => .ok s
  | n + 1, e, s =>
    match InsertEvent s e with
    | .ok s1 => insertMany n e s1
    | .error msg => .error msg
    | .panic msg => .panic msg

/-! ## package service -/

/-- The schema: event type ↦ field ↦ type tag. -/
abbrev Schema := GoMap (GoMap Bytes)

/-- A value of `rand.Intn(n)` for a positive `n`, from the generator output `r`. -/
def randIntn (n : Nat) (r : Nat) : Nat := r % n

/-- The bound `int(^uint32(0) >> 1)`. -/
def maxInt32 : Nat := (4294967296 - 1) >>> 1

/-- The bound `int(^uint64(0) >> 1)`. -/
def maxInt64 : Nat := (18446744073709551616 - 1) >>> 1

/-- The loop of `StartWriter` over the fields of the chosen type: `rnd i` is the `i`-th output
of the generator, `i` the number of draws made so far. -/
def genFields : GoMap Bytes → (Nat → Nat) → Nat → GoMap Value → GoMap Value
  | [], _, _, extraFields => extraFields
  | (field, fieldType) :: rest, rnd, i, extraFields =>
    if field = ascii "time" then genFields rest rnd i extraFields
    else if fieldType = ascii "bigint" then
      genFields rest rnd (i + 1) (GoMap.set extraFields field (.int (randIntn maxInt32 (rnd i))))
    else if fieldType = ascii "int" then
      genFields rest rnd (i + 1) (GoMap.set extraFields field (.int (randIntn maxInt64 (rnd i))))
    else genFields rest rnd i extraFields

/-- The struct `Writer`, without its store. -/
structure Writer where
  schema : Schema
  eventTypes : List Bytes

/-- The function `NewWriter`. -/
def NewWriter (schema : Schema) : Writer := { schema := schema, eventTypes := GoMap.keys schema }

/-- The event `StartWriter` builds on a tick at time `now`. -/
def Writer.generate (w : Writer) (rnd : Nat → Nat) (now : Time) : Outcome Event :=
  if w.eventTypes.length = 0 then .panic "invalid argument to Intn"
  else
    let eventType := w.eventTypes.getD (randIntn w.eventTypes.length (rnd 0)) []
    let extraFields := genFields (entries (GoMap.get w.schema eventType)) rnd 1 []
    .ok (NewEvent eventType now.UTC (some extraFields))

/-- One tick of `StartWriter`: the event is built and inserted; a failed insert is logged and
the store is left as it is. -/
def Writer.tick (w : Writer) (s : Store) (rnd : Nat → Nat) (now : Time) : Outcome Store :=
  match w.generate rnd now with
  | .panic msg => .panic msg
  | .error msg => .error msg
  | .ok event =>
    match InsertEvent s event with
    | .ok s1 => .ok s1
    | _ => .ok s

/-- The method `StartWriter`: one pass of the loop for each tick that comes before the
cancellation, each with the outputs of the generator and the current time; then it returns nil. -/
def Writer.StartWriter (w : Writer) : Store → List ((Nat → Nat) × Time) → Outcome Store
  | s, [] => .ok s
  | s, (rnd, now) :: ticks =>
    match w.tick s rnd now with
    | .ok s1 => Writer.StartWriter w s1 ticks
    | .error msg => .error msg
    | .panic msg => .panic msg

/-- The struct `Reader`, without its store and its channel. -/
structure Reader where
  schema : Schema
  eventTypes : List Bytes

/-- The function `NewReader`. -/
def NewReader (schema : Schema) : Reader := { schema := schema, eventTypes := GoMap.keys schema }

/-- The sampling window of `Reader.worker` at time `now`, for the two draws `r1` and `r2`. -/
def Reader.window (now : Time) (r1 r2 : Nat) : Time × Time :=
  let startTime := now.UTC.Add (Duration.mul (-(randIntn 300 r1 : Int)) Second)
  let endTime := startTime.Add (Duration.mul (randIntn 300 r2 : Int) Second)
  (startTime, endTime)

/-- What one pass of the loop of `Reader.worker` writes to the log. -/
inductive WorkerLog where
  | failed (msg : String)
  | notFound (eventType : Bytes) (startTime endTime : Time)
  | parseFailed (msg : String)
  | reading (eventJSON : Bytes)
deriving DecidableEq, Repr

/-- One pass of the loop of `Reader.worker` at time `now`: `rnd 0` chooses the type, `rnd 1` and
`rnd 2` the window, `rnd 3` is the draw of the database, `queryErr` the failure of the query,
if any. -/
def Reader.worker (r : Reader) (s : Store) (queryErr : Option String) (rnd : Nat → Nat)
    (now : Time) : Outcome WorkerLog :=
  if r.eventTypes.length = 0 then .panic "invalid argument to Intn"
  else
    let eventType := r.eventTypes.getD (randIntn r.eventTypes.length (rnd 0)) []
    let w := Reader.window now (rnd 1) (rnd 2)
    match GetEvent s queryErr (rnd 3) eventType w.1 w.2 with
    | .error msg => .ok (.failed msg)
    | .panic msg => .panic msg
    | .ok none => .ok (.notFound eventType w.1 w.2)
    | .ok (some event) =>
      match event.MarshalJSON with
      | .error msg => .ok (.parseFailed msg)
      | .ok d => .ok (.reading d.render)

/-! ## Example values -/

/-- The instant 2020-09-13T12:26:40Z. -/
def Example.t0 : Time := ⟨1600000000, 0, 0⟩

/-- The instant 10000-01-01T00:00:00Z, whose year `Time.MarshalJSON` rejects. -/
def Example.year10000 : Time := ⟨253402300800, 0, 0⟩

/-- An event one of whose extra fields the JSON encoder rejects. -/
def Example.unencodable : Event :=
  NewEvent (ascii "a") Example.t0 (some [(ascii "at", .time Example.year10000)])

/-- An event with an extra field named `id`. -/
def Example.forged : Event :=
  { ID := ascii "e1", Typ := ascii "click", Time := Example.t0,
    ExtraFields := some [(ascii "id", .str (ascii "e2")), (ascii "n", .int 3)] }

/-- An event with two extra fields and a time with nanoseconds in the zone +05:30. -/
def Example.plain : Event :=
  { ID := ascii "e1", Typ := ascii "click", Time := ⟨1600000000, 120000000, 19800⟩,
    ExtraFields := some [(ascii "n", .int 3), (ascii "label", .str (ascii "x"))] }

/-- An event with an integer extra field above `2^53`. -/
def Example.bigInt : Event :=
  { ID := ascii "e1", Typ := ascii "click", Time := Example.t0,
    ExtraFields := some [(ascii "n", .int 9007199254740993)] }

/-- An event whose time is in a zone 19 minutes 32 seconds east of UTC. -/
def Example.localMeanTime : Event :=
  { ID := ascii "e1", Typ := ascii "click", Time := ⟨1600000000, 0, 1172⟩, ExtraFields := none }

/-- An event whose type is the byte `0xff`, which is not valid UTF-8. -/
def Example.badType : Event :=
  { ID := ascii "e1", Typ := [255], Time := Example.t0, ExtraFields := none }

/-- The first message of the MD5 collision of Wang and Yu, 128 bytes. -/
def Example.collisionA : Bytes :=
  [209, 49, 221, 2, 197, 230, 238, 196, 105, 61, 154, 6, 152, 175, 249, 92,
   47, 202, 181, 135, 18, 70, 126, 171, 64, 4, 88, 62, 184, 251, 127, 137,
   85, 173, 52, 6, 9, 244, 179, 2, 131, 228, 136, 131, 37, 113, 65, 90,
   8, 81, 37, 232, 247, 205, 201, 159, 217, 29, 189, 242, 128, 55, 60, 91,
   216, 130, 62, 49, 86, 52, 143, 91, 174, 109, 172, 212, 54, 201, 25, 198,
   221, 83, 226, 180, 135, 218, 3, 253, 2, 57, 99, 6, 210, 72, 205, 160,
   233, 159, 51, 66, 15, 87, 126, 232, 206, 84, 182, 112, 128, 168, 13, 30,
   198, 152, 33, 188, 182, 168, 131, 147, 150, 249, 101, 43, 111, 247, 42, 112]

/-- The second message of the MD5 collision of Wang and Yu, 128 bytes. -/
def Example.collisionB : Bytes :=
  [209, 49, 221, 2, 197, 230, 238, 196, 105, 61, 154, 6, 152, 175, 249, 92,
   47, 202, 181, 7, 18, 70, 126, 171, 64, 4, 88, 62, 184, 251, 127, 137,
   85, 173, 52, 6, 9, 244, 179, 2, 131, 228, 136, 131, 37, 241, 65, 90,
   8, 81, 37, 232, 247, 205, 201, 159, 217, 29, 189, 114, 128, 55, 60, 91,
   216, 130, 62, 49, 86, 52, 143, 91, 174, 109, 172, 212, 54, 201, 25, 198,
   221, 83, 226, 52, 135, 218, 3, 253, 2, 57, 99, 6, 210, 72, 205, 160,
   233, 159, 51, 66, 15, 87, 126, 232, 206, 84, 182, 112, 128, 40, 13, 30,
   198, 152, 33, 188, 182, 168, 131, 147, 150, 249, 101, 171, 111, 247, 42, 112]

/-- The instant whose Unix second has the little-endian bytes `00 00 00 00 6e 75 6c 6c`. -/
def Example.nullSecond : Time := ⟨7812748568887820288, 0, 0⟩

/-- An event of the type of `Example.plain`, a hundred seconds later in the same zone. -/
def Example.later : Event :=
  { ID := ascii "e2", Typ := ascii "click", Time := ⟨1600000100, 0, 19800⟩, ExtraFields := none }

/-- An event of another type, in UTC. -/
def Example.other : Event :=
  { ID := ascii "e3", Typ := ascii "view", Time := Example.t0, ExtraFields := none }

/-- An event at the instant 10000-01-01T00:00:00Z. -/
def Example.far : Event :=
  { ID := ascii "e4", Typ := ascii "click", Time := Example.year10000, ExtraFields := none }

/-- An event at the instant -0001-01-01T00:00:00Z. -/
def Example.early : Event :=
  { ID := ascii "e5", Typ := ascii "click", Time := ⟨-62198755200, 0, 0⟩, ExtraFields := none }

/-- The table after the inserts of three events. -/
def Example.store : Store := [rowOf Example.plain, rowOf Example.later, rowOf Example.other]

/-! ## Properties of `NewEvent` -/

/-- C1: two calls of `NewEvent` with the same type, times of the same Unix second (whatever their
nanoseconds and locations) and extra fields whose JSON serialisations are the same bytes produce
the same ID. -/
theorem newEvent_id_deterministic (typ : Bytes) (t1 t2 : Time) (f1 f2 : ExtraFields)
    (ht : t1.Unix = t2.Unix) (hf : fieldsBytes f1 = fieldsBytes f2) :
    (NewEvent typ t1 f1).ID = (NewEvent typ t2 f2).ID := by
  simp only [NewEvent, ht, hf]

set_option maxRecDepth 100000 in
/-- Witness of C1: two times in one second, differing in nanoseconds and location, and the same
mapping built in two orders. -/
theorem newEvent_id_deterministic_witness :
    (⟨1600000000, 5, 0⟩ : Time).Unix = (⟨1600000000, 999, 3600⟩ : Time).Unix
    ∧ fieldsBytes (some [(ascii "a", .int 1), (ascii "b", .str (ascii "x"))])
        = fieldsBytes (some [(ascii "b", .str (ascii "x")), (ascii "a", .int 1)])
    ∧ (NewEvent (ascii "click") ⟨1600000000, 5, 0⟩
          (some [(ascii "a", .int 1), (ascii "b", .str (ascii "x"))])).ID
        = (NewEvent (ascii "click") ⟨1600000000, 999, 3600⟩
          (some [(ascii "b", .str (ascii "x")), (ascii "a", .int 1)])).ID :=
  ⟨by decide, by decide,
    newEvent_id_deterministic _ _ _ _ _ (by decide) (by decide)⟩

/-! ## Properties of the reader -/

/-- Truncated remainder by a positive number: its absolute value is below the divisor. -/
theorem tmod_bounds (d : Int) : -1000000000 < Int.tmod d 1000000000 ∧ Int.tmod d 1000000000 < 1000000000 := by
  refine ⟨?_, Int.tmod_lt_of_pos d (by decide)⟩
  cases d with
  | ofNat m =>
    have := Int.tmod_nonneg (a := Int.ofNat m) 1000000000 (Int.ofNat_nonneg m)
    omega
  | negSucc m =>
    show -1000000000 < -Int.ofNat (Nat.succ m % 1000000000)
    have : Nat.succ m % 1000000000 < 1000000000 := Nat.mod_lt _ (by decide)
    simp only [Int.ofNat_eq_coe]
    omega

/-- A value in the range of `int64` is not changed by the wrap. -/
theorem wrapInt64_of_range (x : Int) (h1 : -9223372036854775808 ≤ x) (h2 : x < 9223372036854775808) :
    wrapInt64 x = x := by
  unfold wrapInt64
  rw [Int.emod_eq_of_lt (by omega) (by omega)]
  omega

/-- The instant of `t.Add(d)` is the instant of `t` moved by `d` nanoseconds. -/
theorem Time.nanos_Add (t : Time) (d : Int) : (t.Add d).nanos = t.nanos + d := by
  have h1 := Int.tdiv_add_tmod d 1000000000
  obtain ⟨h3, h2⟩ := tmod_bounds d
  unfold Time.Add Time.nanos
  simp only
  split_ifs with c1 c2
  · simp only []
    rw [Int.toNat_of_nonneg (by omega)]
    omega
  · simp only []
    rw [Int.toNat_of_nonneg (by omega)]
    omega
  · simp only []
    rw [Int.toNat_of_nonneg (by omega)]
    omega

/-- The window of a worker: the start lies in the last 299 seconds and the end lies up to 299
seconds after the start. -/
theorem Reader.window_bounds (now : Time) (r1 r2 : Nat) :
    now.nanos - 299 * Second ≤ (Reader.window now r1 r2).1.nanos
    ∧ (Reader.window now r1 r2).1.nanos ≤ now.nanos
    ∧ (Reader.window now r1 r2).1.nanos ≤ (Reader.window now r1 r2).2.nanos
    ∧ (Reader.window now r1 r2).2.nanos ≤ (Reader.window now r1 r2).1.nanos + 299 * Second := by
  have h1 : r1 % 300 < 300 := Nat.mod_lt _ (by decide)
  have h2 : r2 % 300 < 300 := Nat.mod_lt _ (by decide)
  have e0 : (now.UTC).nanos = now.nanos := rfl
  have e1 : Duration.mul (-((randIntn 300 r1 : Nat) : Int)) Second = -((r1 % 300 : Nat) : Int) * 1000000000 := by
    unfold Duration.mul Second randIntn
    exact wrapInt64_of_range _ (by omega) (by omega)
  have e2 : Duration.mul ((randIntn 300 r2 : Nat) : Int) Second = ((r2 % 300 : Nat) : Int) * 1000000000 := by
    unfold Duration.mul Second randIntn
    exact wrapInt64_of_range _ (by omega) (by omega)
  simp only [Reader.window, Time.nanos_Add, e0, e1, e2]
  simp only [Second]
  omega

/-- C10: at the time 1000 s, with the draws 0 and 1, the window of a worker starts at 1000 s and
ends at 1001 s, one second after the current time and not within the past five minutes. -/
theorem Reader.window_end_in_future :
    Reader.window ⟨1000, 0, 0⟩ 0 1 = (⟨1000, 0, 0⟩, ⟨1001, 0, 0⟩)
    ∧ ¬ ((Reader.window ⟨1000, 0, 0⟩ 0 1).2.nanos ≤ (⟨1000, 0, 0⟩ : Time).nanos) := by
  decide


/-! ## Properties of the writer -/

/-- C8: for the schema with the one type `e` and the one field `n` tagged `int`, and the generator
output `2147483648`, the writer stores `2147483648` under `n`, above the largest 32-bit signed
integer `2147483647`; the bound used for `int` is the 64-bit one. -/
theorem Writer.int_field_exceeds_int32 :
    (match (NewWriter [(ascii "e", [(ascii "n", ascii "int")])]).generate (fun _ => 2147483648) ⟨0, 0, 0⟩ with
      | .ok e => e.ExtraFields
      | _ => none) = some [(ascii "n", .int 2147483648)]
    ∧ ¬ ((2147483648 : Int) ≤ 2 ^ 31 - 1)
    ∧ randIntn maxInt64 2147483648 = 2147483648
    ∧ maxInt64 = 2 ^ 63 - 1 ∧ maxInt32 = 2 ^ 31 - 1 := by
  decide

/-- Keys after an assignment. -/
theorem GoMap.mem_keys_set {α : Type} (m : GoMap α) (k : Bytes) (v : α) (k1 : Bytes) :
    k1 ∈ GoMap.keys (GoMap.set m k v) ↔ k1 = k ∨ k1 ∈ GoMap.keys m := by
  induction m with
  | nil => simp [GoMap.set, GoMap.keys]
  | cons kv m ih =>
    obtain ⟨k2, v2⟩ := kv
    unfold GoMap.set
    split_ifs with h
    · subst h
      simp [GoMap.keys]
    · simp only [GoMap.keys, List.map_cons, List.mem_cons] at ih ⊢
      rw [ih]
      tauto

/-- Keys of the mapping the writer builds: those already present, and the fields other than
`time` whose tag is `bigint` or `int`. -/
theorem mem_keys_genFields (fields : GoMap Bytes) (rnd : Nat → Nat) (i : Nat) (acc : GoMap Value)
    (k : Bytes) :
    k ∈ GoMap.keys (genFields fields rnd i acc) ↔
      k ∈ GoMap.keys acc ∨
        (k ≠ ascii "time" ∧ ∃ tag, (k, tag) ∈ fields ∧ (tag = ascii "bigint" ∨ tag = ascii "int")) := by
  induction fields generalizing i acc with
  | nil => simp [genFields]
  | cons ft rest ih =>
    obtain ⟨field, fieldType⟩ := ft
    unfold genFields
    split_ifs with h1 h2 h3
    · rw [ih]
      subst h1
      constructor
      · rintro (h | ⟨hk, tag, hm, ht⟩)
        · exact Or.inl h
        · exact Or.inr ⟨hk, tag, List.mem_cons_of_mem _ hm, ht⟩
      · rintro (h | ⟨hk, tag, hm, ht⟩)
        · exact Or.inl h
        · rcases List.mem_cons.1 hm with heq | hm
          · exact absurd (Prod.mk.inj heq).1 hk
          · exact Or.inr ⟨hk, tag, hm, ht⟩
    · rw [ih, GoMap.mem_keys_set]
      constructor
      · rintro ((h | h) | ⟨hk, tag, hm, ht⟩)
        · subst h
          exact Or.inr ⟨h1, fieldType, List.mem_cons_self _ _, Or.inl h2⟩
        · exact Or.inl h
        · exact Or.inr ⟨hk, tag, List.mem_cons_of_mem _ hm, ht⟩
      · rintro (h | ⟨hk, tag, hm, ht⟩)
        · exact Or.inl (Or.inr h)
        · rcases List.mem_cons.1 hm with heq | hm
          · exact Or.inl (Or.inl (Prod.mk.inj heq).1)
          · exact Or.inr ⟨hk, tag, hm, ht⟩
    · rw [ih, GoMap.mem_keys_set]
      constructor
      · rintro ((h | h) | ⟨hk, tag, hm, ht⟩)
        · subst h
          exact Or.inr ⟨h1, fieldType, List.mem_cons_self _ _, Or.inr h3⟩
        · exact Or.inl h
        · exact Or.inr ⟨hk, tag, List.mem_cons_of_mem _ hm, ht⟩
      · rintro (h | ⟨hk, tag, hm, ht⟩)
        · exact Or.inl (Or.inr h)
        · rcases List.mem_cons.1 hm with heq | hm
          · exact Or.inl (Or.inl (Prod.mk.inj heq).1)
          · exact Or.inr ⟨hk, tag, hm, ht⟩
    · rw [ih]
      constructor
      · rintro (h | ⟨hk, tag, hm, ht⟩)
        · exact Or.inl h
        · exact Or.inr ⟨hk, tag, List.mem_cons_of_mem _ hm, ht⟩
      · rintro (h | ⟨hk, tag, hm, ht⟩)
        · exact Or.inl h
        · rcases List.mem_cons.1 hm with heq | hm
          · obtain ⟨e1, e2⟩ := Prod.mk.inj heq
            subst e1 e2
            rcases ht with ht | ht
            · exact absurd ht h2
            · exact absurd ht h3
          · exact Or.inr ⟨hk, tag, hm, ht⟩

/-- C9, as amended: the extra fields of the event the writer builds on a tick never contain the
key `time`; their keys are exactly the fields the schema declares for the chosen type, other than
`time`, with the tag `bigint` or `int`. -/
theorem Writer.generate_keys (w : Writer) (rnd : Nat → Nat) (now : Time) (e : Event)
    (h : w.generate rnd now = .ok e) :
    ∃ m, e.ExtraFields = some m ∧ ascii "time" ∉ GoMap.keys m ∧
      ∀ k, k ∈ GoMap.keys m ↔
        (k ≠ ascii "time" ∧ ∃ tag, (k, tag) ∈ entries (GoMap.get w.schema e.Typ)
          ∧ (tag = ascii "bigint" ∨ tag = ascii "int")) := by
  unfold Writer.generate at h
  split_ifs at h with h0
  simp only [Outcome.ok.injEq] at h
  subst h
  refine ⟨_, rfl, ?_, ?_⟩
  · intro hk
    have := (mem_keys_genFields _ _ _ _ _).1 hk
    simp [GoMap.keys] at this
  · intro k
    rw [mem_keys_genFields]
    simp [GoMap.keys, NewEvent]

set_option maxRecDepth 100000 in
/-- Witness of the amended C9: a schema with the fields `time`, `n` and `label`. -/
theorem Writer.generate_keys_witness :
    ∃ e, (NewWriter [(ascii "e", [(ascii "time", ascii "timestamp"), (ascii "n", ascii "int"),
            (ascii "label", ascii "text")])]).generate (fun _ => 7) ⟨5, 0, 0⟩ = .ok e
      ∧ ∃ m, e.ExtraFields = some m ∧ ascii "time" ∉ GoMap.keys m ∧
        ∀ k, k ∈ GoMap.keys m ↔
          (k ≠ ascii "time" ∧ ∃ tag, (k, tag) ∈ entries (GoMap.get
              (NewWriter [(ascii "e", [(ascii "time", ascii "timestamp"), (ascii "n", ascii "int"),
                (ascii "label", ascii "text")])]).schema e.Typ)
            ∧ (tag = ascii "bigint" ∨ tag = ascii "int")) :=
  ⟨NewEvent (ascii "e") ⟨5, 0, 0⟩ (some [(ascii "n", .int 7)]), by decide,
    Writer.generate_keys (NewWriter [(ascii "e", [(ascii "time", ascii "timestamp"),
      (ascii "n", ascii "int"), (ascii "label", ascii "text")])]) (fun _ => 7) ⟨5, 0, 0⟩ _ (by decide)⟩

set_option maxRecDepth 100000 in
/-- C9, counterexample: for the schema with the one type `e` and the one field `id` tagged `int`,
the extra fields of the event the writer builds contain the reserved key `id`. -/
theorem Writer.generate_reserved_key :
    ∃ e m, (NewWriter [(ascii "e", [(ascii "id", ascii "int")])]).generate (fun _ => 7) ⟨5, 0, 0⟩ = .ok e
      ∧ e.ExtraFields = some m ∧ ascii "id" ∈ GoMap.keys m :=
  ⟨NewEvent (ascii "e") ⟨5, 0, 0⟩ (some [(ascii "id", .int 7)]), [(ascii "id", .int 7)],
    by decide, rfl, by decide⟩


/-! ## Go maps -/

theorem GoMap.get_nil {α : Type} (k : Bytes) : GoMap.get ([] : GoMap α) k = none := rfl

theorem GoMap.get_cons {α : Type} (k1 : Bytes) (v : α) (m : GoMap α) (k : Bytes) :
    GoMap.get ((k1, v) :: m) k = if k1 = k then some v else GoMap.get m k := rfl

theorem GoMap.get_set {α : Type} (m : GoMap α) (k : Bytes) (v : α) (k1 : Bytes) :
    GoMap.get (GoMap.set m k v) k1 = if k = k1 then some v else GoMap.get m k1 := by
  induction m with
  | nil => simp [GoMap.set, GoMap.get]
  | cons kv m ih =>
    obtain ⟨k2, v2⟩ := kv
    unfold GoMap.set
    by_cases h1 : k2 = k
    · subst h1
      simp only [if_true, GoMap.get_cons]
      by_cases h2 : k2 = k1 <;> simp [h2]
    · simp only [if_neg h1, GoMap.get_cons, ih]
      by_cases h2 : k2 = k1
      · subst h2
        simp [h1, Ne.symm h1]
      · simp [h2]

theorem GoMap.get_eq_none_iff {α : Type} (m : GoMap α) (k : Bytes) :
    GoMap.get m k = none ↔ k ∉ GoMap.keys m := by
  induction m with
  | nil => simp [GoMap.get, GoMap.keys]
  | cons kv m ih =>
    obtain ⟨k2, v2⟩ := kv
    unfold GoMap.get
    split_ifs with h
    · subst h
      simp [GoMap.keys]
    · rw [ih]
      simp only [GoMap.keys, List.map_cons, List.mem_cons, not_or]
      constructor
      · intro h1
        exact ⟨fun h2 => h h2.symm, h1⟩
      · exact fun h1 => h1.2

theorem GoMap.get_of_mem {α : Type} (m : GoMap α) (k : Bytes) (v : α)
    (nd : (GoMap.keys m).Nodup) (h : (k, v) ∈ m) : GoMap.get m k = some v := by
  induction m with
  | nil => cases h
  | cons kv m ih =>
    obtain ⟨k2, v2⟩ := kv
    simp only [GoMap.keys, List.map_cons, List.nodup_cons] at nd
    unfold GoMap.get
    rcases List.mem_cons.1 h with heq | hm
    · obtain ⟨e1, e2⟩ := Prod.mk.inj heq
      subst e1 e2
      simp
    · have : k2 ≠ k := by
        rintro rfl
        exact nd.1 (List.mem_map_of_mem Prod.fst hm)
      rw [if_neg this]
      exact ih nd.2 hm

theorem GoMap.mem_of_get {α : Type} (m : GoMap α) (k : Bytes) (v : α)
    (h : GoMap.get m k = some v) : (k, v) ∈ m := by
  induction m with
  | nil => cases h
  | cons kv m ih =>
    obtain ⟨k2, v2⟩ := kv
    unfold GoMap.get at h
    split_ifs at h with h1
    · subst h1
      cases h
      exact List.mem_cons_self _ _
    · exact List.mem_cons_of_mem _ (ih h)

/-- Lookup does not depend on the order of the entries. -/
theorem GoMap.get_perm {α : Type} {m1 m2 : GoMap α} (p : m1.Perm m2)
    (nd : (GoMap.keys m1).Nodup) (k : Bytes) : GoMap.get m1 k = GoMap.get m2 k := by
  have nd2 : (GoMap.keys m2).Nodup := (List.Perm.nodup_iff (p.map Prod.fst)).1 nd
  cases h : GoMap.get m1 k with
  | none =>
    rw [GoMap.get_eq_none_iff] at h
    symm
    rw [GoMap.get_eq_none_iff]
    intro hk
    exact h ((p.map Prod.fst).mem_iff.2 hk)
  | some v =>
    symm
    exact GoMap.get_of_mem m2 k v nd2 (p.mem_iff.1 (GoMap.mem_of_get m1 k v h))

theorem GoMap.keys_set_nodup {α : Type} (m : GoMap α) (k : Bytes) (v : α)
    (nd : (GoMap.keys m).Nodup) : (GoMap.keys (GoMap.set m k v)).Nodup := by
  induction m with
  | nil => simp [GoMap.set, GoMap.keys]
  | cons kv m ih =>
    obtain ⟨k2, v2⟩ := kv
    simp only [GoMap.keys, List.map_cons, List.nodup_cons] at nd
    unfold GoMap.set
    split_ifs with h
    · subst h
      simpa [GoMap.keys] using nd
    · simp only [GoMap.keys, List.map_cons, List.nodup_cons]
      refine ⟨?_, ih nd.2⟩
      intro hm
      rcases (GoMap.mem_keys_set m k v k2).1 hm with h1 | h1
      · exact h h1
      · exact nd.1 h1

theorem GoMap.keys_setAll_nodup {α : Type} (src m : GoMap α)
    (nd : (GoMap.keys m).Nodup) : (GoMap.keys (GoMap.setAll m src)).Nodup := by
  induction src generalizing m with
  | nil => simpa [GoMap.setAll] using nd
  | cons kv src ih =>
    simp only [GoMap.setAll, List.foldl_cons]
    exact ih _ (GoMap.keys_set_nodup m kv.1 kv.2 nd)

/-- After the assignment of every entry of `src`, a key of `src` holds the value of `src` and any
other key holds what it held before. -/
theorem GoMap.get_setAll {α : Type} (src m : GoMap α) (nd : (GoMap.keys src).Nodup) (k : Bytes) :
    GoMap.get (GoMap.setAll m src) k = (GoMap.get src k).or (GoMap.get m k) := by
  induction src generalizing m with
  | nil => simp [GoMap.setAll, GoMap.get]
  | cons kv src ih =>
    obtain ⟨k2, v2⟩ := kv
    simp only [GoMap.keys, List.map_cons, List.nodup_cons] at nd
    have step : GoMap.setAll m ((k2, v2) :: src) = GoMap.setAll (GoMap.set m k2 v2) src := rfl
    rw [step, ih _ nd.2, GoMap.get_set, GoMap.get_cons]
    by_cases h : k2 = k
    · subst h
      have : GoMap.get src k2 = none := (GoMap.get_eq_none_iff src k2).2 nd.1
      simp [this]
    · simp [h]

theorem GoMap.get_delete {α : Type} (m : GoMap α) (k k1 : Bytes) :
    GoMap.get (GoMap.delete m k) k1 = if k = k1 then none else GoMap.get m k1 := by
  induction m with
  | nil => simp [GoMap.delete, GoMap.get]
  | cons kv m ih =>
    obtain ⟨k2, v2⟩ := kv
    simp only [GoMap.delete] at ih ⊢
    by_cases h : k2 = k
    · subst h
      simp only [List.filter_cons, ne_eq, not_true_eq_false, decide_False, Bool.false_eq_true,
        ↓reduceIte, ih, GoMap.get_cons]
      by_cases h1 : k2 = k1 <;> simp [h1]
    · simp only [List.filter_cons, ne_eq, h, not_false_eq_true, decide_True, ↓reduceIte,
        GoMap.get_cons, ih]
      by_cases h1 : k2 = k1
      · subst h1
        simp [Ne.symm h]
      · simp [h1]

/-! ## The JSON encoder -/

theorem sortByKey_perm {α : Type} (m : GoMap α) : (sortByKey m).Perm m :=
  List.perm_insertionSort _ m

theorem get_sortByKey {α : Type} (m : GoMap α) (nd : (GoMap.keys m).Nodup) (k : Bytes) :
    GoMap.get (sortByKey m) k = GoMap.get m k :=
  (GoMap.get_perm (sortByKey_perm m).symm nd k).symm

theorem keys_sortByKey_nodup {α : Type} (m : GoMap α) (nd : (GoMap.keys m).Nodup) :
    (GoMap.keys (sortByKey m)).Nodup :=
  (List.Perm.nodup_iff ((sortByKey_perm m).map Prod.fst)).2 nd

/-- The members the encoder writes: the same keys in the same order, each with the encoding of
its value. -/
theorem marshalFields_ok (m : GoMap Value) (fs : List (Bytes × Json)) (h : marshalFields m = .ok fs) :
    GoMap.keys fs = GoMap.keys m ∧
    ∀ k, (∀ v, GoMap.get m k = some v → ∃ j, marshalValue v = .ok j ∧ GoMap.get fs k = some j)
      ∧ (GoMap.get m k = none → GoMap.get fs k = none) := by
  induction m generalizing fs with
  | nil =>
    simp only [marshalFields, Except.ok.injEq] at h
    subst h
    simp [GoMap.get, GoMap.keys]
  | cons kv m ih =>
    obtain ⟨k2, v2⟩ := kv
    unfold marshalFields at h
    split at h
    · cases h
    · rename_i j hj
      split at h
      · cases h
      · rename_i fs1 hfs
        simp only [Except.ok.injEq] at h
        subst h
        obtain ⟨ihk, ihg⟩ := ih fs1 hfs
        refine ⟨by simp [GoMap.keys] at ihk ⊢; exact ihk, ?_⟩
        intro k
        rw [GoMap.get_cons, GoMap.get_cons]
        by_cases hk : k2 = k
        · rw [if_pos hk, if_pos hk]
          refine ⟨?_, fun h => by cases h⟩
          intro v hv
          cases hv
          exact ⟨j, hj, rfl⟩
        · rw [if_neg hk, if_neg hk]
          exact ihg k


/-! ## Properties of `Event.UnmarshalJSON` and `Event.MarshalJSON` -/

set_option maxRecDepth 100000 in
/-- C4: `UnmarshalJSON` panics, and returns no error, on the object without members (all three
keys missing), on an object whose `time` is a number, on an object whose `type` is missing and
on an object whose `id` is a number; it does return an error when `time` is a string that does
not parse. -/
theorem Event.UnmarshalJSON_panics :
    Event.UnmarshalJSON (.doc (.obj [])) = .panic "interface conversion: interface {} is nil, not string"
    ∧ Event.UnmarshalJSON (.doc (.obj [(ascii "time", .num 5), (ascii "type", .str (ascii "a")),
        (ascii "id", .str (ascii "x"))])) = .panic "interface conversion: interface {} is not string"
    ∧ Event.UnmarshalJSON (.doc (.obj [(ascii "time", .str (ascii "2020-09-13T12:26:40Z")),
        (ascii "id", .str (ascii "x"))])) = .panic "interface conversion: interface {} is nil, not string"
    ∧ Event.UnmarshalJSON (.doc (.obj [(ascii "time", .str (ascii "2020-09-13T12:26:40Z")),
        (ascii "type", .str (ascii "a")), (ascii "id", .num 7)]))
        = .panic "interface conversion: interface {} is not string"
    ∧ Event.UnmarshalJSON (.doc (.obj [(ascii "time", .str (ascii "yesterday")),
        (ascii "type", .str (ascii "a")), (ascii "id", .str (ascii "x"))]))
        = .error "parsing time: cannot parse" := by
  decide

theorem key_type_ne_id : ascii "type" ≠ ascii "id" := by decide

theorem key_time_ne_id : ascii "time" ≠ ascii "id" := by decide

theorem key_time_ne_type : ascii "time" ≠ ascii "type" := by decide

/-- The envelope of an event as `MarshalJSON` stores it in `input`. -/
theorem get_envelope (e : Event) :
    GoMap.get (GoMap.set (GoMap.set (GoMap.set [] (ascii "time") (Value.time e.Time))
        (ascii "id") (.str e.ID)) (ascii "type") (.str e.Typ)) (ascii "id") = some (.str e.ID)
    ∧ GoMap.get (GoMap.set (GoMap.set (GoMap.set [] (ascii "time") (Value.time e.Time))
        (ascii "id") (.str e.ID)) (ascii "type") (.str e.Typ)) (ascii "type") = some (.str e.Typ)
    ∧ GoMap.get (GoMap.set (GoMap.set (GoMap.set [] (ascii "time") (Value.time e.Time))
        (ascii "id") (.str e.ID)) (ascii "type") (.str e.Typ)) (ascii "time") = some (.time e.Time) := by
  simp only [GoMap.get_set, GoMap.get_nil, key_type_ne_id, key_time_ne_type.symm,
    key_time_ne_id.symm, if_true, if_false, and_self]

/-- What the map `input` of `MarshalJSON` holds under a key: the extra field of that name if
there is one, else the envelope value. -/
theorem get_marshalInput (e : Event) (nd : (GoMap.keys (entries e.ExtraFields)).Nodup) (k : Bytes) :
    GoMap.get (marshalInput e) k =
      (GoMap.get (entries e.ExtraFields) k).or
        (GoMap.get (GoMap.set (GoMap.set (GoMap.set [] (ascii "time") (Value.time e.Time))
          (ascii "id") (.str e.ID)) (ascii "type") (.str e.Typ)) k) := by
  unfold marshalInput
  simp only [GoMap.get_setAll _ _ nd]

theorem keys_marshalInput_nodup (e : Event) : (GoMap.keys (marshalInput e)).Nodup := by
  unfold marshalInput
  apply GoMap.keys_setAll_nodup
  apply GoMap.keys_set_nodup
  apply GoMap.keys_set_nodup
  apply GoMap.keys_set_nodup
  simp [GoMap.keys]

/-- The record `MarshalJSON` writes: an object that holds, under each key of `input`, the encoding
of the value `input` holds, and nothing else. -/
theorem MarshalJSON_fields (e : Event) (doc : Doc) (h : e.MarshalJSON = .ok doc) :
    ∃ fs, doc = .obj fs ∧ (GoMap.keys fs).Nodup ∧
      ∀ k, (∀ v, GoMap.get (marshalInput e) k = some v →
              ∃ j, marshalValue v = .ok j ∧ GoMap.get fs k = some j)
        ∧ (GoMap.get (marshalInput e) k = none → GoMap.get fs k = none) := by
  unfold Event.MarshalJSON jsonMarshal at h
  simp only at h
  split at h
  · cases h
  · rename_i fs hfs
    simp only [Except.ok.injEq] at h
    subst h
    obtain ⟨hk, hg⟩ := marshalFields_ok _ _ hfs
    refine ⟨fs, rfl, ?_, ?_⟩
    · rw [hk]
      exact keys_sortByKey_nodup _ (keys_marshalInput_nodup e)
    · intro k
      have := hg k
      rwa [get_sortByKey _ (keys_marshalInput_nodup e)] at this

/-- C5, as amended: when `MarshalJSON` succeeds, the record holds every extra field under its own
key, also under `id`, `type` or `time`; under each of these three keys that is not an extra
field it holds the envelope value: `e.ID`, `e.Type`, and the RFC 3339 text of `e.Time`. -/
theorem Event.MarshalJSON_record (e : Event) (doc : Doc)
    (nd : (GoMap.keys (entries e.ExtraFields)).Nodup) (h : e.MarshalJSON = .ok doc) :
    ∃ fs, doc = .obj fs
      ∧ (∀ k v, GoMap.get (entries e.ExtraFields) k = some v →
          ∃ j, marshalValue v = .ok j ∧ GoMap.get fs k = some j)
      ∧ (ascii "id" ∉ GoMap.keys (entries e.ExtraFields) → GoMap.get fs (ascii "id") = some (.str e.ID))
      ∧ (ascii "type" ∉ GoMap.keys (entries e.ExtraFields) →
          GoMap.get fs (ascii "type") = some (.str e.Typ))
      ∧ (ascii "time" ∉ GoMap.keys (entries e.ExtraFields) →
          ∃ s, e.Time.format = .ok s ∧ GoMap.get fs (ascii "time") = some (.str s)) := by
  obtain ⟨fs, hdoc, -, hg⟩ := MarshalJSON_fields e doc h
  refine ⟨fs, hdoc, ?_, ?_, ?_, ?_⟩
  · intro k v hv
    apply (hg k).1 v
    rw [get_marshalInput e nd, hv, Option.or_some]
  · intro hk
    have h0 := (GoMap.get_eq_none_iff _ _).2 hk
    have h1 : GoMap.get (marshalInput e) (ascii "id") = some (.str e.ID) := by
      rw [get_marshalInput e nd, h0, Option.none_or]
      exact (get_envelope e).1
    obtain ⟨j, hj, hf⟩ := (hg _).1 _ h1
    cases hj
    exact hf
  · intro hk
    have h0 := (GoMap.get_eq_none_iff _ _).2 hk
    have h1 : GoMap.get (marshalInput e) (ascii "type") = some (.str e.Typ) := by
      rw [get_marshalInput e nd, h0, Option.none_or]
      exact (get_envelope e).2.1
    obtain ⟨j, hj, hf⟩ := (hg _).1 _ h1
    cases hj
    exact hf
  · intro hk
    have h0 := (GoMap.get_eq_none_iff _ _).2 hk
    have h1 : GoMap.get (marshalInput e) (ascii "time") = some (.time e.Time) := by
      rw [get_marshalInput e nd, h0, Option.none_or]
      exact (get_envelope e).2.2
    obtain ⟨j, hj, hf⟩ := (hg _).1 _ h1
    cases hfmt : e.Time.format with
    | error msg =>
      rw [marshalValue, marshalTime, hfmt] at hj
      cases hj
    | ok s =>
      rw [marshalValue, marshalTime, hfmt] at hj
      cases hj
      exact ⟨s, rfl, hf⟩

set_option maxRecDepth 100000 in
/-- Witness of the amended C5: an event with the extra fields `n` and `label`. -/
theorem Event.MarshalJSON_record_witness :
    (GoMap.keys (entries Example.plain.ExtraFields)).Nodup
    ∧ Example.plain.MarshalJSON = .ok (.obj [(ascii "id", .str (ascii "e1")),
        (ascii "label", .str (ascii "x")), (ascii "n", .num 3),
        (ascii "time", .str (ascii "2020-09-13T17:56:40.12+05:30")), (ascii "type", .str (ascii "click"))])
    ∧ ∃ fs, Doc.obj [(ascii "id", .str (ascii "e1")),
        (ascii "label", .str (ascii "x")), (ascii "n", .num 3),
        (ascii "time", .str (ascii "2020-09-13T17:56:40.12+05:30")), (ascii "type", .str (ascii "click"))]
          = .obj fs
      ∧ (∀ k v, GoMap.get (entries Example.plain.ExtraFields) k = some v →
          ∃ j, marshalValue v = .ok j ∧ GoMap.get fs k = some j)
      ∧ (ascii "id" ∉ GoMap.keys (entries Example.plain.ExtraFields) →
          GoMap.get fs (ascii "id") = some (.str Example.plain.ID))
      ∧ (ascii "type" ∉ GoMap.keys (entries Example.plain.ExtraFields) →
          GoMap.get fs (ascii "type") = some (.str Example.plain.Typ))
      ∧ (ascii "time" ∉ GoMap.keys (entries Example.plain.ExtraFields) →
          ∃ s, Example.plain.Time.format = .ok s ∧ GoMap.get fs (ascii "time") = some (.str s)) :=
  ⟨by decide, by decide, Event.MarshalJSON_record Example.plain _ (by decide) (by decide)⟩

set_option maxRecDepth 100000 in
/-- C5, counterexample: for the event with ID `e1` and an extra field `id` of value `e2`, the
record `MarshalJSON` writes holds `e2` under `id`, not the ID of the event. -/
theorem Event.MarshalJSON_overwrites_id :
    Example.forged.ID = ascii "e1"
    ∧ Example.forged.MarshalJSON = .ok (.obj [(ascii "id", .str (ascii "e2")), (ascii "n", .num 3),
        (ascii "time", .str (ascii "2020-09-13T12:26:40Z")), (ascii "type", .str (ascii "click"))])
    ∧ GoMap.get [(ascii "id", Json.str (ascii "e2")), (ascii "n", .num 3),
        (ascii "time", .str (ascii "2020-09-13T12:26:40Z")), (ascii "type", .str (ascii "click"))]
          (ascii "id") ≠ some (.str Example.forged.ID) := by
  decide


/-! ## Properties of the store -/

theorem InsertEvent_eq (s : Store) (e : Event) :
    InsertEvent s e = .ok (if s.any (fun x => x.id = (rowOf e).id) then s else s ++ [rowOf e]) := by
  unfold InsertEvent execInsert
  split_ifs <;> rfl

theorem rowOf_id (e : Event) : (rowOf e).id = e.ID := rfl

/-- Under the primary key, the rows of a given id that is present are exactly one. -/
theorem length_filter_id (s : Store) (x : Bytes) (hpk : s.pk) (hx : ∃ r ∈ s, r.id = x) :
    (s.filter fun r => r.id = x).length = 1 := by
  induction s with
  | nil =>
    obtain ⟨r, hr, -⟩ := hx
    cases hr
  | cons r s ih =>
    simp only [Store.pk, List.map_cons, List.nodup_cons] at hpk
    by_cases h : r.id = x
    · have hnil : (s.filter fun r => r.id = x) = [] := by
        rw [List.filter_eq_nil_iff]
        intro a ha
        simp only [decide_eq_true_eq]
        intro hax
        exact hpk.1 (List.mem_map.2 ⟨a, ha, by rw [hax, h]⟩)
      simp [List.filter_cons, h, hnil]
    · obtain ⟨a, ha, hax⟩ := hx
      rcases List.mem_cons.1 ha with rfl | ha
      · exact absurd hax h
      · simp only [List.filter_cons, h, decide_False, Bool.false_eq_true, if_false]
        exact ih hpk.2 ⟨a, ha, hax⟩

/-- One insert: no error, the primary key is kept, the id is stored in exactly one row, and the
rows stored before are kept. -/
theorem InsertEvent_once (s : Store) (e : Event) (hpk : s.pk) :
    ∃ s1, InsertEvent s e = .ok s1 ∧ s1.pk ∧ (s1.filter fun r => r.id = e.ID).length = 1
      ∧ (∃ r ∈ s1, r.id = e.ID) ∧ (s1 = s ∨ s1 = s ++ [rowOf e]) := by
  rw [InsertEvent_eq]
  by_cases h : s.any (fun x => x.id = (rowOf e).id) = true
  · rw [if_pos h]
    have hx : ∃ r ∈ s, r.id = e.ID := by
      obtain ⟨r, hr, h1⟩ := List.any_eq_true.1 h
      exact ⟨r, hr, by simpa [rowOf_id] using h1⟩
    exact ⟨s, rfl, hpk, length_filter_id s e.ID hpk hx, hx, Or.inl rfl⟩
  · rw [if_neg h]
    have hnot : e.ID ∉ s.map Row.id := by
      intro hm
      obtain ⟨r, hr, h1⟩ := List.mem_map.1 hm
      exact h (List.any_eq_true.2 ⟨r, hr, by simpa [rowOf_id] using h1⟩)
    have hpk1 : Store.pk (s ++ [rowOf e]) := by
      unfold Store.pk at hpk ⊢
      rw [List.map_append, List.nodup_append]
      refine ⟨hpk, by simp, ?_⟩
      intro a ha hb
      simp only [List.map_cons, List.map_nil, List.mem_singleton, rowOf_id] at hb
      subst hb
      exact hnot ha
    have hx : ∃ r ∈ s ++ [rowOf e], r.id = e.ID :=
      ⟨rowOf e, List.mem_append_right _ (List.mem_singleton_self _), rfl⟩
    exact ⟨_, rfl, hpk1, length_filter_id _ e.ID hpk1 hx, hx, Or.inr rfl⟩

/-- An insert of an event whose id is stored leaves the store as it is. -/
theorem InsertEvent_again (s : Store) (e : Event) (hx : ∃ r ∈ s, r.id = e.ID) :
    InsertEvent s e = .ok s := by
  rw [InsertEvent_eq]
  have h : s.any (fun x => x.id = (rowOf e).id) = true := by
    obtain ⟨r, hr, h1⟩ := hx
    exact List.any_eq_true.2 ⟨r, hr, by simpa [rowOf_id] using h1⟩
  rw [if_pos h]

theorem insertMany_stored (n : Nat) (s : Store) (e : Event) (hx : ∃ r ∈ s, r.id = e.ID) :
    insertMany n e s = .ok s := by
  induction n with
  | zero => rfl
  | succ n ih =>
    unfold insertMany
    rw [InsertEvent_again s e hx]
    exact ih

/-- C6: under the primary key of the table, `n ≥ 1` successive calls of `InsertEvent` with the
same event return no error and leave the store of the first call: it has exactly one row with
the ID of the event, and one more call leaves it unchanged. -/
theorem InsertEvent_idempotent (s : Store) (e : Event) (n : Nat) (hpk : s.pk) (hn : 1 ≤ n) :
    ∃ s1, InsertEvent s e = .ok s1
      ∧ insertMany n e s = .ok s1
      ∧ (s1.filter fun r => r.id = e.ID).length = 1
      ∧ InsertEvent s1 e = .ok s1
      ∧ s1.pk := by
  obtain ⟨s1, h1, hpk1, hlen, hx, -⟩ := InsertEvent_once s e hpk
  refine ⟨s1, h1, ?_, hlen, InsertEvent_again s1 e hx, hpk1⟩
  obtain ⟨m, rfl⟩ : ∃ m, n = m + 1 := ⟨n - 1, by omega⟩
  unfold insertMany
  rw [h1]
  exact insertMany_stored m s1 e hx

set_option maxRecDepth 100000 in
/-- Witness of C6: three inserts of one event into a store that holds another event. -/
theorem InsertEvent_idempotent_witness :
    Store.pk [rowOf Example.forged] ∧ 1 ≤ 3 ∧
    ∃ s1, InsertEvent [rowOf Example.forged] Example.unencodable = .ok s1
      ∧ insertMany 3 Example.unencodable [rowOf Example.forged] = .ok s1
      ∧ (s1.filter fun r => r.id = Example.unencodable.ID).length = 1
      ∧ InsertEvent s1 Example.unencodable = .ok s1
      ∧ s1.pk :=
  ⟨by decide, by decide,
    InsertEvent_idempotent [rowOf Example.forged] Example.unencodable 3 (by decide) (by decide)⟩

/-! ## The calendar and the RFC 3339 text of a time -/

/-- The year of the era and the day of the year computed from a day of the era. -/
theorem dayOfEra_facts (doe yoe : Int) (h0 : 0 ≤ doe) (h1 : doe ≤ 146096)
    (hy : yoe = (doe - doe / 1460 + doe / 36524 - doe / 146096) / 365) :
    0 ≤ yoe ∧ yoe ≤ 399 ∧
    0 ≤ doe - (365 * yoe + yoe / 4 - yoe / 100) ∧
    doe - (365 * yoe + yoe / 4 - yoe / 100) ≤ 365 ∧
    (doe - (365 * yoe + yoe / 4 - yoe / 100) = 365 → yoe % 4 = 3 ∧ (yoe % 100 ≠ 99 ∨ yoe = 399)) := by
  have hd : doe / 36524 = 0 ∨ doe / 36524 = 1 ∨ doe / 36524 = 2 ∨ doe / 36524 = 3 ∨ doe / 36524 = 4 := by
    omega
  have hg : yoe / 100 = 0 ∨ yoe / 100 = 1 ∨ yoe / 100 = 2 ∨ yoe / 100 = 3 := by omega
  have hc : doe / 1460 = yoe / 4 ∨ doe / 1460 = yoe / 4 + 1 ∨ doe / 1460 < yoe / 4
      ∨ doe / 1460 > yoe / 4 + 1 := by omega
  have hr : yoe % 4 = 0 ∨ yoe % 4 = 1 ∨ yoe % 4 = 2 ∨ yoe % 4 = 3 := by omega
  rcases hd with hd | hd | hd | hd | hd <;> rcases hg with hg | hg | hg | hg <;>
    rcases hc with hc | hc | hc | hc <;> rcases hr with hr | hr | hr | hr <;> omega

/-- The civil date of a day number is a valid date, and its day number is the one given. -/
theorem civil_roundtrip (z : Int) :
    daysFromCivil (civilFromDays z).1 (civilFromDays z).2.1 (civilFromDays z).2.2 = z
    ∧ 1 ≤ (civilFromDays z).2.1 ∧ (civilFromDays z).2.1 ≤ 12
    ∧ 1 ≤ (civilFromDays z).2.2
    ∧ (civilFromDays z).2.2 ≤ daysIn (civilFromDays z).1 (civilFromDays z).2.1 := by
  have hdoe0 : 0 ≤ (z + 719468) % 146097 := Int.emod_nonneg _ (by decide)
  have hdoe1 : (z + 719468) % 146097 ≤ 146096 := by omega
  have hz : z = (z + 719468) / 146097 * 146097 + (z + 719468) % 146097 - 719468 := by omega
  obtain ⟨hy0, hy1, hdoy0, hdoy1, hleap⟩ := dayOfEra_facts ((z + 719468) % 146097) _ hdoe0 hdoe1 rfl
  simp only [civilFromDays, daysFromCivil]
  generalize (z + 719468) % 146097 = doe at *
  generalize (z + 719468) / 146097 = era at *
  generalize (doe - doe / 1460 + doe / 36524 - doe / 146096) / 365 = yoe at *
  generalize hdoy : doe - (365 * yoe + yoe / 4 - yoe / 100) = doy at *
  have hmp0 : 0 ≤ (5 * doy + 2) / 153 := by omega
  have hmp1 : (5 * doy + 2) / 153 ≤ 11 := by omega
  have hd0 : 1 ≤ doy - (153 * ((5 * doy + 2) / 153) + 2) / 5 + 1 := by omega
  generalize hmp : (5 * doy + 2) / 153 = mp at *
  have e1 : (yoe + era * 400) / 400 = era := by omega
  have e2 : (yoe + era * 400) % 400 = yoe := by omega
  refine ⟨?_, ?_, ?_, hd0, ?_⟩
  · split_ifs <;> simp only [Int.add_sub_cancel, Int.sub_add_cancel, e1, e2] <;> omega
  · split_ifs <;> omega
  · split_ifs <;> omega
  · unfold daysIn isLeap
    simp only [Bool.decide_and, Bool.decide_or, Bool.and_eq_true, Bool.or_eq_true, decide_eq_true_eq,
      decide_not, Bool.not_eq_true', decide_eq_false_iff_not, ne_eq]
    split_ifs <;> omega

theorem digit?_add (x : Nat) (h : x ≤ 9) : digit? (48 + x) = some x := by
  unfold digit?
  rw [if_pos (by omega)]
  congr 1
  omega

theorem take2_pad2 (n : Nat) (rest : Bytes) (h : n < 100) : take2 (pad2 n ++ rest) = some (n, rest) := by
  have h1 : n / 10 % 10 ≤ 9 := by omega
  have h2 : n % 10 ≤ 9 := by omega
  simp only [pad2, List.cons_append, List.nil_append, take2, digit?_add _ h1, digit?_add _ h2,
    Option.bind_eq_bind, Option.some_bind, Option.pure_def, Option.some.injEq, Prod.mk.injEq, and_true]
  omega

theorem take12_pad2 (n : Nat) (rest : Bytes) (h : n < 100) : take12 (pad2 n ++ rest) = some (n, rest) := by
  have h1 : n / 10 % 10 ≤ 9 := by omega
  have h2 : n % 10 ≤ 9 := by omega
  simp only [pad2, List.cons_append, List.nil_append, take12, digit?_add _ h1, digit?_add _ h2,
    Option.some.injEq, Prod.mk.injEq, and_true]
  omega

theorem take4_pad4 (n : Nat) (rest : Bytes) (h : n < 10000) : take4 (pad4 n ++ rest) = some (n, rest) := by
  have h1 : n / 1000 % 10 ≤ 9 := by omega
  have h2 : n / 100 % 10 ≤ 9 := by omega
  have h3 : n / 10 % 10 ≤ 9 := by omega
  have h4 : n % 10 ≤ 9 := by omega
  simp only [pad4, List.cons_append, List.nil_append, take4, digit?_add _ h1, digit?_add _ h2,
    digit?_add _ h3, digit?_add _ h4,
    Option.bind_eq_bind, Option.some_bind, Option.pure_def, Option.some.injEq, Prod.mk.injEq, and_true]
  omega

theorem takeDate_formatDate (y m d : Nat) (rest : Bytes) (hy : y < 10000) (hm : m < 100) (hd : d < 100) :
    takeDate (formatDate y m d ++ rest) = some ((y, m, d), rest) := by
  simp only [takeDate, formatDate, List.append_assoc, List.cons_append, take4_pad4 _ _ hy,
    take2_pad2 _ _ hm, take2_pad2 _ _ hd, Option.some_bind, expect, if_true]

theorem takeClock_formatClock (sod : Nat) (rest : Bytes) (h : sod < 86400) :
    takeClock (formatClock sod ++ rest) = some ((sod / 3600, sod / 60 % 60, sod % 60), rest) := by
  have h1 : sod / 3600 < 100 := by omega
  have h2 : sod / 60 % 60 < 100 := by omega
  have h3 : sod % 60 < 100 := by omega
  simp only [takeClock, formatClock, List.append_assoc, List.cons_append, take12_pad2 _ _ h1,
    take2_pad2 _ _ h2, take2_pad2 _ _ h3, Option.some_bind, expect, if_true]


theorem pad9_digits (n : Nat) : ∀ b ∈ pad9 n, 48 ≤ b ∧ b ≤ 57 := by
  intro b hb
  simp only [pad9, List.mem_cons, List.mem_singleton, List.not_mem_nil, or_false] at hb
  rcases hb with h | h | h | h | h | h | h | h | h <;> omega

theorem trimZeros_digits (ds : Bytes) (h : ∀ b ∈ ds, 48 ≤ b ∧ b ≤ 57) :
    ∀ b ∈ trimZeros ds, 48 ≤ b ∧ b ≤ 57 := by
  intro b hb
  have hp : trimZeros ds <+: ds := List.rdropWhile_prefix (fun x => decide (x = 48)) ds
  exact h b (hp.subset hb)

theorem trimZeros_pad9_ne_nil (n : Nat) (h0 : n ≠ 0) (h1 : n < 1000000000) : trimZeros (pad9 n) ≠ [] := by
  intro h
  have hall : ∀ x ∈ pad9 n, decide (x = 48) = true :=
    (List.rdropWhile_eq_nil_iff (p := fun x => decide (x = 48)) (l := pad9 n)).1 h
  have e : ∀ x ∈ pad9 n, x = 48 := fun x hx => of_decide_eq_true (hall x hx)
  have m1 : 48 + n / 100000000 % 10 ∈ pad9 n := List.mem_cons_self _ _
  have m2 : 48 + n / 10000000 % 10 ∈ pad9 n := List.mem_cons_of_mem _ (List.mem_cons_self _ _)
  have m3 : 48 + n / 1000000 % 10 ∈ pad9 n :=
    List.mem_cons_of_mem _ (List.mem_cons_of_mem _ (List.mem_cons_self _ _))
  have m4 : 48 + n / 100000 % 10 ∈ pad9 n :=
    List.mem_cons_of_mem _ (List.mem_cons_of_mem _ (List.mem_cons_of_mem _ (List.mem_cons_self _ _)))
  have m5 : 48 + n / 10000 % 10 ∈ pad9 n :=
    List.mem_cons_of_mem _ (List.mem_cons_of_mem _ (List.mem_cons_of_mem _
      (List.mem_cons_of_mem _ (List.mem_cons_self _ _))))
  have m6 : 48 + n / 1000 % 10 ∈ pad9 n :=
    List.mem_cons_of_mem _ (List.mem_cons_of_mem _ (List.mem_cons_of_mem _
      (List.mem_cons_of_mem _ (List.mem_cons_of_mem _ (List.mem_cons_self _ _)))))
  have m7 : 48 + n / 100 % 10 ∈ pad9 n :=
    List.mem_cons_of_mem _ (List.mem_cons_of_mem _ (List.mem_cons_of_mem _
      (List.mem_cons_of_mem _ (List.mem_cons_of_mem _ (List.mem_cons_of_mem _
        (List.mem_cons_self _ _))))))
  have m8 : 48 + n / 10 % 10 ∈ pad9 n :=
    List.mem_cons_of_mem _ (List.mem_cons_of_mem _ (List.mem_cons_of_mem _
      (List.mem_cons_of_mem _ (List.mem_cons_of_mem _ (List.mem_cons_of_mem _
        (List.mem_cons_of_mem _ (List.mem_cons_self _ _)))))))
  have m9 : 48 + n % 10 ∈ pad9 n :=
    List.mem_cons_of_mem _ (List.mem_cons_of_mem _ (List.mem_cons_of_mem _
      (List.mem_cons_of_mem _ (List.mem_cons_of_mem _ (List.mem_cons_of_mem _
        (List.mem_cons_of_mem _ (List.mem_cons_of_mem _ (List.mem_cons_self _ _))))))))
  have e1 := e _ m1
  have e2 := e _ m2
  have e3 := e _ m3
  have e4 := e _ m4
  have e5 := e _ m5
  have e6 := e _ m6
  have e7 := e _ m7
  have e8 := e _ m8
  have e9 := e _ m9
  omega

/-- Reading a fractional second stops where the digits stop. -/
theorem takeFrac_digits (ds rest : Bytes) (scale : Nat) (h : ∀ b ∈ ds, 48 ≤ b ∧ b ≤ 57)
    (hrest : ∀ c r, rest = c :: r → digit? c = none) :
    (takeFrac scale (ds ++ rest)).2 = rest := by
  induction ds generalizing scale with
  | nil =>
    cases rest with
    | nil => rfl
    | cons c r =>
      simp only [List.nil_append, takeFrac, hrest c r rfl]
  | cons b ds ih =>
    have hb := h b (List.mem_cons_self _ _)
    have hd : digit? b = some (b - 48) := by
      unfold digit?
      rw [if_pos hb]
    simp only [List.cons_append, takeFrac, hd]
    exact ih (scale / 10) (fun x hx => h x (List.mem_cons_of_mem _ hx))

/-- Where no period and no comma stands, no fractional second is read. -/
theorem takeNano_none (c : Nat) (r : Bytes) (h1 : c ≠ 46) (h2 : c ≠ 44) :
    takeNano (c :: r) = some (0, c :: r) := by
  cases r with
  | nil => rfl
  | cons c1 r1 =>
    simp only [takeNano]
    rw [if_neg (fun h => by rcases h.1 with h | h <;> omega)]

/-- The digits `trimZeros` removes are zeros. -/
theorem trimZeros_split (ds : Bytes) : ∃ k, ds = trimZeros ds ++ List.replicate k 48 := by
  induction ds using List.reverseRecOn with
  | nil => exact ⟨0, rfl⟩
  | append_singleton ds x ih =>
    obtain ⟨k, hk⟩ := ih
    have e : trimZeros (ds ++ [x]) = if decide (x = 48) = true then trimZeros ds else ds ++ [x] :=
      List.rdropWhile_concat (fun x => decide (x = 48)) ds x
    rw [e]
    split_ifs with hx
    · have hx48 : x = 48 := of_decide_eq_true hx
      refine ⟨k + 1, ?_⟩
      rw [List.replicate_succ', ← List.append_assoc, ← hk, hx48]
    · exact ⟨0, by simp⟩

theorem takeFrac_cons (scale b v : Nat) (rest : Bytes) (h : digit? b = some v) :
    takeFrac scale (b :: rest)
      = (v * scale + (takeFrac (scale / 10) rest).1, (takeFrac (scale / 10) rest).2) := by
  simp only [takeFrac, h]

/-- Zeros before the end of the digits have the value zero. -/
theorem takeFrac_zeros (k scale c : Nat) (r : Bytes) (hc : digit? c = none) :
    takeFrac scale (List.replicate k 48 ++ c :: r) = (0, c :: r) := by
  induction k generalizing scale with
  | zero => simp only [List.replicate_zero, List.nil_append, takeFrac, hc]
  | succ k ih =>
    have hd : digit? 48 = some 0 := rfl
    rw [List.replicate_succ, List.cons_append, takeFrac_cons _ _ _ _ hd, ih]
    simp only [Nat.zero_mul, Nat.zero_add]

/-- Zeros at the end of a fractional second do not change its value. -/
theorem takeFrac_trim (ds : Bytes) (k scale c : Nat) (r : Bytes)
    (h : ∀ b ∈ ds, 48 ≤ b ∧ b ≤ 57) (hc : digit? c = none) :
    takeFrac scale (ds ++ (List.replicate k 48 ++ c :: r)) = takeFrac scale (ds ++ c :: r) := by
  induction ds generalizing scale with
  | nil =>
    rw [List.nil_append, List.nil_append, takeFrac_zeros k scale c r hc]
    simp only [takeFrac, hc]
  | cons b ds ih =>
    have hb := h b (List.mem_cons_self _ _)
    have hd : digit? b = some (b - 48) := by
      unfold digit?
      rw [if_pos hb]
    rw [List.cons_append, List.cons_append, takeFrac_cons _ _ _ _ hd, takeFrac_cons _ _ _ _ hd,
      ih (scale / 10) (fun x hx => h x (List.mem_cons_of_mem _ hx))]

/-- The nine digits of a number of nanoseconds are read back as that number. -/
theorem takeFrac_pad9 (n c : Nat) (r : Bytes) (h : n < 1000000000) (hc : digit? c = none) :
    takeFrac 100000000 (pad9 n ++ c :: r) = (n, c :: r) := by
  have h1 : n / 100000000 % 10 ≤ 9 := by omega
  have h2 : n / 10000000 % 10 ≤ 9 := by omega
  have h3 : n / 1000000 % 10 ≤ 9 := by omega
  have h4 : n / 100000 % 10 ≤ 9 := by omega
  have h5 : n / 10000 % 10 ≤ 9 := by omega
  have h6 : n / 1000 % 10 ≤ 9 := by omega
  have h7 : n / 100 % 10 ≤ 9 := by omega
  have h8 : n / 10 % 10 ≤ 9 := by omega
  have h9 : n % 10 ≤ 9 := by omega
  simp only [pad9, List.cons_append, List.nil_append, takeFrac, digit?_add _ h1, digit?_add _ h2,
    digit?_add _ h3, digit?_add _ h4, digit?_add _ h5, digit?_add _ h6, digit?_add _ h7,
    digit?_add _ h8, digit?_add _ h9, hc, Nat.reduceDiv, Prod.mk.injEq, and_true]
  omega

/-- The fractional second `Time.format` writes is read back, up to the zone. -/
theorem takeNano_formatNano (nsec : Nat) (zt : Bytes) (h1 : nsec < 1000000000)
    (hz : ∃ c r, zt = c :: r ∧ (c = 90 ∨ c = 43 ∨ c = 45)) :
    takeNano (formatNano nsec ++ zt) = some (nsec, zt) := by
  obtain ⟨c, r, rfl, hc⟩ := hz
  have hnd : digit? c = none := by
    unfold digit?
    rw [if_neg (by omega)]
  unfold formatNano
  split_ifs with h0
  · rw [h0]
    exact takeNano_none c r (by omega) (by omega)
  · have hne := trimZeros_pad9_ne_nil nsec h0 h1
    have hdig := trimZeros_digits _ (pad9_digits nsec)
    obtain ⟨k, hk⟩ := trimZeros_split (pad9 nsec)
    have hv : takeFrac 100000000 (trimZeros (pad9 nsec) ++ c :: r) = (nsec, c :: r) := by
      rw [← takeFrac_trim _ k _ _ _ hdig hnd, ← List.append_assoc, ← hk]
      exact takeFrac_pad9 nsec c r h1 hnd
    cases htz : trimZeros (pad9 nsec) with
    | nil => exact absurd htz hne
    | cons b ds =>
      rw [htz] at hdig hv
      have hb := hdig b (List.mem_cons_self _ _)
      have hd : (digit? b).isSome = true := by
        unfold digit?
        rw [if_pos hb]
        rfl
      simp only [List.cons_append, takeNano, hd, true_or, and_self, if_true]
      exact congrArg some hv

theorem natDigitsAux_plain (fuel n : Nat) (acc : Bytes) (h : ∀ b ∈ acc, 48 ≤ b ∧ b ≤ 57) :
    ∀ b ∈ natDigitsAux fuel n acc, 48 ≤ b ∧ b ≤ 57 := by
  induction fuel generalizing n acc with
  | zero => exact h
  | succ fuel ih =>
    unfold natDigitsAux
    split_ifs with h1
    · intro b hb
      rcases List.mem_cons.1 hb with rfl | hb
      · omega
      · exact h b hb
    · apply ih
      intro b hb
      rcases List.mem_cons.1 hb with rfl | hb
      · omega
      · exact h b hb

theorem natDigitsAux_small (fuel n : Nat) (acc : Bytes) (h : n < 10) :
    natDigitsAux (fuel + 1) n acc = (48 + n) :: acc := by
  rw [natDigitsAux, if_pos h]

theorem natDigitsAux_large (fuel n : Nat) (acc : Bytes) (h : 10 ≤ n) :
    natDigitsAux (fuel + 1) n acc = natDigitsAux fuel (n / 10) ((48 + n % 10) :: acc) := by
  rw [natDigitsAux, if_neg (by omega)]

/-- A number below 100 is written by `appendInt` with two digits. -/
theorem appendInt_pad2 (n : Nat) (h : n < 100) : appendInt (n : Int) 2 = pad2 n := by
  have hneg : ¬ ((n : Int) < 0) := by omega
  simp only [appendInt, Int.natAbs_ofNat, hneg, if_false, List.nil_append, natDigits, pad2]
  by_cases h10 : n < 10
  · rw [natDigitsAux_small _ _ _ h10]
    have e1 : n / 10 % 10 = 0 := by omega
    have e2 : n % 10 = n := by omega
    rw [e1, e2]
    rfl
  · obtain ⟨m, rfl⟩ : ∃ m, n = m + 1 := ⟨n - 1, by omega⟩
    rw [natDigitsAux_large _ _ _ (by omega), natDigitsAux_small _ _ _ (by omega)]
    have e1 : (m + 1) / 10 % 10 = (m + 1) / 10 := by omega
    rw [e1]
    rfl

/-- A number below 10000 is written by `appendInt` with four digits. -/
theorem appendInt_pad4 (n : Nat) (h : n < 10000) : appendInt (n : Int) 4 = pad4 n := by
  have hneg : ¬ ((n : Int) < 0) := by omega
  simp only [appendInt, Int.natAbs_ofNat, hneg, if_false, List.nil_append, natDigits, pad4]
  by_cases h10 : n < 10
  · rw [natDigitsAux_small _ _ _ h10]
    have e1 : n / 1000 % 10 = 0 := by omega
    have e2 : n / 100 % 10 = 0 := by omega
    have e3 : n / 10 % 10 = 0 := by omega
    have e4 : n % 10 = n := by omega
    rw [e1, e2, e3, e4]
    rfl
  · by_cases h100 : n < 100
    · obtain ⟨m, rfl⟩ : ∃ m, n = m + 1 := ⟨n - 1, by omega⟩
      rw [natDigitsAux_large _ _ _ (by omega), natDigitsAux_small _ _ _ (by omega)]
      have e1 : (m + 1) / 1000 % 10 = 0 := by omega
      have e2 : (m + 1) / 100 % 10 = 0 := by omega
      have e3 : (m + 1) / 10 % 10 = (m + 1) / 10 := by omega
      rw [e1, e2, e3]
      rfl
    · by_cases h1000 : n < 1000
      · obtain ⟨m, rfl⟩ : ∃ m, n = m + 1 + 1 := ⟨n - 2, by omega⟩
        rw [natDigitsAux_large _ _ _ (by omega), natDigitsAux_large _ _ _ (by omega),
          natDigitsAux_small _ _ _ (by omega)]
        have e1 : (m + 1 + 1) / 1000 % 10 = 0 := by omega
        have e2 : (m + 1 + 1) / 100 % 10 = (m + 1 + 1) / 10 / 10 := by omega
        have e3 : (m + 1 + 1) / 10 % 10 = (m + 1 + 1) / 10 % 10 := rfl
        rw [e1, e2]
        rfl
      · obtain ⟨m, rfl⟩ : ∃ m, n = m + 1 + 1 + 1 := ⟨n - 3, by omega⟩
        rw [natDigitsAux_large _ _ _ (by omega), natDigitsAux_large _ _ _ (by omega),
          natDigitsAux_large _ _ _ (by omega), natDigitsAux_small _ _ _ (by omega)]
        have e1 : (m + 1 + 1 + 1) / 1000 % 10 = (m + 1 + 1 + 1) / 10 / 10 / 10 := by omega
        have e2 : (m + 1 + 1 + 1) / 100 % 10 = (m + 1 + 1 + 1) / 10 / 10 % 10 := by omega
        rw [e1, e2]
        rfl

/-- The zone `formatOffset` writes is read back, for an offset of whole minutes below 25
hours. -/
theorem takeOffset_formatOffset (loc : Int) (h60 : loc % 60 = 0) (hlo : -90000 < loc)
    (hhi : loc < 90000) : takeOffset (formatOffset loc) = some (loc, []) := by
  obtain ⟨k, rfl⟩ : ∃ k, loc = 60 * k := ⟨loc / 60, by omega⟩
  have hk : Int.tdiv (60 * k) 60 = k := Int.mul_tdiv_cancel_left k (by decide)
  simp only [formatOffset]
  rw [hk]
  have h1 : k.natAbs / 60 < 100 := by omega
  have h2 : k.natAbs % 60 < 100 := by omega
  have h3 : ¬ (24 < k.natAbs / 60 ∨ 60 < k.natAbs % 60) := by omega
  have e2 : pad2 (k.natAbs % 60) = pad2 (k.natAbs % 60) ++ [] := (List.append_nil _).symm
  rw [appendInt_pad2 _ h1, appendInt_pad2 _ h2]
  split_ifs with hneg
  · have hcast : ((k.natAbs : Nat) : Int) = -k := by omega
    generalize k.natAbs = a at *
    simp only [takeOffset, show ((45 : Nat) = 43 ∨ (45 : Nat) = 45) by decide, if_true,
      take2_pad2 _ _ h1, Option.some_bind, expect]
    rw [e2, take2_pad2 _ _ h2]
    simp only [Option.some_bind, h3, if_false, Option.some.injEq, Prod.mk.injEq, and_true,
      or_true, true_or, if_true]
    omega
  · have hcast : ((k.natAbs : Nat) : Int) = k := by omega
    generalize k.natAbs = a at *
    simp only [takeOffset, show ((43 : Nat) = 43 ∨ (43 : Nat) = 45) by decide, if_true,
      take2_pad2 _ _ h1, Option.some_bind, expect]
    rw [e2, take2_pad2 _ _ h2]
    simp only [Option.some_bind, h3, if_false, Option.some.injEq, Prod.mk.injEq, and_true,
      show ¬ ((43 : Nat) = 45) by decide, or_true, true_or, if_true]
    omega

theorem formatOffset_head (loc : Int) : ∃ c r, formatOffset loc = c :: r ∧ (c = 43 ∨ c = 45) := by
  simp only [formatOffset]
  split_ifs with h1
  · exact ⟨45, _, rfl, Or.inr rfl⟩
  · exact ⟨43, _, rfl, Or.inl rfl⟩

/-- The zone `Time.format` writes is read back, for an offset of whole minutes within a day. -/
theorem takeZone_formatZone (loc : Int) (h60 : loc % 60 = 0) (hlo : -86400 < loc) (hhi : loc < 86400) :
    takeZone (formatZone loc) = some (loc, []) := by
  unfold formatZone
  split_ifs with h0
  · subst h0
    rfl
  · obtain ⟨c, r, hcr, hc⟩ := formatOffset_head loc
    have h := takeOffset_formatOffset loc h60 (by omega) (by omega)
    rw [hcr] at h ⊢
    unfold takeZone
    rcases hc with rfl | rfl <;> exact h

theorem formatZone_head (loc : Int) : ∃ c r, formatZone loc = c :: r ∧ (c = 90 ∨ c = 43 ∨ c = 45) := by
  unfold formatZone
  split_ifs with h0
  · exact ⟨90, [], rfl, Or.inl rfl⟩
  · obtain ⟨c, r, hcr, hc⟩ := formatOffset_head loc
    exact ⟨c, r, hcr, Or.inr hc⟩

/-- The text `Time.format` writes for a time is read back by `Time.parse` as the same second in
the same zone, when the nanoseconds are below one second and the zone offset is a number of
whole minutes within a day. -/
theorem Time.parse_format (t : Time) (s : Bytes) (h : t.format = .ok s)
    (hn : t.nsec < 1000000000) (h60 : t.loc % 60 = 0) (hlo : -86400 < t.loc) (hhi : t.loc < 86400) :
    ∃ t1, Time.parse s = some t1 ∧ t1.sec = t.sec ∧ t1.loc = t.loc := by
  unfold Time.format at h
  split_ifs at h with hy
  simp only [Except.ok.injEq] at h
  subst h
  obtain ⟨hdays, hm1, hm2, hd1, hd2⟩ := civil_roundtrip ((t.sec + t.loc) / 86400)
  have hc : t.civil = civilFromDays ((t.sec + t.loc) / 86400) := rfl
  rw [← hc] at hdays hm1 hm2 hd1 hd2
  generalize t.civil = c at *
  obtain ⟨Y, M, D⟩ := c
  simp only at hy hdays hm1 hm2 hd1 hd2 ⊢
  have hd3 : D ≤ 31 := by
    have : daysIn Y M ≤ 31 := by
      unfold daysIn
      split_ifs <;> omega
    omega
  have hsod0 : 0 ≤ (t.sec + t.loc) % 86400 := Int.emod_nonneg _ (by decide)
  have hsod1 : (t.sec + t.loc) % 86400 < 86400 := Int.emod_lt_of_pos _ (by decide)
  have hsod : t.secondOfDay < 86400 := by
    unfold Time.secondOfDay
    omega
  have hsodc : (t.secondOfDay : Int) = (t.sec + t.loc) % 86400 := by
    unfold Time.secondOfDay
    exact Int.toNat_of_nonneg hsod0
  have hv := takeNano_formatNano t.nsec (formatZone t.loc) hn (formatZone_head t.loc)
  have hp : Time.parse (formatDate Y.toNat M.toNat D.toNat ++ 84 ::
      (formatClock t.secondOfDay ++ (formatNano t.nsec ++ formatZone t.loc)))
      = assemble (Y.toNat, M.toNat, D.toNat)
          (t.secondOfDay / 3600, t.secondOfDay / 60 % 60, t.secondOfDay % 60) t.nsec t.loc := by
    unfold Time.parse
    rw [takeDate_formatDate _ _ _ _ (by omega) (by omega) (by omega)]
    simp only [Option.some_bind, expect, if_true]
    rw [takeClock_formatClock _ _ hsod]
    simp only [Option.some_bind]
    rw [hv]
    simp only [Option.some_bind]
    rw [takeZone_formatZone _ h60 hlo hhi]
    simp only [Option.some_bind, ne_eq, not_true_eq_false, if_false]
  rw [hp]
  unfold assemble
  simp only
  rw [Int.toNat_of_nonneg (by omega : 0 ≤ Y), Int.toNat_of_nonneg (by omega : 0 ≤ M),
    Int.toNat_of_nonneg (by omega : 0 ≤ D)]
  rw [if_neg (by omega)]
  refine ⟨_, rfl, ?_, rfl⟩
  simp only
  rw [hdays]
  omega

/-- The text `Time.timestamp` writes for a time is read back by `parseTimestamp` as that time,
when the year is in `[0, 9999]`, the nanoseconds are below one second and the zone offset is a
number of whole minutes below 25 hours. -/
theorem parseTimestamp_timestamp (t : Time) (hy0 : 0 ≤ t.civil.1) (hy1 : t.civil.1 ≤ 9999)
    (hn : t.nsec < 1000000000) (h60 : t.loc % 60 = 0) (hlo : -90000 < t.loc) (hhi : t.loc < 90000) :
    parseTimestamp t.timestamp = some t := by
  obtain ⟨hdays, hm1, hm2, hd1, hd2⟩ := civil_roundtrip ((t.sec + t.loc) / 86400)
  have hc : t.civil = civilFromDays ((t.sec + t.loc) / 86400) := rfl
  unfold Time.timestamp
  rw [← hc] at hdays hm1 hm2 hd1 hd2
  generalize t.civil = c at *
  obtain ⟨Y, M, D⟩ := c
  simp only at hy0 hy1 hdays hm1 hm2 hd1 hd2 ⊢
  have hd3 : D ≤ 31 := by
    have : daysIn Y M ≤ 31 := by
      unfold daysIn
      split_ifs <;> omega
    omega
  have hsod0 : 0 ≤ (t.sec + t.loc) % 86400 := Int.emod_nonneg _ (by decide)
  have hsod1 : (t.sec + t.loc) % 86400 < 86400 := Int.emod_lt_of_pos _ (by decide)
  have hsod : t.secondOfDay < 86400 := by
    unfold Time.secondOfDay
    omega
  have hsodc : (t.secondOfDay : Int) = (t.sec + t.loc) % 86400 := by
    unfold Time.secondOfDay
    exact Int.toNat_of_nonneg hsod0
  obtain ⟨c, r, hcr, hc1⟩ := formatOffset_head t.loc
  have hv := takeNano_formatNano t.nsec (formatOffset t.loc) hn
    ⟨c, r, hcr, Or.inr hc1⟩
  have hyear : appendInt Y 4 = pad4 Y.toNat := by
    have h4 := appendInt_pad4 Y.toNat (by omega)
    rw [Int.toNat_of_nonneg hy0] at h4
    exact h4
  have hp : parseTimestamp (appendInt Y 4 ++ 45 :: (pad2 M.toNat ++ 45 :: (pad2 D.toNat ++ 32 ::
      (formatClock t.secondOfDay ++ (formatNano t.nsec ++ formatOffset t.loc)))))
      = assemble (Y.toNat, M.toNat, D.toNat)
          (t.secondOfDay / 3600, t.secondOfDay / 60 % 60, t.secondOfDay % 60) t.nsec t.loc := by
    have hdate : appendInt Y 4 ++ 45 :: (pad2 M.toNat ++ 45 :: (pad2 D.toNat ++ 32 ::
        (formatClock t.secondOfDay ++ (formatNano t.nsec ++ formatOffset t.loc))))
        = formatDate Y.toNat M.toNat D.toNat ++ 32 ::
          (formatClock t.secondOfDay ++ (formatNano t.nsec ++ formatOffset t.loc)) := by
      rw [hyear]
      simp only [formatDate, List.append_assoc, List.cons_append]
    rw [hdate]
    unfold parseTimestamp
    rw [takeDate_formatDate _ _ _ _ (by omega) (by omega) (by omega)]
    simp only [Option.some_bind, expect, if_true]
    rw [takeClock_formatClock _ _ hsod]
    simp only [Option.some_bind]
    rw [hv]
    simp only [Option.some_bind]
    rw [takeOffset_formatOffset _ h60 hlo hhi]
    simp only [Option.some_bind, ne_eq, not_true_eq_false, if_false]
  rw [hp]
  unfold assemble
  simp only
  rw [Int.toNat_of_nonneg (by omega : 0 ≤ Y), Int.toNat_of_nonneg (by omega : 0 ≤ M),
    Int.toNat_of_nonneg (by omega : 0 ≤ D)]
  rw [if_neg (by omega)]
  refine congrArg some ?_
  show (Time.mk _ _ _) = Time.mk t.sec t.nsec t.loc
  congr 1
  rw [hdays]
  omega


/-! ## The order of the texts of times -/

theorem textLe_cons (a b : Nat) (x y : Bytes) :
    textLe (a :: x) (b :: y) = (decide (a < b) || (decide (a = b) && textLe x y)) := rfl

theorem textLe_refl (a : Bytes) : textLe a a = true := by
  induction a with
  | nil => rfl
  | cons x a ih => simp [textLe_cons, ih]

theorem textLe_append (p a b : Bytes) : textLe (p ++ a) (p ++ b) = textLe a b := by
  induction p with
  | nil => rfl
  | cons x p ih => simp [textLe_cons, ih]

theorem precedes_cons_lt (x y : Nat) (a b : Bytes) (h : x < y) : precedes (x :: a) (y :: b) := by
  intro u v
  have h1 : ¬ y < x := by omega
  have h2 : ¬ y = x := by omega
  simp [textLe_cons, h, h1, h2]

theorem precedes_cons (x : Nat) (a b : Bytes) (h : precedes a b) : precedes (x :: a) (x :: b) := by
  intro u v
  obtain ⟨h1, h2⟩ := h u v
  simp [textLe_cons, h1, h2]

theorem precedes_append (p a b : Bytes) (h : precedes a b) : precedes (p ++ a) (p ++ b) := by
  induction p with
  | nil => exact h
  | cons x p ih => exact precedes_cons x _ _ ih

theorem precedes_tail (a b c d : Bytes) (h : precedes a b) : precedes (a ++ c) (b ++ d) := by
  intro u v
  rw [List.append_assoc, List.append_assoc]
  exact h _ _

theorem pad2_precedes (m n : Nat) (h : m < n) (hn : n < 100) : precedes (pad2 m) (pad2 n) := by
  unfold pad2
  by_cases h1 : m / 10 % 10 < n / 10 % 10
  · exact precedes_cons_lt _ _ _ _ (by omega)
  · have e : m / 10 % 10 = n / 10 % 10 := by omega
    rw [e]
    exact precedes_cons _ _ _ (precedes_cons_lt _ _ _ _ (by omega))

theorem pad4_precedes (m n : Nat) (h : m < n) (hn : n < 10000) : precedes (pad4 m) (pad4 n) := by
  unfold pad4
  by_cases h1 : m / 1000 % 10 < n / 1000 % 10
  · exact precedes_cons_lt _ _ _ _ (by omega)
  · have e1 : m / 1000 % 10 = n / 1000 % 10 := by omega
    rw [e1]
    apply precedes_cons
    by_cases h2 : m / 100 % 10 < n / 100 % 10
    · exact precedes_cons_lt _ _ _ _ (by omega)
    · have e2 : m / 100 % 10 = n / 100 % 10 := by omega
      rw [e2]
      apply precedes_cons
      by_cases h3 : m / 10 % 10 < n / 10 % 10
      · exact precedes_cons_lt _ _ _ _ (by omega)
      · have e3 : m / 10 % 10 = n / 10 % 10 := by omega
        rw [e3]
        exact precedes_cons _ _ _ (precedes_cons_lt _ _ _ _ (by omega))

/-- The order of the dates is the order of their texts. -/
theorem formatDate_precedes (y1 m1 d1 y2 m2 d2 : Nat) (hy : y2 < 10000) (hm : m2 < 100)
    (hd : d2 < 100) (h : y1 < y2 ∨ (y1 = y2 ∧ (m1 < m2 ∨ (m1 = m2 ∧ d1 < d2)))) :
    precedes (formatDate y1 m1 d1) (formatDate y2 m2 d2) := by
  unfold formatDate
  rcases h with h | ⟨rfl, h | ⟨rfl, h⟩⟩
  · exact precedes_tail _ _ _ _ (pad4_precedes _ _ h hy)
  · exact precedes_append _ _ _ (precedes_cons _ _ _ (precedes_tail _ _ _ _ (pad2_precedes _ _ h hm)))
  · exact precedes_append _ _ _ (precedes_cons _ _ _
      (precedes_append _ _ _ (precedes_cons _ _ _ (pad2_precedes _ _ h hd))))

/-- The order of the seconds of the day is the order of their texts. -/
theorem formatClock_precedes (s1 s2 : Nat) (h : s1 < s2) (h2 : s2 < 86400) :
    precedes (formatClock s1) (formatClock s2) := by
  unfold formatClock
  by_cases h1 : s1 / 3600 < s2 / 3600
  · exact precedes_tail _ _ _ _ (pad2_precedes _ _ h1 (by omega))
  · have e1 : s1 / 3600 = s2 / 3600 := by omega
    rw [e1]
    apply precedes_append
    apply precedes_cons
    by_cases h3 : s1 / 60 % 60 < s2 / 60 % 60
    · exact precedes_tail _ _ _ _ (pad2_precedes _ _ h3 (by omega))
    · have e2 : s1 / 60 % 60 = s2 / 60 % 60 := by omega
      rw [e2]
      apply precedes_append
      apply precedes_cons
      exact pad2_precedes _ _ (by omega) (by omega)

/-- The nine digits of two numbers of nanoseconds are ordered as the numbers. -/
theorem pad9_precedes (m n : Nat) (h : m < n) (hn : n < 1000000000) :
    precedes (pad9 m) (pad9 n) := by
  unfold pad9
  have q0 : m / 1000000000 = n / 1000000000 := by omega
  by_cases h0 : m / 100000000 % 10 < n / 100000000 % 10
  · exact precedes_cons_lt _ _ _ _ (Nat.add_lt_add_left h0 48)
  · have e0 : m / 100000000 % 10 = n / 100000000 % 10 := by omega
    have q1 : m / 100000000 = n / 100000000 := by omega
    clear q0 h0
    rw [e0]
    clear e0
    apply precedes_cons
    by_cases h1 : m / 10000000 % 10 < n / 10000000 % 10
    · exact precedes_cons_lt _ _ _ _ (Nat.add_lt_add_left h1 48)
    · have e1 : m / 10000000 % 10 = n / 10000000 % 10 := by omega
      have q2 : m / 10000000 = n / 10000000 := by omega
      clear q1 h1
      rw [e1]
      clear e1
      apply precedes_cons
      by_cases h2 : m / 1000000 % 10 < n / 1000000 % 10
      · exact precedes_cons_lt _ _ _ _ (Nat.add_lt_add_left h2 48)
      · have e2 : m / 1000000 % 10 = n / 1000000 % 10 := by omega
        have q3 : m / 1000000 = n / 1000000 := by omega
        clear q2 h2
        rw [e2]
        clear e2
        apply precedes_cons
        by_cases h3 : m / 100000 % 10 < n / 100000 % 10
        · exact precedes_cons_lt _ _ _ _ (Nat.add_lt_add_left h3 48)
        · have e3 : m / 100000 % 10 = n / 100000 % 10 := by omega
          have q4 : m / 100000 = n / 100000 := by omega
          clear q3 h3
          rw [e3]
          clear e3
          apply precedes_cons
          by_cases h4 : m / 10000 % 10 < n / 10000 % 10
          · exact precedes_cons_lt _ _ _ _ (Nat.add_lt_add_left h4 48)
          · have e4 : m / 10000 % 10 = n / 10000 % 10 := by omega
            have q5 : m / 10000 = n / 10000 := by omega
            clear q4 h4
            rw [e4]
            clear e4
            apply precedes_cons
            by_cases h5 : m / 1000 % 10 < n / 1000 % 10
            · exact precedes_cons_lt _ _ _ _ (Nat.add_lt_add_left h5 48)
            · have e5 : m / 1000 % 10 = n / 1000 % 10 := by omega
              have q6 : m / 1000 = n / 1000 := by omega
              clear q5 h5
              rw [e5]
              clear e5
              apply precedes_cons
              by_cases h6 : m / 100 % 10 < n / 100 % 10
              · exact precedes_cons_lt _ _ _ _ (Nat.add_lt_add_left h6 48)
              · have e6 : m / 100 % 10 = n / 100 % 10 := by omega
                have q7 : m / 100 = n / 100 := by omega
                clear q6 h6
                rw [e6]
                clear e6
                apply precedes_cons
                by_cases h7 : m / 10 % 10 < n / 10 % 10
                · exact precedes_cons_lt _ _ _ _ (Nat.add_lt_add_left h7 48)
                · have e7 : m / 10 % 10 = n / 10 % 10 := by omega
                  have q8 : m / 10 = n / 10 := by omega
                  clear q7 h7
                  rw [e7]
                  clear e7
                  apply precedes_cons
                  exact precedes_cons_lt _ _ _ _ (by omega)

theorem textLe_of_precedes (a b : Bytes) (h : precedes a b) :
    textLe a b = true ∧ textLe b a = false := by
  have := h [] []
  simpa using this

theorem textLe_pad9 (m n : Nat) (hm : m < 1000000000) (hn : n < 1000000000) :
    textLe (pad9 m) (pad9 n) = decide (m ≤ n) := by
  rcases Nat.lt_trichotomy m n with h | h | h
  · rw [(textLe_of_precedes _ _ (pad9_precedes m n h hn)).1]
    exact (decide_eq_true (by omega)).symm
  · subst h
    simp [textLe_refl]
  · rw [(textLe_of_precedes _ _ (pad9_precedes n m h hm)).2]
    exact (decide_eq_false (by omega)).symm

/-- The digits left by `trimZeros`, from the first digit on. -/
theorem trimZeros_cons (d : Nat) (ds : Bytes) :
    trimZeros (d :: ds) = if trimZeros ds = [] ∧ d = 48 then [] else d :: trimZeros ds := by
  induction ds using List.reverseRecOn with
  | nil =>
    have e : trimZeros ([] ++ [d]) = if decide (d = 48) = true then trimZeros [] else [] ++ [d] :=
      List.rdropWhile_concat (fun x => decide (x = 48)) [] d
    rw [List.nil_append] at e
    rw [e]
    by_cases h : d = 48
    · simp [h, trimZeros]
    · simp [h, trimZeros]
  | append_singleton l x ih =>
    have e1 : trimZeros ((d :: l) ++ [x])
        = if decide (x = 48) = true then trimZeros (d :: l) else (d :: l) ++ [x] :=
      List.rdropWhile_concat (fun x => decide (x = 48)) (d :: l) x
    have e2 : trimZeros (l ++ [x]) = if decide (x = 48) = true then trimZeros l else l ++ [x] :=
      List.rdropWhile_concat (fun x => decide (x = 48)) l x
    rw [List.cons_append] at e1
    rw [e1, e2]
    by_cases h : x = 48
    · simp only [h, decide_True, if_true]
      exact ih
    · simp [h]

/-- Two fractional seconds without their zeros at the end, each before the sign of a zone, are
ordered as their digits. -/
theorem textLe_trimZeros (c : Nat) (r : Bytes) (hc : c < 48) (ds1 ds2 : Bytes)
    (hlen : ds1.length = ds2.length)
    (h1 : ∀ b ∈ ds1, 48 ≤ b ∧ b ≤ 57) (h2 : ∀ b ∈ ds2, 48 ≤ b ∧ b ≤ 57) :
    textLe (trimZeros ds1 ++ c :: r) (trimZeros ds2 ++ c :: r) = textLe ds1 ds2 := by
  induction ds1 generalizing ds2 with
  | nil =>
    cases ds2 with
    | nil => exact textLe_refl _
    | cons b y => cases hlen
  | cons a x ih =>
    cases ds2 with
    | nil => cases hlen
    | cons b y =>
      have hxy : x.length = y.length := by simpa using hlen
      have hx : ∀ b ∈ x, 48 ≤ b ∧ b ≤ 57 := fun b hb => h1 b (List.mem_cons_of_mem _ hb)
      have hy : ∀ b ∈ y, 48 ≤ b ∧ b ≤ 57 := fun b hb => h2 b (List.mem_cons_of_mem _ hb)
      have ha := h1 a (List.mem_cons_self _ _)
      have hb := h2 b (List.mem_cons_self _ _)
      have ih1 := ih y hxy hx hy
      have htx := trimZeros_digits x hx
      have hty := trimZeros_digits y hy
      rw [trimZeros_cons a x, trimZeros_cons b y, textLe_cons, ← ih1]
      by_cases z1 : trimZeros x = [] ∧ a = 48
      · by_cases z2 : trimZeros y = [] ∧ b = 48
        · rw [if_pos z1, if_pos z2, z1.1, z2.1, z1.2, z2.2]
          simp [textLe_refl]
        · rw [if_pos z1, if_neg z2, z1.1, z1.2]
          have hcb : c < b := by omega
          by_cases hb48 : b = 48
          · subst hb48
            cases hty1 : trimZeros y with
            | nil => exact absurd ⟨hty1, rfl⟩ z2
            | cons e t =>
              have he := hty e (by rw [hty1]; exact List.mem_cons_self _ _)
              have hce : c < e := by omega
              simp [textLe_cons, hcb, hce]
          · have : 48 < b := by omega
            simp [textLe_cons, hcb, this]
      · by_cases z2 : trimZeros y = [] ∧ b = 48
        · rw [if_neg z1, if_pos z2, z2.1, z2.2]
          have h1 : ¬ a < c := by omega
          have h2 : ¬ a = c := by omega
          have h3 : ¬ a < 48 := by omega
          by_cases ha48 : a = 48
          · subst ha48
            cases htx1 : trimZeros x with
            | nil => exact absurd ⟨htx1, rfl⟩ z1
            | cons e t =>
              have he := htx e (by rw [htx1]; exact List.mem_cons_self _ _)
              have h4 : ¬ e < c := by omega
              have h5 : ¬ e = c := by omega
              simp [textLe_cons, h1, h2, h4, h5]
          · simp [textLe_cons, h1, h2, h3, ha48]
        · rw [if_neg z1, if_neg z2]
          rfl

/-- Two fractional seconds, each before the sign of a zone, are ordered as their nanoseconds. -/
theorem textLe_formatNano (n1 n2 : Nat) (h1 : n1 < 1000000000) (h2 : n2 < 1000000000)
    (c : Nat) (r : Bytes) (hc : c = 43 ∨ c = 45) :
    textLe (formatNano n1 ++ c :: r) (formatNano n2 ++ c :: r) = decide (n1 ≤ n2) := by
  have hc48 : c < 48 := by omega
  have hc46 : c < 46 := by omega
  unfold formatNano
  by_cases z1 : n1 = 0
  · by_cases z2 : n2 = 0
    · rw [if_pos z1, if_pos z2, z1, z2]
      simp [textLe_refl]
    · rw [if_pos z1, if_neg z2, z1]
      simp [textLe_cons, hc46]
  · by_cases z2 : n2 = 0
    · rw [if_neg z1, if_pos z2, z2]
      have h3 : ¬ 46 < c := by omega
      have h4 : ¬ 46 = c := by omega
      have h5 : ¬ n1 ≤ 0 := by omega
      simp [textLe_cons, h3, h4, h5]
    · rw [if_neg z1, if_neg z2, List.cons_append, List.cons_append, textLe_cons,
        textLe_trimZeros c r hc48 (pad9 n1) (pad9 n2) rfl (pad9_digits n1) (pad9_digits n2),
        textLe_pad9 n1 n2 h1 h2]
      simp

/-- The day number of the first of January. -/
theorem daysFromCivil_january (y : Int) :
    daysFromCivil y 1 1 = 365 * (y - 1) + (y - 1) / 4 - (y - 1) / 100 + (y - 1) / 400 - 719162 := by
  simp only [daysFromCivil]
  norm_num
  omega

/-- Every day of a year lies between its first of January and the next. -/
theorem daysFromCivil_bounds (y m d : Int) (hm1 : 1 ≤ m) (hm2 : m ≤ 12) (hd1 : 1 ≤ d)
    (hd2 : d ≤ daysIn y m) :
    daysFromCivil y 1 1 ≤ daysFromCivil y m d
      ∧ daysFromCivil y m d < daysFromCivil y 1 1 + 365 + (if isLeap y then 1 else 0) := by
  rw [daysFromCivil_january]
  have hm : m = 1 ∨ m = 2 ∨ m = 3 ∨ m = 4 ∨ m = 5 ∨ m = 6 ∨ m = 7 ∨ m = 8 ∨ m = 9 ∨ m = 10
      ∨ m = 11 ∨ m = 12 := by omega
  unfold daysIn isLeap at *
  simp only [Bool.decide_and, Bool.decide_or, Bool.and_eq_true, Bool.or_eq_true, decide_eq_true_eq,
      decide_not, Bool.not_eq_true', decide_eq_false_iff_not, ne_eq] at *
  rcases hm with h | h | h | h | h | h | h | h | h | h | h | h <;> subst h <;>
    simp only [daysFromCivil] <;> norm_num at hd2 ⊢ <;> split_ifs at hd2 ⊢ <;> omega

/-- The first of January of a later year comes after every day of an earlier year. -/
theorem daysFromCivil_year (y1 y2 : Int) (h : y1 < y2) :
    daysFromCivil y1 1 1 + 365 + (if isLeap y1 then 1 else 0) ≤ daysFromCivil y2 1 1 := by
  rw [daysFromCivil_january, daysFromCivil_january]
  unfold isLeap
  simp only [Bool.decide_and, Bool.decide_or, Bool.and_eq_true, Bool.or_eq_true, decide_eq_true_eq,
      decide_not, Bool.not_eq_true', decide_eq_false_iff_not, ne_eq]
  split_ifs <;> omega

set_option maxHeartbeats 4000000 in
/-- Within a year, a day of an earlier month comes before a day of a later month. -/
theorem daysFromCivil_month (y m1 d1 m2 d2 : Int)
    (hm1 : 1 ≤ m1) (hd2 : d1 ≤ daysIn y m1) (hn2 : m2 ≤ 12) (he1 : 1 ≤ d2) (h : m1 < m2) :
    daysFromCivil y m1 d1 < daysFromCivil y m2 d2 := by
  have hm : m1 = 1 ∨ m1 = 2 ∨ m1 = 3 ∨ m1 = 4 ∨ m1 = 5 ∨ m1 = 6 ∨ m1 = 7 ∨ m1 = 8 ∨ m1 = 9
      ∨ m1 = 10 ∨ m1 = 11 := by omega
  have hn : m2 = 2 ∨ m2 = 3 ∨ m2 = 4 ∨ m2 = 5 ∨ m2 = 6 ∨ m2 = 7 ∨ m2 = 8 ∨ m2 = 9 ∨ m2 = 10
      ∨ m2 = 11 ∨ m2 = 12 := by omega
  unfold daysIn isLeap at *
  simp only [Bool.decide_and, Bool.decide_or, Bool.and_eq_true, Bool.or_eq_true, decide_eq_true_eq,
      decide_not, Bool.not_eq_true', decide_eq_false_iff_not, ne_eq] at *
  rcases hm with h1 | h1 | h1 | h1 | h1 | h1 | h1 | h1 | h1 | h1 | h1 <;> subst h1 <;>
    rcases hn with h2 | h2 | h2 | h2 | h2 | h2 | h2 | h2 | h2 | h2 | h2 <;> subst h2 <;>
    simp only [daysFromCivil] <;> norm_num at h hd2 ⊢ <;> omega

/-- The order of the dates is the order of their day numbers. -/
theorem daysFromCivil_lex (y1 m1 d1 y2 m2 d2 : Int)
    (hm1 : 1 ≤ m1) (hm2 : m1 ≤ 12) (hd1 : 1 ≤ d1) (hd2 : d1 ≤ daysIn y1 m1)
    (hn1 : 1 ≤ m2) (hn2 : m2 ≤ 12) (he1 : 1 ≤ d2) (he2 : d2 ≤ daysIn y2 m2)
    (h : daysFromCivil y1 m1 d1 < daysFromCivil y2 m2 d2) :
    y1 < y2 ∨ (y1 = y2 ∧ (m1 < m2 ∨ (m1 = m2 ∧ d1 < d2))) := by
  rcases lt_trichotomy y1 y2 with hy | hy | hy
  · exact Or.inl hy
  · subst hy
    refine Or.inr ⟨rfl, ?_⟩
    rcases lt_trichotomy m1 m2 with hm | hm | hm
    · exact Or.inl hm
    · subst hm
      refine Or.inr ⟨rfl, ?_⟩
      by_contra hd
      have e : daysFromCivil y1 m1 d2 ≤ daysFromCivil y1 m1 d1 := by
        simp only [daysFromCivil]
        omega
      omega
    · have := daysFromCivil_month y1 m2 d2 m1 d1 hn1 he2 hm2 hd1 hm
      omega
  · exfalso
    have hyr := daysFromCivil_year y2 y1 hy
    have b1 := daysFromCivil_bounds y1 m1 d1 hm1 hm2 hd1 hd2
    have b2 := daysFromCivil_bounds y2 m2 d2 hn1 hn2 he1 he2
    omega

theorem daysIn_le (y m : Int) : daysIn y m ≤ 31 := by
  unfold daysIn
  split_ifs <;> omega

/-- The date and the clock of an earlier second on the wall clock come before those of a later
one, for years of four digits. -/
theorem wallText_precedes (w1 w2 : Int) (h : w1 < w2)
    (hy1 : 0 ≤ (civilFromDays (w1 / 86400)).1) (hy2 : (civilFromDays (w2 / 86400)).1 ≤ 9999) :
    precedes
      (formatDate (civilFromDays (w1 / 86400)).1.toNat (civilFromDays (w1 / 86400)).2.1.toNat
        (civilFromDays (w1 / 86400)).2.2.toNat ++ 32 :: formatClock (w1 % 86400).toNat)
      (formatDate (civilFromDays (w2 / 86400)).1.toNat (civilFromDays (w2 / 86400)).2.1.toNat
        (civilFromDays (w2 / 86400)).2.2.toNat ++ 32 :: formatClock (w2 % 86400).toNat) := by
  by_cases hd : w1 / 86400 < w2 / 86400
  · obtain ⟨hdays1, hm1, hm2, hd1, hd2⟩ := civil_roundtrip (w1 / 86400)
    obtain ⟨hdays2, hn1, hn2, he1, he2⟩ := civil_roundtrip (w2 / 86400)
    generalize civilFromDays (w1 / 86400) = c1 at *
    generalize civilFromDays (w2 / 86400) = c2 at *
    obtain ⟨Y1, M1, D1⟩ := c1
    obtain ⟨Y2, M2, D2⟩ := c2
    simp only at hy1 hy2 hdays1 hm1 hm2 hd1 hd2 hdays2 hn1 hn2 he1 he2 ⊢
    have hlex := daysFromCivil_lex Y1 M1 D1 Y2 M2 D2 hm1 hm2 hd1 hd2 hn1 hn2 he1 he2
      (by rw [hdays1, hdays2]; exact hd)
    have b1 := daysIn_le Y1 M1
    have b2 := daysIn_le Y2 M2
    apply precedes_tail
    apply formatDate_precedes
    · omega
    · omega
    · omega
    · omega
  · have e : w1 / 86400 = w2 / 86400 := by omega
    rw [e]
    apply precedes_append
    apply precedes_cons
    apply formatClock_precedes
    · omega
    · omega

/-- The text of a time with a year of four digits: date and clock, then fraction and zone. -/
theorem timestamp_eq (t : Time) (hy0 : 0 ≤ t.civil.1) (hy1 : t.civil.1 ≤ 9999) :
    t.timestamp =
      (formatDate (civilFromDays ((t.sec + t.loc) / 86400)).1.toNat
          (civilFromDays ((t.sec + t.loc) / 86400)).2.1.toNat
          (civilFromDays ((t.sec + t.loc) / 86400)).2.2.toNat
        ++ 32 :: formatClock ((t.sec + t.loc) % 86400).toNat)
      ++ (formatNano t.nsec ++ formatOffset t.loc) := by
  have hyear : appendInt t.civil.1 4 = pad4 t.civil.1.toNat := by
    have h4 := appendInt_pad4 t.civil.1.toNat (by omega)
    rw [Int.toNat_of_nonneg hy0] at h4
    exact h4
  unfold Time.timestamp
  rw [hyear]
  simp only [formatDate, Time.civil, Time.secondOfDay, List.append_assoc, List.cons_append]

/-- The engine orders the texts of two times of one zone, with years of four digits, as the
instants. -/
theorem timestamp_le (t1 t2 : Time) (hloc : t1.loc = t2.loc)
    (hn1 : t1.nsec < 1000000000) (hn2 : t2.nsec < 1000000000)
    (hy1 : 0 ≤ t1.civil.1) (hy2 : t1.civil.1 ≤ 9999)
    (hy3 : 0 ≤ t2.civil.1) (hy4 : t2.civil.1 ≤ 9999) :
    textLe t1.timestamp t2.timestamp = decide (t1.nanos ≤ t2.nanos) := by
  rw [timestamp_eq t1 hy1 hy2, timestamp_eq t2 hy3 hy4]
  unfold Time.nanos
  unfold Time.civil at hy1 hy2 hy3 hy4
  rcases lt_trichotomy (t1.sec + t1.loc) (t2.sec + t2.loc) with h | h | h
  · have hp := wallText_precedes _ _ h hy1 hy4
    rw [(hp _ _).1]
    exact (decide_eq_true (by omega)).symm
  · rw [h, textLe_append, hloc]
    obtain ⟨c, r, hcr, hc⟩ := formatOffset_head t2.loc
    rw [hcr, textLe_formatNano _ _ hn1 hn2 c r hc]
    have hs : t1.sec = t2.sec := by omega
    rw [hs]
    by_cases hn : t1.nsec ≤ t2.nsec
    · rw [decide_eq_true hn]
      exact (decide_eq_true (by omega)).symm
    · rw [decide_eq_false hn]
      exact (decide_eq_false (by omega)).symm
  · have hp := wallText_precedes _ _ h hy3 hy2
    rw [(hp _ _).2]
    exact (decide_eq_false (by omega)).symm


/-! ## The sampling query -/

/-- The row drawn from a non-empty list is one of its rows. -/
theorem pickRandom_mem (rows : List Row) (rnd : Nat) (h : rows ≠ []) :
    ∃ r, pickRandom rows rnd = some r ∧ r ∈ rows := by
  have hlen : 0 < rows.length := List.length_pos.2 h
  have hlt : rnd % rows.length < rows.length := Nat.mod_lt _ hlen
  refine ⟨rows.get ⟨rnd % rows.length, hlt⟩, ?_, List.get_mem _ _ _⟩
  unfold pickRandom
  exact List.get?_eq_get hlt

/-- The rows the query selects, for a window and rows of one zone: those of the type whose
instant lies in the window, both ends included. -/
theorem mem_selectWindow (s : Store) (eventType : Bytes) (start stop : Time) (z : Int)
    (hstart : start.inZone z) (hstop : stop.inZone z) (r : Row)
    (hr : r.typ = eventType → r.time.inZone z) :
    r ∈ selectWindow s eventType start stop ↔
      r ∈ s ∧ r.typ = eventType ∧ start.nanos ≤ r.time.nanos ∧ r.time.nanos ≤ stop.nanos := by
  obtain ⟨sl, sn, sy0, sy1⟩ := hstart
  obtain ⟨el, en, ey0, ey1⟩ := hstop
  unfold selectWindow
  rw [List.mem_filter]
  constructor
  · rintro ⟨hs, hf⟩
    obtain ⟨ht, h1, h2⟩ := of_decide_eq_true hf
    obtain ⟨rl, rn, ry0, ry1⟩ := hr ht
    rw [timestamp_le start r.time (by rw [sl, rl]) sn rn sy0 sy1 ry0 ry1] at h1
    rw [timestamp_le r.time stop (by rw [el, rl]) rn en ry0 ry1 ey0 ey1] at h2
    exact ⟨hs, ht, of_decide_eq_true h1, of_decide_eq_true h2⟩
  · rintro ⟨hs, ht, h1, h2⟩
    obtain ⟨rl, rn, ry0, ry1⟩ := hr ht
    refine ⟨hs, decide_eq_true ⟨ht, ?_, ?_⟩⟩
    · rw [timestamp_le start r.time (by rw [sl, rl]) sn rn sy0 sy1 ry0 ry1]
      exact decide_eq_true h1
    · rw [timestamp_le r.time stop (by rw [el, rl]) rn en ry0 ry1 ey0 ey1]
      exact decide_eq_true h2

/-- The time the driver reads back from the text of a time is that time, when the year has four
digits, the nanoseconds are below one second and the zone offset is a number of whole minutes
below 25 hours. -/
theorem scanTime_timestamp (t : Time) (z : Int) (h : t.inZone z) (h60 : z % 60 = 0)
    (hlo : -90000 < z) (hhi : z < 90000) : scanTime t.timestamp = t := by
  obtain ⟨hl, hn, hy0, hy1⟩ := h
  subst hl
  unfold scanTime
  rw [parseTimestamp_timestamp t hy0 hy1 hn h60 hlo hhi]
  rfl

/-- C7, as amended: for a window and stored times of the requested type that lie in one zone,
with years of four digits, and a query the driver answers, `GetEvent` returns `(nil, nil)`
exactly when no stored row has the type and a time in `[start, stop]`, both ends included;
otherwise it draws one such row, and returns its event without error when the extra fields of
the row decode, and an error when they do not. The time of the event returned is the time
stored when the zone offset is a number of whole minutes below 25 hours. -/
theorem GetEvent_spec (s : Store) (rnd : Nat) (eventType : Bytes) (start stop : Time) (z : Int)
    (hstart : start.inZone z) (hstop : stop.inZone z)
    (hrows : ∀ r ∈ s, r.typ = eventType → r.time.inZone z) :
    (GetEvent s none rnd eventType start stop = .ok none ↔
      ∀ r ∈ s, ¬ (r.typ = eventType ∧ start.nanos ≤ r.time.nanos ∧ r.time.nanos ≤ stop.nanos))
    ∧ ((∃ r ∈ s, r.typ = eventType ∧ start.nanos ≤ r.time.nanos ∧ r.time.nanos ≤ stop.nanos) →
      ∃ r ∈ s, r.typ = eventType ∧ start.nanos ≤ r.time.nanos ∧ r.time.nanos ≤ stop.nanos
        ∧ ((∃ x, ExtraFields.Scan r.extra_fields = .ok x
              ∧ GetEvent s none rnd eventType start stop
                  = .ok (some { ID := r.id, Typ := r.typ, Time := scanTime r.time.timestamp,
                                ExtraFields := x }))
          ∨ (∃ msg msg1, ExtraFields.Scan r.extra_fields = .error msg
              ∧ GetEvent s none rnd eventType start stop = .error msg1))
        ∧ (z % 60 = 0 → -90000 < z → z < 90000 → scanTime r.time.timestamp = r.time)) := by
  have hmem : ∀ r, r ∈ selectWindow s eventType start stop ↔
      r ∈ s ∧ r.typ = eventType ∧ start.nanos ≤ r.time.nanos ∧ r.time.nanos ≤ stop.nanos := by
    intro r
    by_cases hr : r ∈ s
    · exact mem_selectWindow s eventType start stop z hstart hstop r (hrows r hr)
    · constructor
      · intro h
        exact absurd (List.mem_filter.1 h).1 hr
      · intro h
        exact absurd h.1 hr
  have hsome : selectWindow s eventType start stop ≠ [] →
      ∃ r ∈ s, r.typ = eventType ∧ start.nanos ≤ r.time.nanos ∧ r.time.nanos ≤ stop.nanos
        ∧ ((∃ x, ExtraFields.Scan r.extra_fields = .ok x
              ∧ GetEvent s none rnd eventType start stop
                  = .ok (some { ID := r.id, Typ := r.typ, Time := scanTime r.time.timestamp,
                                ExtraFields := x }))
          ∨ (∃ msg msg1, ExtraFields.Scan r.extra_fields = .error msg
              ∧ GetEvent s none rnd eventType start stop = .error msg1))
        ∧ (z % 60 = 0 → -90000 < z → z < 90000 → scanTime r.time.timestamp = r.time) := by
    intro hne
    obtain ⟨r, hpick, hm⟩ := pickRandom_mem _ rnd hne
    obtain ⟨hs, ht, h1, h2⟩ := (hmem r).1 hm
    refine ⟨r, hs, ht, h1, h2, ?_, fun h60 hlo hhi =>
      scanTime_timestamp r.time z (hrows r hs ht) h60 hlo hhi⟩
    cases hx : ExtraFields.Scan r.extra_fields with
    | ok x =>
      refine Or.inl ⟨x, rfl, ?_⟩
      unfold GetEvent
      simp only [hpick, structScan, hx]
    | error msg =>
      refine Or.inr ⟨msg, "error scanning event: " ++
        ("sql: Scan error on column index 3, name \"extra_fields\": " ++ msg), rfl, ?_⟩
      unfold GetEvent
      simp only [hpick, structScan, hx]
  constructor
  · constructor
    · intro hget r hr hm
      have hne : selectWindow s eventType start stop ≠ [] := by
        intro hnil
        have := (hmem r).2 ⟨hr, hm⟩
        rw [hnil] at this
        cases this
      obtain ⟨r1, -, -, -, -, hg, -⟩ := hsome hne
      rcases hg with ⟨x, -, hg⟩ | ⟨msg, msg1, -, hg⟩
      · rw [hg] at hget
        cases hget
      · rw [hg] at hget
        cases hget
    · intro hall
      have hnil : selectWindow s eventType start stop = [] := by
        apply List.eq_nil_iff_forall_not_mem.2
        intro r hr
        obtain ⟨hs, hm⟩ := (hmem r).1 hr
        exact hall r hs hm
      unfold GetEvent
      rw [hnil]
      rfl
  · rintro ⟨r, hr, hm⟩
    apply hsome
    intro hnil
    have := (hmem r).2 ⟨hr, hm⟩
    rw [hnil] at this
    cases this

set_option maxRecDepth 100000 in
/-- Witness of the amended C7: a table of three rows, two of the type `click` in the zone
+05:30 and one of another type in UTC, and a window of one second in the zone +05:30 that
holds the time of the first row. -/
theorem GetEvent_spec_witness :
    (⟨1600000000, 0, 19800⟩ : Time).inZone 19800 ∧ (⟨1600000001, 0, 19800⟩ : Time).inZone 19800
    ∧ (∀ r ∈ Example.store, r.typ = ascii "click" → r.time.inZone 19800)
    ∧ (GetEvent Example.store none 7 (ascii "click") ⟨1600000000, 0, 19800⟩ ⟨1600000001, 0, 19800⟩
          = .ok none ↔
        ∀ r ∈ Example.store, ¬ (r.typ = ascii "click"
          ∧ (⟨1600000000, 0, 19800⟩ : Time).nanos ≤ r.time.nanos
          ∧ r.time.nanos ≤ (⟨1600000001, 0, 19800⟩ : Time).nanos))
    ∧ ((∃ r ∈ Example.store, r.typ = ascii "click"
          ∧ (⟨1600000000, 0, 19800⟩ : Time).nanos ≤ r.time.nanos
          ∧ r.time.nanos ≤ (⟨1600000001, 0, 19800⟩ : Time).nanos) →
      ∃ r ∈ Example.store, r.typ = ascii "click"
        ∧ (⟨1600000000, 0, 19800⟩ : Time).nanos ≤ r.time.nanos
        ∧ r.time.nanos ≤ (⟨1600000001, 0, 19800⟩ : Time).nanos
        ∧ ((∃ x, ExtraFields.Scan r.extra_fields = .ok x
              ∧ GetEvent Example.store none 7 (ascii "click") ⟨1600000000, 0, 19800⟩
                  ⟨1600000001, 0, 19800⟩
                  = .ok (some { ID := r.id, Typ := r.typ, Time := scanTime r.time.timestamp,
                                ExtraFields := x }))
          ∨ (∃ msg msg1, ExtraFields.Scan r.extra_fields = .error msg
              ∧ GetEvent Example.store none 7 (ascii "click") ⟨1600000000, 0, 19800⟩
                  ⟨1600000001, 0, 19800⟩ = .error msg1))
        ∧ ((19800 : Int) % 60 = 0 → -90000 < (19800 : Int) → (19800 : Int) < 90000 →
            scanTime r.time.timestamp = r.time)) :=
  ⟨by decide, by decide, by decide,
    GetEvent_spec Example.store 7 (ascii "click") ⟨1600000000, 0, 19800⟩ ⟨1600000001, 0, 19800⟩
      19800 (by decide) (by decide) (by decide)⟩

set_option maxRecDepth 100000 in
/-- The call of the witness returns the first row of the table, with its time and its extra
fields as the decoder reads them. -/
theorem GetEvent_example :
    GetEvent Example.store none 7 (ascii "click") ⟨1600000000, 0, 19800⟩ ⟨1600000001, 0, 19800⟩
      = .ok (some { ID := ascii "e1", Typ := ascii "click", Time := ⟨1600000000, 120000000, 19800⟩,
                    ExtraFields := some [(ascii "label", .str (ascii "x")), (ascii "n", .float 3)] }) := by
  decide

set_option maxRecDepth 100000 in
/-- C7, counterexample. (1) After the insert, into the empty table, of an event one of whose
extra fields the JSON encoder rejects, the table holds one row, of the type `a` and the time of
the event; `GetEvent` for the type `a` and a window that holds that time returns an error.
(2) A row in the zone +05:30 whose instant lies in a window given in UTC is not found.
(3) A row of the year 10000 whose instant lies in the window is not found, and neither is a row
of the year -1 in a window from the year -2 to the year 0. (4) A row in a zone 19 minutes 32
seconds east of UTC comes back with a time 32 seconds later. (5) When the driver reports a
failure of the query, `GetEvent` returns an error although a row matches. -/
theorem GetEvent_not_as_claimed :
    (InsertEvent [] Example.unencodable = .ok [rowOf Example.unencodable]
      ∧ (rowOf Example.unencodable).typ = ascii "a"
      ∧ Example.t0.nanos ≤ (rowOf Example.unencodable).time.nanos
      ∧ (rowOf Example.unencodable).time.nanos ≤ Example.t0.nanos
      ∧ GetEvent [rowOf Example.unencodable] none 0 (ascii "a") Example.t0 Example.t0
          = .error ("error scanning event: sql: Scan error on column index 3, " ++
              "name \"extra_fields\": type assertion to []byte failed"))
    ∧ (InsertEvent [] Example.plain = .ok [rowOf Example.plain]
      ∧ (rowOf Example.plain).typ = ascii "click"
      ∧ Example.t0.nanos ≤ (rowOf Example.plain).time.nanos
      ∧ (rowOf Example.plain).time.nanos ≤ (Example.t0.Add Second).nanos
      ∧ GetEvent [rowOf Example.plain] none 0 (ascii "click") Example.t0 (Example.t0.Add Second)
          = .ok none)
    ∧ (InsertEvent [] Example.far = .ok [rowOf Example.far]
      ∧ (rowOf Example.far).typ = ascii "click"
      ∧ (Example.year10000.Add (-Second)).nanos ≤ (rowOf Example.far).time.nanos
      ∧ (rowOf Example.far).time.nanos ≤ (Example.year10000.Add Second).nanos
      ∧ GetEvent [rowOf Example.far] none 0 (ascii "click") (Example.year10000.Add (-Second))
          (Example.year10000.Add Second) = .ok none)
    ∧ (InsertEvent [] Example.early = .ok [rowOf Example.early]
      ∧ (rowOf Example.early).typ = ascii "click"
      ∧ (⟨-62230291200, 0, 0⟩ : Time).nanos ≤ (rowOf Example.early).time.nanos
      ∧ (rowOf Example.early).time.nanos ≤ (⟨-62167219200, 0, 0⟩ : Time).nanos
      ∧ GetEvent [rowOf Example.early] none 0 (ascii "click") ⟨-62230291200, 0, 0⟩
          ⟨-62167219200, 0, 0⟩ = .ok none)
    ∧ (InsertEvent [] Example.localMeanTime = .ok [rowOf Example.localMeanTime]
      ∧ GetEvent [rowOf Example.localMeanTime] none 0 (ascii "click") Example.localMeanTime.Time
          Example.localMeanTime.Time
          = .ok (some { ID := ascii "e1", Typ := ascii "click", Time := ⟨1600000032, 0, 1140⟩,
                        ExtraFields := none })
      ∧ Example.localMeanTime.Time.nanos = 1600000000000000000
      ∧ (⟨1600000032, 0, 1140⟩ : Time).nanos = 1600000032000000000)
    ∧ GetEvent [rowOf Example.plain] (some "driver: bad connection") 0 (ascii "click")
        ⟨1600000000, 0, 19800⟩ ⟨1600000001, 0, 19800⟩
        = .error "error getting event: driver: bad connection" := by
  decide

/-- The failure of the query is returned, whatever the table holds. -/
theorem GetEvent_query_error (s : Store) (msg : String) (rnd : Nat) (eventType : Bytes)
    (start stop : Time) :
    GetEvent s (some msg) rnd eventType start stop = .error ("error getting event: " ++ msg) := rfl


/-! ## Strings of ASCII characters -/

theorem runesAux_ascii (s : Bytes) (fuel : Nat) (hf : s.length ≤ fuel) (h : ∀ b ∈ s, b < 128) :
    runesAux fuel s = s.map some := by
  induction s generalizing fuel with
  | nil => cases fuel <;> rfl
  | cons b rest ih =>
    cases fuel with
    | zero => simp at hf
    | succ fuel =>
      have hb : b < 128 := h b (List.mem_cons_self _ _)
      have hd : decodeRune (b :: rest) = (some b, 1) := by
        simp only [decodeRune, if_pos hb]
      simp only [runesAux, hd, List.drop_succ_cons, List.drop_zero, List.map_cons]
      rw [ih fuel (by simpa using hf) (fun x hx => h x (List.mem_cons_of_mem _ hx))]

/-- A string of ASCII characters is valid UTF-8: it is written to JSON and read back unchanged. -/
theorem toValidUTF8_ascii (s : Bytes) (h : ∀ b ∈ s, b < 128) : toValidUTF8 s = s := by
  unfold toValidUTF8 runes
  rw [runesAux_ascii s s.length (Nat.le_refl _) h]
  induction s with
  | nil => rfl
  | cons b rest ih =>
    have hb : b < 128 := h b (List.mem_cons_self _ _)
    have ih1 := ih (fun x hx => h x (List.mem_cons_of_mem _ hx))
    simp only [List.map_cons, List.flatMap_cons, encodeRune, if_pos hb, List.singleton_append]
    exact congrArg _ ih1

theorem pad2_ascii (n : Nat) : ∀ b ∈ pad2 n, b < 128 := by
  intro b hb
  simp only [pad2, List.mem_cons, List.mem_singleton, List.not_mem_nil, or_false] at hb
  rcases hb with h | h <;> omega

theorem pad4_ascii (n : Nat) : ∀ b ∈ pad4 n, b < 128 := by
  intro b hb
  simp only [pad4, List.mem_cons, List.mem_singleton, List.not_mem_nil, or_false] at hb
  rcases hb with h | h | h | h <;> omega

theorem formatNano_ascii (n : Nat) : ∀ b ∈ formatNano n, b < 128 := by
  intro b hb
  unfold formatNano at hb
  split_ifs at hb
  · cases hb
  · rcases List.mem_cons.1 hb with h | h
    · omega
    · have := trimZeros_digits _ (pad9_digits n) b h
      omega

theorem appendInt_ascii (x : Int) (width : Nat) : ∀ b ∈ appendInt x width, b < 128 := by
  intro b hb
  simp only [appendInt, List.mem_append] at hb
  rcases hb with h | h | h
  · split_ifs at h
    · simp only [List.mem_singleton] at h
      omega
    · cases h
  · have := (List.mem_replicate.1 h).2
    omega
  · have := natDigitsAux_plain _ _ [] (fun b hb => by cases hb) b h
    omega

theorem formatOffset_ascii (loc : Int) : ∀ b ∈ formatOffset loc, b < 128 := by
  intro b hb
  simp only [formatOffset, List.mem_cons, List.mem_append] at hb
  rcases hb with h | h | h | h
  · split_ifs at h <;> omega
  · exact appendInt_ascii _ _ b h
  · omega
  · exact appendInt_ascii _ _ b h

theorem formatZone_ascii (loc : Int) : ∀ b ∈ formatZone loc, b < 128 := by
  intro b hb
  unfold formatZone at hb
  split_ifs at hb
  · simp only [List.mem_singleton] at hb
    omega
  · exact formatOffset_ascii loc b hb

/-- The RFC 3339 text of a time is made of ASCII characters. -/
theorem Time.format_ascii (t : Time) (s : Bytes) (h : t.format = .ok s) : ∀ b ∈ s, b < 128 := by
  unfold Time.format at h
  split_ifs at h with hy
  simp only [Except.ok.injEq] at h
  subst h
  intro b hb
  simp only [formatDate, formatClock, List.mem_cons, List.mem_append] at hb
  rcases hb with (h | h | h | h | h) | h | (h | h | h | h | h) | h | h
  · exact pad4_ascii _ b h
  · omega
  · exact pad2_ascii _ b h
  · omega
  · exact pad2_ascii _ b h
  · omega
  · exact pad2_ascii _ b h
  · omega
  · exact pad2_ascii _ b h
  · omega
  · exact pad2_ascii _ b h
  · exact formatNano_ascii _ b h
  · exact formatZone_ascii _ b h

/-! ## Numbers read back from JSON -/

theorem bitLengthAux_le (fuel n b : Nat) (h : n < 2 ^ b) : bitLengthAux fuel n ≤ b := by
  induction fuel generalizing n b with
  | zero => simp [bitLengthAux]
  | succ fuel ih =>
    unfold bitLengthAux
    split_ifs with h0
    · omega
    · cases b with
      | zero =>
        simp only [pow_zero, Nat.lt_one_iff] at h
        exact absurd h h0
      | succ b =>
        have : n / 2 < 2 ^ b := by
          rw [pow_succ] at h
          omega
        have := ih (n / 2) b this
        omega

/-- An integer of absolute value below `2^53` is read back as the `float64` of the same value. -/
theorem roundFloat64_exact (n : Int) (h : n.natAbs < 2 ^ 53) : roundFloat64 n = n := by
  have hb : bitLength n.natAbs - 53 = 0 := by
    have := bitLengthAux_le n.natAbs n.natAbs 53 h
    unfold bitLength
    omega
  unfold roundFloat64
  simp only [hb, pow_zero, Nat.div_one, Nat.mod_one, Nat.mul_zero, Nat.lt_irrefl, false_or,
    Nat.zero_ne_one, false_and, if_false, Nat.mul_one, mul_zero, zero_ne_one, lt_self_iff_false]
  rw [if_neg (by decide : ¬ ((1 : Nat) < 0 ∨ False))]
  split_ifs <;> omega

theorem decodeEncoded_int (n : Int) : decodeEncoded (.int n) = some (.float (roundFloat64 n)) := rfl

theorem decodeEncoded_str (s : Bytes) : decodeEncoded (.str s) = some (.str (toValidUTF8 s)) := rfl


/-! ## The round trip of an event through its JSON record -/

theorem GoMap.get_map_val {α β : Type} (m : GoMap α) (f : α → β) (k : Bytes) :
    GoMap.get (m.map fun kv => (kv.1, f kv.2)) k = (GoMap.get m k).map f := by
  induction m with
  | nil => rfl
  | cons kv m ih =>
    obtain ⟨k2, v2⟩ := kv
    simp only [List.map_cons, GoMap.get_cons, ih]
    split_ifs <;> rfl

theorem GoMap.keys_map_val {α β : Type} (m : GoMap α) (f : α → β) :
    GoMap.keys (m.map fun kv => (kv.1, f kv.2)) = GoMap.keys m := by
  simp [GoMap.keys, List.map_map, Function.comp_def]

/-- The map the decoder builds from the members of an object with distinct, valid keys: under
each key, the decoded value of the member. -/
theorem get_unmarshal_fold (fs : List (Bytes × Json)) (hk : ∀ k ∈ GoMap.keys fs, validUTF8 k)
    (nd : (GoMap.keys fs).Nodup) (k : Bytes) :
    GoMap.get (fs.foldl (fun acc f => GoMap.set acc (toValidUTF8 f.1) (unmarshalValue f.2)) []) k
      = (GoMap.get fs k).map unmarshalValue := by
  have e1 : fs.foldl (fun acc f => GoMap.set acc (toValidUTF8 f.1) (unmarshalValue f.2)) []
      = GoMap.setAll [] (fs.map fun f => (toValidUTF8 f.1, unmarshalValue f.2)) := by
    unfold GoMap.setAll
    rw [List.foldl_map]
  have e2 : (fs.map fun f => (toValidUTF8 f.1, unmarshalValue f.2))
      = fs.map fun f => (f.1, unmarshalValue f.2) := by
    apply List.map_congr_left
    intro f hf
    have : validUTF8 f.1 := hk f.1 (List.mem_map_of_mem Prod.fst hf)
    unfold validUTF8 at this
    rw [this]
  rw [e1, e2, GoMap.get_setAll _ _ (by rw [GoMap.keys_map_val]; exact nd), GoMap.get_nil,
    Option.or_none, GoMap.get_map_val]

theorem marshalFields_total (m : GoMap Value) (h : ∀ kv ∈ m, ∃ j, marshalValue kv.2 = .ok j) :
    ∃ fs, marshalFields m = .ok fs := by
  induction m with
  | nil => exact ⟨[], rfl⟩
  | cons kv m ih =>
    obtain ⟨k, v⟩ := kv
    obtain ⟨j, hj⟩ := h (k, v) (List.mem_cons_self _ _)
    obtain ⟨fs, hfs⟩ := ih (fun x hx => h x (List.mem_cons_of_mem _ hx))
    refine ⟨(k, j) :: fs, ?_⟩
    simp only at hj
    simp only [marshalFields, hj, hfs]

theorem get_envelope_other (e : Event) (k : Bytes) (h1 : ascii "id" ≠ k) (h2 : ascii "type" ≠ k)
    (h3 : ascii "time" ≠ k) :
    GoMap.get (GoMap.set (GoMap.set (GoMap.set [] (ascii "time") (Value.time e.Time))
        (ascii "id") (.str e.ID)) (ascii "type") (.str e.Typ)) k = none := by
  simp only [GoMap.get_set, GoMap.get_nil, if_neg h1, if_neg h2, if_neg h3]

/-- What `input` can hold under a key: an extra field, or the ID, the type or the time of the event
under their own keys. -/
theorem get_marshalInput_cases (e : Event) (nd : (GoMap.keys (entries e.ExtraFields)).Nodup)
    (k : Bytes) (v : Value) (h : GoMap.get (marshalInput e) k = some v) :
    GoMap.get (entries e.ExtraFields) k = some v
      ∨ (k = ascii "id" ∧ v = .str e.ID) ∨ (k = ascii "type" ∧ v = .str e.Typ)
      ∨ (k = ascii "time" ∧ v = .time e.Time) := by
  rw [get_marshalInput e nd] at h
  cases hx : GoMap.get (entries e.ExtraFields) k with
  | some v1 =>
    rw [hx, Option.or_some] at h
    exact Or.inl h
  | none =>
    rw [hx, Option.none_or] at h
    by_cases h1 : ascii "id" = k
    · subst h1
      rw [(get_envelope e).1] at h
      exact Or.inr (Or.inl ⟨rfl, (Option.some.inj h).symm⟩)
    · by_cases h2 : ascii "type" = k
      · subst h2
        rw [(get_envelope e).2.1] at h
        exact Or.inr (Or.inr (Or.inl ⟨rfl, (Option.some.inj h).symm⟩))
      · by_cases h3 : ascii "time" = k
        · subst h3
          rw [(get_envelope e).2.2] at h
          exact Or.inr (Or.inr (Or.inr ⟨rfl, (Option.some.inj h).symm⟩))
        · rw [get_envelope_other e k h1 h2 h3] at h
          cases h

/-- The method `MarshalJSON` succeeds when the time has an RFC 3339 text and every extra field can
be written. -/
theorem MarshalJSON_total (e : Event) (nd : (GoMap.keys (entries e.ExtraFields)).Nodup)
    (s : Bytes) (ht : e.Time.format = .ok s)
    (hv : ∀ k v, GoMap.get (entries e.ExtraFields) k = some v → ∃ j, marshalValue v = .ok j) :
    ∃ doc, e.MarshalJSON = .ok doc := by
  have hall : ∀ kv ∈ sortByKey (marshalInput e), ∃ j, marshalValue kv.2 = .ok j := by
    intro kv hkv
    have hmem : kv ∈ marshalInput e := (sortByKey_perm _).mem_iff.1 hkv
    have hget := GoMap.get_of_mem _ kv.1 kv.2 (keys_marshalInput_nodup e) hmem
    rcases get_marshalInput_cases e nd _ _ hget with h | ⟨-, h⟩ | ⟨-, h⟩ | ⟨-, h⟩
    · exact hv _ _ h
    · rw [h]
      exact ⟨_, rfl⟩
    · rw [h]
      exact ⟨_, rfl⟩
    · rw [h]
      refine ⟨.str s, ?_⟩
      rw [marshalValue, marshalTime, ht]
      rfl
  obtain ⟨fs, hfs⟩ := marshalFields_total _ hall
  refine ⟨.obj fs, ?_⟩
  unfold Event.MarshalJSON jsonMarshal
  simp only [hfs]

theorem validUTF8_keys : validUTF8 (ascii "id") ∧ validUTF8 (ascii "type") ∧ validUTF8 (ascii "time") := by
  decide


/-- C3, as amended: for an event whose extra fields have distinct valid UTF-8 keys other than `id`,
`type` and `time` and values the encoder accepts, whose ID and type are valid UTF-8 and whose
time has an RFC 3339 text that denotes it to the second, `MarshalJSON` succeeds, `UnmarshalJSON`
of its record succeeds, and the event read has the same ID, type and Unix second; its extra
fields hold, under each key, the value read back from the JSON written for the value. -/
theorem Event.roundtrip (e : Event)
    (nd : (GoMap.keys (entries e.ExtraFields)).Nodup)
    (hres : ascii "id" ∉ GoMap.keys (entries e.ExtraFields)
      ∧ ascii "type" ∉ GoMap.keys (entries e.ExtraFields)
      ∧ ascii "time" ∉ GoMap.keys (entries e.ExtraFields))
    (hkeys : ∀ k ∈ GoMap.keys (entries e.ExtraFields), validUTF8 k)
    (hid : validUTF8 e.ID) (htyp : validUTF8 e.Typ)
    (hv : ∀ k v, GoMap.get (entries e.ExtraFields) k = some v → ∃ j, marshalValue v = .ok j)
    (ht : e.Time.wireSafe) :
    ∃ doc e1, e.MarshalJSON = .ok doc ∧ Event.UnmarshalJSON (.doc doc) = .ok e1
      ∧ e1.ID = e.ID ∧ e1.Typ = e.Typ ∧ e1.Time.Unix = e.Time.Unix
      ∧ ∀ k, GoMap.get (entries e1.ExtraFields) k
          = (GoMap.get (entries e.ExtraFields) k).bind decodeEncoded := by
  obtain ⟨hy0, hy1, hn, h60, hlo, hhi⟩ := ht
  obtain ⟨s, hs⟩ : ∃ s, e.Time.format = .ok s := by
    unfold Time.format
    rw [if_neg (by omega)]
    exact ⟨_, rfl⟩
  obtain ⟨doc, hdoc⟩ := MarshalJSON_total e nd s hs hv
  obtain ⟨fs, rfl, ndfs, hg⟩ := MarshalJSON_fields e doc hdoc
  have hx0 : ∀ k, k ∉ GoMap.keys (entries e.ExtraFields) → GoMap.get (entries e.ExtraFields) k = none :=
    fun k hk => (GoMap.get_eq_none_iff _ _).2 hk
  -- the keys of the record are valid UTF-8
  have hkv : ∀ k ∈ GoMap.keys fs, validUTF8 k := by
    intro k hk
    cases hin : GoMap.get (marshalInput e) k with
    | none => exact absurd ((hg k).2 hin) (fun h => ((GoMap.get_eq_none_iff _ _).1 h) hk)
    | some v =>
      rcases get_marshalInput_cases e nd k v hin with h | ⟨h, -⟩ | ⟨h, -⟩ | ⟨h, -⟩
      · apply hkeys
        by_contra hnot
        rw [hx0 k hnot] at h
        cases h
      · rw [h]
        exact validUTF8_keys.1
      · rw [h]
        exact validUTF8_keys.2.1
      · rw [h]
        exact validUTF8_keys.2.2
  have hdec := get_unmarshal_fold fs hkv ndfs
  -- the three envelope keys of the record
  have hti : GoMap.get fs (ascii "time") = some (.str s) := by
    have h1 : GoMap.get (marshalInput e) (ascii "time") = some (.time e.Time) := by
      rw [get_marshalInput e nd, hx0 _ hres.2.2, Option.none_or]
      exact (get_envelope e).2.2
    obtain ⟨j, hj, hf⟩ := (hg _).1 _ h1
    rw [marshalValue, marshalTime, hs] at hj
    cases hj
    exact hf
  have hty : GoMap.get fs (ascii "type") = some (.str e.Typ) := by
    have h1 : GoMap.get (marshalInput e) (ascii "type") = some (.str e.Typ) := by
      rw [get_marshalInput e nd, hx0 _ hres.2.1, Option.none_or]
      exact (get_envelope e).2.1
    obtain ⟨j, hj, hf⟩ := (hg _).1 _ h1
    cases hj
    exact hf
  have hi : GoMap.get fs (ascii "id") = some (.str e.ID) := by
    have h1 : GoMap.get (marshalInput e) (ascii "id") = some (.str e.ID) := by
      rw [get_marshalInput e nd, hx0 _ hres.1, Option.none_or]
      exact (get_envelope e).1
    obtain ⟨j, hj, hf⟩ := (hg _).1 _ h1
    cases hj
    exact hf
  have hsv : toValidUTF8 s = s := toValidUTF8_ascii s (Time.format_ascii _ s hs)
  obtain ⟨t1, hparse, hsec, -⟩ := Time.parse_format e.Time s hs hn h60 hlo hhi
  unfold validUTF8 at hid htyp
  have hjson : jsonUnmarshal (.doc (.obj fs)) (some [])
      = .ok (some (fs.foldl (fun acc f => GoMap.set acc (toValidUTF8 f.1) (unmarshalValue f.2)) [])) := rfl
  generalize fs.foldl (fun acc f => GoMap.set acc (toValidUTF8 f.1) (unmarshalValue f.2)) [] = input1
    at hdec hjson
  have g1 : GoMap.get input1 (ascii "time") = some (.str s) := by
    rw [hdec, hti, Option.map_some', unmarshalValue, hsv]
  have g2 : GoMap.get input1 (ascii "type") = some (.str e.Typ) := by
    rw [hdec, hty, Option.map_some', unmarshalValue, htyp]
  have g3 : GoMap.get input1 (ascii "id") = some (.str e.ID) := by
    rw [hdec, hi, Option.map_some', unmarshalValue, hid]
  refine ⟨.obj fs, Event.mk e.ID e.Typ t1 (some
    (GoMap.delete (GoMap.delete (GoMap.delete input1 (ascii "time")) (ascii "type")) (ascii "id"))),
    hdoc, ?_, rfl, rfl, ?_, ?_⟩
  · simp only [Event.UnmarshalJSON, hjson, Option.getD_some, entries, g1, g2, g3,
      assertString, hparse, Option.map_some']
  · simp only [Time.Unix, hsec]
  · intro k
    have hl : GoMap.get (entries (some (GoMap.delete (GoMap.delete (GoMap.delete input1 (ascii "time"))
        (ascii "type")) (ascii "id")))) k
        = if ascii "id" = k then none else if ascii "type" = k then none
          else if ascii "time" = k then none else (GoMap.get fs k).map unmarshalValue := by
      simp only [entries, Option.getD_some, GoMap.get_delete, hdec]
    rw [hl]
    by_cases h1 : ascii "id" = k
    · subst h1
      rw [if_pos rfl, hx0 _ hres.1]
      rfl
    · rw [if_neg h1]
      by_cases h2 : ascii "type" = k
      · subst h2
        rw [if_pos rfl, hx0 _ hres.2.1]
        rfl
      · rw [if_neg h2]
        by_cases h3 : ascii "time" = k
        · subst h3
          rw [if_pos rfl, hx0 _ hres.2.2]
          rfl
        · rw [if_neg h3]
          have hin : GoMap.get (marshalInput e) k = GoMap.get (entries e.ExtraFields) k := by
            rw [get_marshalInput e nd, get_envelope_other e k h1 h2 h3, Option.or_none]
          cases hx : GoMap.get (entries e.ExtraFields) k with
          | none =>
            rw [hx] at hin
            rw [(hg k).2 hin]
            rfl
          | some v =>
            rw [hx] at hin
            obtain ⟨j, hj, hf⟩ := (hg k).1 v hin
            rw [hf]
            simp only [Option.map_some', Option.some_bind, decodeEncoded, hj]


set_option maxRecDepth 100000 in
/-- Witness of the amended C3: an event with an integer and a string extra field and a time with
nanoseconds in the zone +05:30. -/
theorem Event.roundtrip_witness :
    ∃ doc e1, Example.plain.MarshalJSON = .ok doc ∧ Event.UnmarshalJSON (.doc doc) = .ok e1
      ∧ e1.ID = Example.plain.ID ∧ e1.Typ = Example.plain.Typ
      ∧ e1.Time.Unix = Example.plain.Time.Unix
      ∧ ∀ k, GoMap.get (entries e1.ExtraFields) k
          = (GoMap.get (entries Example.plain.ExtraFields) k).bind decodeEncoded :=
  Event.roundtrip Example.plain (by decide) (by decide) (by decide) (by decide) (by decide)
    (by
      intro k v h
      have hm := GoMap.mem_of_get _ _ _ h
      simp only [Example.plain, entries, Option.getD_some, List.mem_cons, Prod.mk.injEq,
        List.mem_singleton, List.not_mem_nil, or_false] at hm
      rcases hm with ⟨-, rfl⟩ | ⟨-, rfl⟩ <;> exact ⟨_, rfl⟩)
    (by decide)

set_option maxRecDepth 100000 in
/-- C3, counterexample: four events that `MarshalJSON` writes and `UnmarshalJSON` reads back
changed. With an extra field `id` of value `e2`, the ID read is `e2`, not `e1`. With the extra
field `n = 2^53 + 1`, the value read is the `float64` `2^53`. With a zone 19 min 32 s east of
UTC, the time read is 32 seconds later. With the type `0xff`, the type read is U+FFFD. -/
theorem Event.roundtrip_changes :
    (Example.forged.MarshalJSON.toOption.map fun d => Event.UnmarshalJSON (.doc d))
        = some (.ok { ID := ascii "e2", Typ := ascii "click", Time := ⟨1600000000, 0, 0⟩,
                      ExtraFields := some [(ascii "n", .float 3)] })
    ∧ Example.forged.ID = ascii "e1"
    ∧ (Example.bigInt.MarshalJSON.toOption.map fun d => Event.UnmarshalJSON (.doc d))
        = some (.ok { ID := ascii "e1", Typ := ascii "click", Time := ⟨1600000000, 0, 0⟩,
                      ExtraFields := some [(ascii "n", .float 9007199254740992)] })
    ∧ Example.bigInt.ExtraFields = some [(ascii "n", .int 9007199254740993)]
    ∧ (Example.localMeanTime.MarshalJSON.toOption.map fun d => Event.UnmarshalJSON (.doc d))
        = some (.ok { ID := ascii "e1", Typ := ascii "click", Time := ⟨1600000032, 0, 1140⟩,
                      ExtraFields := some [] })
    ∧ Example.localMeanTime.Time.Unix = 1600000000
    ∧ (Example.badType.MarshalJSON.toOption.map fun d => Event.UnmarshalJSON (.doc d))
        = some (.ok { ID := ascii "e1", Typ := [239, 191, 189], Time := ⟨1600000000, 0, 0⟩,
                      ExtraFields := some [] })
    ∧ Example.badType.Typ = [255] := by
  decide


/-! ## The scan of the JSON the encoder writes -/

theorem lexRun_append (s : Lex × Nat) (a b : Bytes) :
    lexRun s (a ++ b) = (lexRun s a).bind fun s1 => lexRun s1 b := by
  induction a generalizing s with
  | nil => rfl
  | cons x a ih =>
    simp only [List.cons_append, lexRun]
    cases lexStep s x with
    | none => rfl
    | some s1 => exact ih s1

/-- Outside a string, a byte other than the backslash, the quote and `{` leaves the scan where
it is. -/
theorem lexRun_out_plain (n : Nat) (p rest : Bytes) (h : ∀ b ∈ p, b ≠ 92 ∧ b ≠ 34 ∧ b ≠ 123) :
    lexRun (.out, n) (p ++ rest) = lexRun (.out, n) rest := by
  induction p with
  | nil => rfl
  | cons b p ih =>
    obtain ⟨h1, h2, h3⟩ := h b (List.mem_cons_self _ _)
    simp only [List.cons_append, lexRun, lexStep, if_neg h1, if_neg h2, if_neg h3, Option.some_bind]
    exact ih (fun x hx => h x (List.mem_cons_of_mem _ hx))

/-- Inside a string, a byte other than the backslash and the quote leaves the scan where it
is. -/
theorem lexRun_str_plain (n : Nat) (p rest : Bytes) (h : ∀ b ∈ p, b ≠ 92 ∧ b ≠ 34) :
    lexRun (.str, n) (p ++ rest) = lexRun (.str, n) rest := by
  induction p with
  | nil => rfl
  | cons b p ih =>
    obtain ⟨h1, h2⟩ := h b (List.mem_cons_self _ _)
    simp only [List.cons_append, lexRun, lexStep, if_neg h1, if_neg h2, Option.some_bind]
    exact ih (fun x hx => h x (List.mem_cons_of_mem _ hx))

/-- Inside a string, a backslash and the byte after it leave the scan where it is. -/
theorem lexRun_str_escape (n : Nat) (b : Nat) (rest : Bytes) :
    lexRun (.str, n) (92 :: b :: rest) = lexRun (.str, n) rest := by
  simp only [lexRun, lexStep, if_true, Option.some_bind]

theorem hexDigit_plain (n : Nat) : hexDigit n ≠ 92 ∧ hexDigit n ≠ 34 := by
  unfold hexDigit
  split_ifs <;> omega

theorem encodeRune_plain (c : Nat) (hc : 128 ≤ c) : ∀ b ∈ encodeRune c, b ≠ 92 ∧ b ≠ 34 := by
  intro b hb
  unfold encodeRune at hb
  rw [if_neg (by omega)] at hb
  split_ifs at hb <;>
    simp only [List.mem_cons, List.mem_singleton, List.not_mem_nil, or_false] at hb
  · rcases hb with h | h <;> omega
  · rcases hb with h | h | h <;> omega
  · rcases hb with h | h | h | h <;> omega

/-- What the encoder writes for one rune of a string leaves the scan inside the string. -/
theorem lexRun_escapeRune (n : Nat) (r : Option Nat) (rest : Bytes) :
    lexRun (.str, n) (escapeRune r ++ rest) = lexRun (.str, n) rest := by
  have hu : ∀ (x y z w : Nat) (_ : x ≠ 92 ∧ x ≠ 34) (_ : y ≠ 92 ∧ y ≠ 34) (_ : z ≠ 92 ∧ z ≠ 34)
      (_ : w ≠ 92 ∧ w ≠ 34),
      lexRun (.str, n) ([92, 117, x, y, z, w] ++ rest) = lexRun (.str, n) rest := by
    intro x y z w hx hy hz hw
    have e : ([92, 117, x, y, z, w] ++ rest) = 92 :: 117 :: ([x, y, z, w] ++ rest) := rfl
    rw [e, lexRun_str_escape]
    apply lexRun_str_plain
    intro b hb
    simp only [List.mem_cons, List.mem_singleton, List.not_mem_nil, or_false] at hb
    rcases hb with rfl | rfl | rfl | rfl <;> assumption
  cases r with
  | none => exact hu 102 102 102 100 (by decide) (by decide) (by decide) (by decide)
  | some c =>
    unfold escapeRune
    simp only
    split_ifs with h1 h2 h3 h4 h5 h6 h7
    · exact lexRun_str_escape n c rest
    · exact lexRun_str_escape n 110 rest
    · exact lexRun_str_escape n 114 rest
    · exact lexRun_str_escape n 116 rest
    · exact hu 48 48 _ _ (by decide) (by decide) (hexDigit_plain _) (hexDigit_plain _)
    · apply lexRun_str_plain
      intro b hb
      rw [List.mem_singleton] at hb
      subst hb
      exact ⟨fun h => h2 (Or.inr h), fun h => h2 (Or.inl h)⟩
    · exact hu 50 48 50 _ (by decide) (by decide) (by decide) (hexDigit_plain _)
    · exact lexRun_str_plain n _ rest (encodeRune_plain c (by omega))

/-- A string literal leaves the scan outside strings, with the count it had. -/
theorem lexRun_quote (n : Nat) (s rest : Bytes) :
    lexRun (.out, n) (quote s ++ rest) = lexRun (.out, n) rest := by
  have hbody : ∀ rs : List (Option Nat),
      lexRun (.str, n) (rs.flatMap escapeRune ++ (34 :: rest)) = lexRun (.out, n) rest := by
    intro rs
    induction rs with
    | nil =>
      simp only [List.flatMap_nil, List.nil_append, lexRun, lexStep, Option.some_bind]
      rfl
    | cons r rs ih =>
      rw [List.flatMap_cons, List.append_assoc, lexRun_escapeRune]
      exact ih
  unfold quote
  simp only [List.cons_append, List.append_assoc, List.singleton_append, List.nil_append]
  have e : lexRun (.out, n) (34 :: ((runes s).flatMap escapeRune ++ 34 :: rest))
      = lexRun (.str, n) ((runes s).flatMap escapeRune ++ 34 :: rest) := by
    simp only [lexRun, lexStep, Option.some_bind]
    rfl
  rw [e]
  exact hbody _

theorem renderInt_plain (n : Int) : ∀ b ∈ renderInt n, b ≠ 92 ∧ b ≠ 34 ∧ b ≠ 123 := by
  have hd : ∀ m : Nat, ∀ b ∈ natDigits m, 48 ≤ b ∧ b ≤ 57 :=
    fun m => natDigitsAux_plain _ _ [] (fun b hb => by cases hb)
  intro b hb
  unfold renderInt at hb
  split_ifs at hb
  · rcases List.mem_cons.1 hb with rfl | hb
    · decide
    · have := hd _ b hb
      omega
  · have := hd _ b hb
    omega

/-- A scalar leaves the scan outside strings, with the count it had. -/
theorem lexRun_json (n : Nat) (j : Json) (rest : Bytes) :
    lexRun (.out, n) (j.render ++ rest) = lexRun (.out, n) rest := by
  cases j with
  | null => exact lexRun_out_plain n _ rest (by decide)
  | bool b =>
    cases b
    · exact lexRun_out_plain n _ rest (by decide)
    · exact lexRun_out_plain n _ rest (by decide)
  | num m => exact lexRun_out_plain n _ rest (renderInt_plain m)
  | str s => exact lexRun_quote n s rest

theorem lexRun_member (n : Nat) (f : Bytes × Json) (rest : Bytes) :
    lexRun (.out, n) (renderMember f ++ rest) = lexRun (.out, n) rest := by
  unfold renderMember
  rw [List.append_assoc, lexRun_quote]
  have e : (58 :: f.2.render) ++ rest = [58] ++ (f.2.render ++ rest) := rfl
  rw [e, lexRun_out_plain n [58] _ (by decide), lexRun_json]

theorem lexRun_members (n : Nat) (fs : List (Bytes × Json)) (rest : Bytes) :
    lexRun (.out, n) (renderMembers fs ++ rest) = lexRun (.out, n) rest := by
  induction fs with
  | nil => rfl
  | cons f fs ih =>
    cases fs with
    | nil => exact lexRun_member n f rest
    | cons g fs =>
      have e : renderMembers (f :: g :: fs) ++ rest
          = renderMember f ++ ([44] ++ (renderMembers (g :: fs) ++ rest)) := by
        simp only [renderMembers, List.append_assoc, List.cons_append, List.nil_append]
      rw [e, lexRun_member, lexRun_out_plain n [44] _ (by decide)]
      exact ih

/-- A document leaves the scan outside strings, the count raised by its braces. -/
theorem lexRun_doc (n : Nat) (d : Doc) (rest : Bytes) :
    lexRun (.out, n) (d.render ++ rest) = lexRun (.out, n + d.braces) rest := by
  cases d with
  | val j => exact lexRun_json n j rest
  | obj fs =>
    have e : (Doc.obj fs).render ++ rest = 123 :: (renderMembers fs ++ ([125] ++ rest)) := by
      simp only [Doc.render, List.cons_append, List.append_assoc]
    have e1 : lexRun (.out, n) (123 :: (renderMembers fs ++ ([125] ++ rest)))
        = lexRun (.out, n + 1) (renderMembers fs ++ ([125] ++ rest)) := by
      simp only [lexRun, lexStep, Option.some_bind]
      rfl
    rw [e, e1, lexRun_members, lexRun_out_plain (n + 1) [125] _ (by decide)]
    rfl


/-- The count of a scan never decreases. -/
theorem lexRun_count_le (w : Bytes) (s s1 : Lex × Nat) (h : lexRun s w = some s1) : s.2 ≤ s1.2 := by
  induction w generalizing s with
  | nil =>
    simp only [lexRun, Option.some.injEq] at h
    rw [h]
  | cons b w ih =>
    simp only [lexRun] at h
    cases hs : lexStep s b with
    | none =>
      rw [hs] at h
      cases h
    | some s2 =>
      rw [hs, Option.some_bind] at h
      have h2 := ih s2 h
      have h1 : s.2 ≤ s2.2 := by
        obtain ⟨m, n⟩ := s
        cases m <;> simp only [lexStep] at hs
        · split_ifs at hs <;> cases hs <;> simp
        · split_ifs at hs <;> cases hs <;> simp
        · cases hs
          simp
      omega

/-- Two scans of the same bytes, one begun inside a string and one begun outside, do not both
end outside a string. -/
theorem lexRun_lockstep (w : Bytes) (n m n1 m1 : Nat)
    (h1 : lexRun (.str, n) w = some (.out, n1)) (h2 : lexRun (.out, m) w = some (.out, m1)) :
    False := by
  induction w generalizing n m n1 m1 with
  | nil =>
    simp only [lexRun, Option.some.injEq, Prod.mk.injEq] at h1
    cases h1.1
  | cons b w ih =>
    simp only [lexRun, lexStep] at h1 h2
    by_cases hb1 : b = 92
    · rw [if_pos hb1] at h2
      cases h2
    · rw [if_neg hb1] at h1 h2
      by_cases hb2 : b = 34
      · rw [if_pos hb2, Option.some_bind] at h1 h2
        exact ih m n m1 n1 h2 h1
      · rw [if_neg hb2, Option.some_bind] at h1
        rw [if_neg hb2] at h2
        split_ifs at h2
        · rw [Option.some_bind] at h2
          exact ih n (m + 1) n1 m1 h1 h2
        · rw [Option.some_bind] at h2
          exact ih n m n1 m1 h1 h2

theorem jsonMarshal_ofMap (m : Option (GoMap Value)) (d : Doc) (h : jsonMarshal m = .ok d) :
    d.ofMap := by
  unfold jsonMarshal at h
  cases m with
  | none =>
    simp only [Except.ok.injEq] at h
    exact Or.inl h.symm
  | some m =>
    simp only at h
    split at h
    · cases h
    · simp only [Except.ok.injEq] at h
      exact Or.inr ⟨_, h.symm⟩

theorem render_obj_getLast (fs : List (Bytes × Json)) :
    ((Doc.obj fs).render).getLast? = some 125 := by
  have e : (Doc.obj fs).render = (123 :: renderMembers fs) ++ [125] := rfl
  rw [e, List.getLast?_append]
  rfl

/-- The first byte of the JSON of a map is `n` or `{`. -/
theorem render_ofMap_head (d : Doc) (h : d.ofMap) :
    ∃ b w, d.render = b :: w ∧ (b = 110 ∨ b = 123) := by
  rcases h with rfl | ⟨fs, rfl⟩
  · exact ⟨110, _, rfl, Or.inl rfl⟩
  · exact ⟨123, _, rfl, Or.inr rfl⟩

/-- The JSON of a map is not a proper suffix of the JSON of a map. -/
theorem render_not_proper_suffix (d1 d2 : Doc) (h1 : d1.ofMap) (h2 : d2.ofMap) (pre : Bytes)
    (hpre : pre ≠ []) : d2.render ≠ pre ++ d1.render := by
  intro heq
  have hlast1 : d1.render.getLast? = some 108 ∨ d1.render.getLast? = some 125 := by
    rcases h1 with rfl | ⟨fs, rfl⟩
    · exact Or.inl rfl
    · exact Or.inr (render_obj_getLast fs)
  obtain ⟨b1, w1, hw1, hb1⟩ := render_ofMap_head d1 h1
  have hlast : (pre ++ d1.render).getLast? = d1.render.getLast? := by
    rw [List.getLast?_append, hw1]
    cases hl : (b1 :: w1).getLast? with
    | none => cases List.getLast?_eq_none_iff.1 hl
    | some x => rfl
  rcases h2 with rfl | ⟨fs2, rfl⟩
  · -- the longer text is null
    have hlen := congrArg List.length heq
    rw [List.length_append] at hlen
    have hp : 0 < pre.length := List.length_pos.2 hpre
    rcases h1 with rfl | ⟨fs, rfl⟩
    · have e4 : (Doc.val Json.null).render.length = 4 := rfl
      rw [e4] at hlen
      omega
    · have := congrArg List.getLast? heq
      rw [hlast, render_obj_getLast] at this
      cases this
  · -- the longer text is an object
    have htot : lexRun (.out, 0) ((Doc.obj fs2).render ++ []) = some (.out, 1) := by
      rw [lexRun_doc]
      rfl
    rw [List.append_nil, heq, lexRun_append] at htot
    cases hp : lexRun (.out, 0) pre with
    | none =>
      rw [hp] at htot
      cases htot
    | some st =>
      rw [hp, Option.some_bind] at htot
      obtain ⟨mode, c⟩ := st
      have hc : 1 ≤ c := by
        cases pre with
        | nil => exact absurd rfl hpre
        | cons p pre1 =>
          have hp123 : p = 123 := by
            have := congrArg List.head? heq
            simp only [Doc.render, List.cons_append, List.head?_cons, Option.some.injEq] at this
            exact this.symm
          subst hp123
          have e : lexRun (.out, 0) (123 :: pre1) = lexRun (.out, 1) pre1 := by
            simp only [lexRun, lexStep, Option.some_bind]
            rfl
          rw [e] at hp
          exact lexRun_count_le pre1 _ _ hp
      have hown : lexRun (.out, 0) (d1.render ++ []) = some (.out, 0 + d1.braces) := by
        rw [lexRun_doc]
        rfl
      rw [List.append_nil] at hown
      cases mode with
      | out =>
        have h3 : lexRun (.out, c) (d1.render ++ []) = some (.out, c + d1.braces) := by
          rw [lexRun_doc]
          rfl
        rw [List.append_nil, htot] at h3
        simp only [Option.some.injEq, Prod.mk.injEq, true_and] at h3
        rcases h1 with rfl | ⟨fs, rfl⟩
        · have := congrArg List.getLast? heq
          rw [hlast, render_obj_getLast] at this
          cases this
        · simp only [Doc.braces] at h3
          omega
      | str => exact lexRun_lockstep _ _ _ _ _ htot hown
      | esc =>
        rw [hw1] at htot hown
        have e1 : lexRun (.esc, c) (b1 :: w1) = lexRun (.str, c) w1 := by
          simp only [lexRun, lexStep, Option.some_bind]
        rw [e1] at htot
        rcases hb1 with rfl | rfl
        · have e2 : lexRun (.out, 0) (110 :: w1) = lexRun (.out, 0) w1 := by
            simp only [lexRun, lexStep, Option.some_bind]
            rfl
          rw [e2] at hown
          exact lexRun_lockstep _ _ _ _ _ htot hown
        · have e2 : lexRun (.out, 0) (123 :: w1) = lexRun (.out, 1) w1 := by
            simp only [lexRun, lexStep, Option.some_bind]
            rfl
          rw [e2] at hown
          exact lexRun_lockstep _ _ _ _ _ htot hown


/-! ## The bytes `NewEvent` hashes -/

theorem MD5.write_append (d : MD5.Digest) (a b : Bytes) :
    MD5.write d (a ++ b) = MD5.write (MD5.write d a) b := by
  unfold MD5.write
  rw [List.foldl_append]

/-- The ID of an event is the hexadecimal text of the MD5 digest of `idInput`. -/
theorem NewEvent_ID (typ : Bytes) (t : Time) (f : ExtraFields) :
    (NewEvent typ t f).ID = hex (md5 (idInput typ t f)) := by
  simp only [NewEvent, md5, idInput, MD5.write_append]

theorem hexDigit_inj (a b : Nat) (h : hexDigit a = hexDigit b) : a = b := by
  unfold hexDigit at h
  split_ifs at h <;> omega

/-- Hexadecimal text determines the bytes. -/
theorem hex_inj (a b : Bytes) (h : hex a = hex b) : a = b := by
  induction a generalizing b with
  | nil =>
    cases b with
    | nil => rfl
    | cons y b => simp [hex, List.flatMap_cons] at h
  | cons x a ih =>
    cases b with
    | nil => simp [hex, List.flatMap_cons] at h
    | cons y b =>
      simp only [hex, List.flatMap_cons, List.cons_append, List.nil_append, List.cons.injEq] at h
      obtain ⟨h1, h2, h3⟩ := h
      have e1 := hexDigit_inj _ _ h1
      have e2 := hexDigit_inj _ _ h2
      have e3 : a = b := ih b h3
      have : x = y := by omega
      rw [this, e3]

theorem wrapInt64_range (x : Int) :
    -9223372036854775808 ≤ wrapInt64 x ∧ wrapInt64 x < 9223372036854775808 := by
  unfold wrapInt64
  omega

theorem littleEndianInt64_length (x : Int) : (littleEndianInt64 x).length = 8 := rfl

/-- The eight bytes written for an `int64` determine it. -/
theorem littleEndianInt64_inj (x y : Int)
    (hx : -9223372036854775808 ≤ x ∧ x < 9223372036854775808)
    (hy : -9223372036854775808 ≤ y ∧ y < 9223372036854775808)
    (h : littleEndianInt64 x = littleEndianInt64 y) : x = y := by
  have hx0 : 0 ≤ x % 18446744073709551616 := Int.emod_nonneg _ (by decide)
  have hy0 : 0 ≤ y % 18446744073709551616 := Int.emod_nonneg _ (by decide)
  have hx1 : x % 18446744073709551616 < 18446744073709551616 := Int.emod_lt_of_pos _ (by decide)
  have hy1 : y % 18446744073709551616 < 18446744073709551616 := Int.emod_lt_of_pos _ (by decide)
  have hxc : ((x % 18446744073709551616).toNat : Int) = x % 18446744073709551616 :=
    Int.toNat_of_nonneg hx0
  have hyc : ((y % 18446744073709551616).toNat : Int) = y % 18446744073709551616 :=
    Int.toNat_of_nonneg hy0
  unfold littleEndianInt64 at h
  generalize (x % 18446744073709551616).toNat = a at *
  generalize (y % 18446744073709551616).toNat = b at *
  simp only [MD5.le64, MD5.le32, MD5.mask32, List.cons_append, List.nil_append, List.cons.injEq,
    and_true] at h
  have hab : a = b := by omega
  omega

/-- The bytes hashed determine the type, the Unix second and the JSON of the extra fields, when
the JSON is that of a map. -/
theorem idInput_inj (typ1 typ2 : Bytes) (t1 t2 : Time) (f1 f2 : ExtraFields) (d1 d2 : Doc)
    (h1 : jsonMarshal f1 = .ok d1) (h2 : jsonMarshal f2 = .ok d2)
    (h : idInput typ1 t1 f1 = idInput typ2 t2 f2) :
    typ1 = typ2 ∧ t1.Unix = t2.Unix ∧ fieldsBytes f1 = fieldsBytes f2 := by
  have e1 : fieldsBytes f1 = d1.render := by simp only [fieldsBytes, h1]
  have e2 : fieldsBytes f2 = d2.render := by simp only [fieldsBytes, h2]
  have m1 := jsonMarshal_ofMap f1 d1 h1
  have m2 := jsonMarshal_ofMap f2 d2 h2
  unfold idInput at h
  rw [e1, e2, ← List.append_assoc, ← List.append_assoc] at h
  have hj : d1.render = d2.render := by
    rcases List.append_eq_append_iff.1 h with ⟨a, ha, hb⟩ | ⟨c, hc, hd⟩
    · cases a with
      | nil => simpa using hb
      | cons x a => exact absurd hb (render_not_proper_suffix d2 d1 m2 m1 (x :: a) (by simp))
    · cases c with
      | nil => simpa using hd.symm
      | cons x c => exact absurd hd (render_not_proper_suffix d1 d2 m1 m2 (x :: c) (by simp))
  rw [hj] at h
  have h3 := List.append_cancel_right h
  obtain ⟨h4, h5⟩ := List.append_inj' h3 (by rw [littleEndianInt64_length, littleEndianInt64_length])
  refine ⟨h4, ?_, by rw [e1, e2, hj]⟩
  exact littleEndianInt64_inj _ _ (wrapInt64_range _) (wrapInt64_range _) h5

/-- C2, as amended: two inputs of `NewEvent` whose extra fields the JSON encoder accepts and that
differ in the type, the Unix second of the time or the serialised extra fields are hashed as
different byte strings, so their IDs are equal only when MD5 gives these two different byte
strings the same digest. -/
theorem newEvent_ids_equal_only_by_collision (typ1 typ2 : Bytes) (t1 t2 : Time)
    (f1 f2 : ExtraFields) (d1 d2 : Doc)
    (h1 : jsonMarshal f1 = .ok d1) (h2 : jsonMarshal f2 = .ok d2)
    (hne : typ1 ≠ typ2 ∨ t1.Unix ≠ t2.Unix ∨ fieldsBytes f1 ≠ fieldsBytes f2) :
    idInput typ1 t1 f1 ≠ idInput typ2 t2 f2
    ∧ ((NewEvent typ1 t1 f1).ID = (NewEvent typ2 t2 f2).ID ↔
        md5 (idInput typ1 t1 f1) = md5 (idInput typ2 t2 f2)) := by
  constructor
  · intro h
    obtain ⟨e1, e2, e3⟩ := idInput_inj typ1 typ2 t1 t2 f1 f2 d1 d2 h1 h2 h
    rcases hne with h | h | h
    · exact h e1
    · exact h e2
    · exact h e3
  · rw [NewEvent_ID, NewEvent_ID]
    exact ⟨hex_inj _ _, congrArg hex⟩

set_option maxRecDepth 1000000 in
/-- Witness of the amended C2: two inputs that differ in the Unix second only. -/
theorem newEvent_ids_equal_only_by_collision_witness :
    idInput (ascii "click") ⟨1600000000, 0, 0⟩ (some [(ascii "n", .int 3)])
      ≠ idInput (ascii "click") ⟨1600000001, 0, 0⟩ (some [(ascii "n", .int 3)])
    ∧ ((NewEvent (ascii "click") ⟨1600000000, 0, 0⟩ (some [(ascii "n", .int 3)])).ID
        = (NewEvent (ascii "click") ⟨1600000001, 0, 0⟩ (some [(ascii "n", .int 3)])).ID ↔
      md5 (idInput (ascii "click") ⟨1600000000, 0, 0⟩ (some [(ascii "n", .int 3)]))
        = md5 (idInput (ascii "click") ⟨1600000001, 0, 0⟩ (some [(ascii "n", .int 3)]))) :=
  newEvent_ids_equal_only_by_collision (ascii "click") (ascii "click") ⟨1600000000, 0, 0⟩
    ⟨1600000001, 0, 0⟩ (some [(ascii "n", .int 3)]) (some [(ascii "n", .int 3)])
    (.obj [(ascii "n", .num 3)]) (.obj [(ascii "n", .num 3)]) (by decide) (by decide)
    (Or.inr (Or.inl (by decide)))

set_option maxRecDepth 1000000 in
/-- C2, counterexample: two pairs of inputs of `NewEvent` that differ and have the same ID. The
two 128-byte types of the first pair are an MD5 collision; time and extra fields are the same.
The inputs of the second pair differ in the type, the Unix second and the serialised extra
fields (one serialisation fails and leaves no bytes), and the bytes hashed are the same. -/
theorem newEvent_ids_collide :
    Example.collisionA ≠ Example.collisionB
    ∧ (NewEvent Example.collisionA Example.t0 none).ID = (NewEvent Example.collisionB Example.t0 none).ID
    ∧ (NewEvent Example.collisionA Example.t0 none).ID = ascii "38e3fa92a262680d95d5e72d6a400f7a"
    ∧ ascii "a" ++ [0, 0, 0, 0] ≠ ascii "a"
    ∧ Example.nullSecond.Unix ≠ (⟨0, 0, 0⟩ : Time).Unix
    ∧ fieldsBytes (some [(ascii "at", .time Example.year10000)]) ≠ fieldsBytes none
    ∧ idInput (ascii "a" ++ [0, 0, 0, 0]) Example.nullSecond (some [(ascii "at", .time Example.year10000)])
        = idInput (ascii "a") ⟨0, 0, 0⟩ none
    ∧ (NewEvent (ascii "a" ++ [0, 0, 0, 0]) Example.nullSecond
          (some [(ascii "at", .time Example.year10000)])).ID
        = (NewEvent (ascii "a") ⟨0, 0, 0⟩ none).ID := by
  decide


/-! ## Further properties of the store and the writer -/

/-- The extra fields `InsertEvent` stores for an event the JSON encoder accepts decode. -/
theorem Scan_rowOf (e : Event) (d : Doc) (h : e.ExtraFields.Value = .ok d) :
    ∃ x, ExtraFields.Scan (rowOf e).extra_fields = .ok x := by
  have hr : (rowOf e).extra_fields = some (.doc d) := by
    simp only [rowOf, h]
  rw [hr]
  rcases jsonMarshal_ofMap _ _ h with rfl | ⟨fs, rfl⟩
  · exact ⟨_, rfl⟩
  · exact ⟨_, rfl⟩

/-- After the insert, into the empty table, of an event the JSON encoder accepts, `GetEvent`
for the type of the event and a window that holds its time returns an event with its ID, type
and time, when the window and the time are in one zone of whole minutes, with years of four
digits. -/
theorem GetEvent_after_insert (e : Event) (d : Doc) (rnd : Nat) (start stop : Time) (z : Int)
    (h : e.ExtraFields.Value = .ok d)
    (hstart : start.inZone z) (hstop : stop.inZone z) (he : e.Time.inZone z)
    (h60 : z % 60 = 0) (hlo : -90000 < z) (hhi : z < 90000)
    (h1 : start.nanos ≤ e.Time.nanos) (h2 : e.Time.nanos ≤ stop.nanos) :
    ∃ s x, InsertEvent [] e = .ok s
      ∧ GetEvent s none rnd e.Typ start stop
          = .ok (some { ID := e.ID, Typ := e.Typ, Time := e.Time, ExtraFields := x }) := by
  obtain ⟨x, hx⟩ := Scan_rowOf e d h
  refine ⟨[rowOf e], x, rfl, ?_⟩
  have hm : rowOf e ∈ selectWindow [rowOf e] e.Typ start stop :=
    (mem_selectWindow [rowOf e] e.Typ start stop z hstart hstop (rowOf e) (fun _ => he)).2
      ⟨List.mem_singleton.2 rfl, rfl, h1, h2⟩
  have hsel : selectWindow [rowOf e] e.Typ start stop = [rowOf e] := by
    unfold selectWindow at hm ⊢
    rw [List.filter_cons, if_pos (List.mem_filter.1 hm).2]
    rfl
  have hpick : pickRandom [rowOf e] rnd = some (rowOf e) := by
    simp [pickRandom, Nat.mod_one]
  have ht : scanTime (rowOf e).time.timestamp = e.Time :=
    scanTime_timestamp e.Time z he h60 hlo hhi
  unfold GetEvent
  simp only [hsel, hpick, structScan, hx, ht]
  rfl

/-- The method `ExtraFields.Scan` stores a value that is a string as it is, where the comment
in its body speaks of a `map[string]float32`. -/
theorem Scan_string_value :
    ExtraFields.Scan (some (.doc (.obj [(ascii "n", .str (ascii "x"))])))
      = .ok (some [(ascii "n", .str (ascii "x"))]) := by
  decide

theorem Time.Add_loc (t : Time) (d : Int) : (t.Add d).loc = t.loc := by
  simp only [Time.Add]
  split_ifs <;> rfl

/-- The window of the reader is given in UTC. -/
theorem Reader.window_zone (now : Time) (r1 r2 : Nat) :
    (Reader.window now r1 r2).1.loc = 0 ∧ (Reader.window now r1 r2).2.loc = 0 := by
  simp only [Reader.window, Time.Add_loc, Time.UTC, and_self]

/-- The time of an event of the writer is given in UTC. -/
theorem Writer.generate_zone (w : Writer) (rnd : Nat → Nat) (now : Time) (e : Event)
    (h : w.generate rnd now = .ok e) : e.Time.loc = 0 := by
  unfold Writer.generate at h
  split_ifs at h
  simp only [Outcome.ok.injEq] at h
  rw [← h]
  rfl

/-- Every value the loop of the writer stores is an integer `v` with `0 ≤ v < 2^63 - 1`. -/
theorem genFields_values (fields : GoMap Bytes) (rnd : Nat → Nat) (i : Nat) (acc : GoMap Value)
    (k : Bytes) (v : Value) (h : GoMap.get (genFields fields rnd i acc) k = some v) :
    GoMap.get acc k = some v ∨ ∃ n : Nat, v = .int n ∧ n < 2 ^ 63 - 1 := by
  induction fields generalizing i acc with
  | nil => exact Or.inl h
  | cons ft rest ih =>
    obtain ⟨field, fieldType⟩ := ft
    unfold genFields at h
    have h32 : ∀ r, randIntn maxInt32 r < 2 ^ 63 - 1 := by
      intro r
      have : r % 2147483647 < 2147483647 := Nat.mod_lt _ (by decide)
      show r % 2147483647 < 2 ^ 63 - 1
      omega
    have h64 : ∀ r, randIntn maxInt64 r < 2 ^ 63 - 1 := by
      intro r
      exact Nat.mod_lt _ (by decide)
    split_ifs at h with c1 c2 c3
    · exact ih i acc h
    · rcases ih _ _ h with h3 | h3
      · rw [GoMap.get_set] at h3
        split_ifs at h3
        · exact Or.inr ⟨_, (Option.some.inj h3).symm, h32 _⟩
        · exact Or.inl h3
      · exact Or.inr h3
    · rcases ih _ _ h with h3 | h3
      · rw [GoMap.get_set] at h3
        split_ifs at h3
        · exact Or.inr ⟨_, (Option.some.inj h3).symm, h64 _⟩
        · exact Or.inl h3
      · exact Or.inr h3
    · exact ih i acc h


/-! ## The outcomes of `Event.UnmarshalJSON` -/

/-- The assertion `v.(string)` panics on anything but a string. -/
theorem assertString_panic (v : Option Value) (h : ∀ s, v ≠ some (.str s)) :
    ∃ msg, assertString v = .panic msg := by
  cases v with
  | none => exact ⟨_, rfl⟩
  | some x =>
    cases x with
    | str s => exact absurd rfl (h s)
    | null => exact ⟨_, rfl⟩
    | bool b => exact ⟨_, rfl⟩
    | int n => exact ⟨_, rfl⟩
    | float x => exact ⟨_, rfl⟩
    | time t => exact ⟨_, rfl⟩

theorem assertString_str (s : Bytes) : assertString (some (.str s)) = .ok s := rfl

/-- On a text that decodes to a map, `UnmarshalJSON` panics when `time` is missing or not a
string, and when `time` parses and `type` or `id` is missing or not a string. -/
theorem Event.UnmarshalJSON_panic (data : Text) (input : Option (GoMap Value))
    (hj : jsonUnmarshal data (some []) = .ok input)
    (h : (∀ s, GoMap.get (entries input) (ascii "time") ≠ some (.str s))
      ∨ (∃ ts t, GoMap.get (entries input) (ascii "time") = some (.str ts) ∧ Time.parse ts = some t
          ∧ ((∀ s, GoMap.get (entries input) (ascii "type") ≠ some (.str s))
            ∨ (∀ s, GoMap.get (entries input) (ascii "id") ≠ some (.str s))))) :
    ∃ msg, Event.UnmarshalJSON data = .panic msg := by
  unfold Event.UnmarshalJSON
  rw [hj]
  simp only
  rcases h with h | ⟨ts, t, h1, h2, h3⟩
  · obtain ⟨msg, hm⟩ := assertString_panic _ h
    rw [hm]
    exact ⟨msg, rfl⟩
  · rw [h1]
    simp only [assertString_str, h2]
    by_cases hty : ∃ s, GoMap.get (entries input) (ascii "type") = some (.str s)
    · obtain ⟨s, hs⟩ := hty
      rw [hs]
      simp only [assertString_str]
      rcases h3 with h3 | h3
      · exact absurd hs (h3 s)
      · obtain ⟨msg, hm⟩ := assertString_panic _ h3
        rw [hm]
        exact ⟨msg, rfl⟩
    · have h4 : ∀ s, GoMap.get (entries input) (ascii "type") ≠ some (.str s) :=
        fun s hs => hty ⟨s, hs⟩
      obtain ⟨msg, hm⟩ := assertString_panic _ h4
      rw [hm]
      exact ⟨msg, rfl⟩

/-- On a text that decodes to a map, the only error `UnmarshalJSON` returns is that of a `time`
string that does not parse. -/
theorem Event.UnmarshalJSON_error (data : Text) (input : Option (GoMap Value))
    (hj : jsonUnmarshal data (some []) = .ok input) (msg : String)
    (h : Event.UnmarshalJSON data = .error msg) :
    ∃ ts, GoMap.get (entries input) (ascii "time") = some (.str ts) ∧ Time.parse ts = none := by
  by_cases hti : ∃ ts, GoMap.get (entries input) (ascii "time") = some (.str ts)
  · obtain ⟨ts, hts⟩ := hti
    refine ⟨ts, hts, ?_⟩
    cases hp : Time.parse ts with
    | none => rfl
    | some t =>
      exfalso
      by_cases hty : ∃ s, GoMap.get (entries input) (ascii "type") = some (.str s)
      · by_cases hid : ∃ s, GoMap.get (entries input) (ascii "id") = some (.str s)
        · obtain ⟨s1, hs1⟩ := hty
          obtain ⟨s2, hs2⟩ := hid
          simp only [Event.UnmarshalJSON, hj, hts, hs1, hs2, assertString, hp] at h
          cases h
        · obtain ⟨m, hm⟩ := Event.UnmarshalJSON_panic data input hj
            (Or.inr ⟨ts, t, hts, hp, Or.inr (fun s hs => hid ⟨s, hs⟩)⟩)
          rw [hm] at h
          cases h
      · obtain ⟨m, hm⟩ := Event.UnmarshalJSON_panic data input hj
          (Or.inr ⟨ts, t, hts, hp, Or.inl (fun s hs => hty ⟨s, hs⟩)⟩)
        rw [hm] at h
        cases h
  · obtain ⟨m, hm⟩ := Event.UnmarshalJSON_panic data input hj
      (Or.inl (fun s hs => hti ⟨s, hs⟩))
    rw [hm] at h
    cases h

end Stream
